import Mathlib

/-!
# tfplan: flattening, change normalisation, filtering and comparison

A shallow embedding of `internal/plan/inspect.go` and `internal/plan/compare.go`.

* A Go `map[string]T` is an association list `List (String × T)`.  `mget` is the
  lookup `v, ok := m[k]`, `mset` the assignment `m[k] = v`, `mdelete` the builtin
  `delete(m, k)`, and `for k, v := range m` visits the list from left to right, so a
  list stands for the map together with one of its iteration orders.  A Go map binds
  a key once: `KeysNodup` says so, and maps that the code builds itself have the
  property by construction.
* Go maps are references.  Where the code mutates a map that is reachable under two
  names (`filterEntityDiffs`), map objects live in a heap and collections hold
  references to them; everywhere else only the contents are observed.
* A failed pattern match is `Failure.error`; a nil dereference is `Failure.panic`.
-/

namespace TfPlan

/-! ## Go maps -/

/-- Lookup `v, ok := m[k]`. -/
def mget {β : Type} : List (String × β) → String → Option β
  | [], _ => none
  | (k', v) :: t, k => if k' = k then some v else mget t k

/-- Assignment `m[k] = v`: an existing binding is replaced in place, a new one is added. -/
def mset {β : Type} : List (String × β) → String → β → List (String × β)
  | [], k, v => [(k, v)]
  | (k', v') :: t, k, v => if k' = k then (k, v) :: t else (k', v') :: mset t k v

/-- Builtin `delete(m, k)`. -/
def mdelete {β : Type} : List (String × β) → String → List (String × β)
  | [], _ => []
  | (k', v) :: t, k => if k' = k then mdelete t k else (k', v) :: mdelete t k

/-- Each key is bound once, as in every Go map. -/
def KeysNodup {β : Type} (m : List (String × β)) : Prop :=
  (m.map Prod.fst).Nodup

instance instDecidableKeysNodup {β : Type} (m : List (String × β)) : Decidable (KeysNodup m) := by
  unfold KeysNodup
  infer_instance

/-! ## Data model (`inspect.go` lines 13-61, `compare.go` lines 9-35) -/

/-- Go `Diff`: the value of an attribute before and after the planned change. -/
structure Diff where
  Before : String
  After : String
  deriving DecidableEq

/-- Go `EntityDiff`, a `map[string]*Diff` from attribute path to its difference. -/
abbrev EntityDiff := List (String × Diff)

/-- Contents of a `map[string]EntityDiff`. -/
abbrev Collection := List (String × EntityDiff)

/-- Go `Filter`: one rule of an inspect filter. -/
structure Filter where
  NamePattern : String
  DiffPatterns : List (String × List Diff)

/-- Go `InspectFilter`. -/
structure InspectFilter where
  OutputChanges : List Filter
  ResourceChanges : List Filter
  DriftChanges : List Filter

/-- Go `InspectInput`; `Filter` is a pointer and may be nil. -/
structure InspectInput where
  Filter : Option InspectFilter

/-- Go `InspectDiff`, by contents. -/
structure InspectDiff where
  Resources : Collection
  Outputs : Collection
  ResourceDrifts : Collection

/-- Go `InspectOutput`. -/
structure InspectOutput where
  Diff : InspectDiff

/-- Go `CompareEntityDiff`. -/
structure CompareEntityDiff where
  PlanA : EntityDiff
  PlanB : EntityDiff

/-- Go `CompareDiff`. -/
structure CompareDiff where
  Resources : List (String × CompareEntityDiff)
  Outputs : List (String × CompareEntityDiff)
  ResourceDrifts : List (String × CompareEntityDiff)

/-- Go `CompareInspectsOutput`. -/
structure CompareInspectsOutput where
  Diff : CompareDiff

/-- A dynamically typed value (`any`) as it occurs in a plan.  A number is carried as
its `%v` rendering, which is all that `flatten` observes of it. -/
inductive Value where
  | null
  | bool (b : Bool)
  | num (text : String)
  | str (s : String)
  | list (xs : List Value)
  | strs (ss : List String)
  | obj (kvs : List (String × Value))

/-- The fields of `tfJson.Change` that `parseChange` reads. -/
structure Change where
  Before : Value
  After : Value
  AfterUnknown : Value
  BeforeSensitive : Value
  AfterSensitive : Value

/-- The fields of `tfJson.ResourceChange` that `Inspect` reads (the change is non-nil). -/
structure ResourceChange where
  Address : String
  Change : Change

/-- The fields of `Plan` that `Inspect` reads. -/
structure Plan where
  ResourceChanges : List ResourceChange
  ResourceDrift : List ResourceChange
  OutputChanges : List (String × Change)

/-! ## `flatten` (`inspect.go` lines 68-103) -/

/-- The text `fmt.Sprintf("%v", a)` of a scalar. -/
def render : Value → String
  | .bool b => if b then "true" else "false"
  | .num text => text
  | .str s => s
  | _ => ""

/-- Path under which the `default` case writes: an empty path becomes `"."`. -/
def leafPath (path : String) : String :=
  if path = "" then path ++ "." else path

mutual
/-- Recursively writes the leaves of `a` into `kvPairs`, keyed by their path. -/
def flatten : String → Value → List (String × String) → List (String × String)
  | path, .obj av1, kvPairs => flattenFields (path ++ ".") av1 kvPairs
  | path, .list av1, kvPairs => flattenElems (path ++ ".") 0 av1 kvPairs
  | path, .strs av1, kvPairs => mset kvPairs (path ++ ".") (String.intercalate "," av1)
  | _, .null, kvPairs => kvPairs
  | path, .bool b, kvPairs => mset kvPairs (leafPath path) (render (.bool b))
  | path, .num text, kvPairs => mset kvPairs (leafPath path) (render (.num text))
  | path, .str s, kvPairs => mset kvPairs (leafPath path) (render (.str s))
/-- The loop `for k, v := range av1 { flatten(path+k, v, kvPairs) }`. -/
def flattenFields : String → List (String × Value) → List (String × String) →
    List (String × String)
  | _, [], kvPairs => kvPairs
  | path, (k, v) :: rest, kvPairs => flattenFields path rest (flatten (path ++ k) v kvPairs)
/-- The loop `for i, elem := range av1 { flatten(fmt.Sprintf("%s[%v]", path, i), ...) }`. -/
def flattenElems : String → Nat → List Value → List (String × String) →
    List (String × String)
  | _, _, [], kvPairs => kvPairs
  | path, i, elem :: rest, kvPairs =>
    flattenElems path (i + 1) rest (flatten (path ++ "[" ++ toString i ++ "]") elem kvPairs)
end

/-! ## `parseChange` (`inspect.go` lines 108-202) -/

/-- The test `x != false` on an overlay field. -/
def notFalse : Value → Bool
  | .bool false => false
  | _ => true

/-- An overlay field flattened from the root, unless it is the `false` sentinel. -/
def flattenOverlay (v : Value) : List (String × String) :=
  if notFalse v then flatten "" v [] else []

/-- The loops of lines 151-167: every path marked `"true"` is overwritten with `text`. -/
def overlay (marks target : List (String × String)) (text : String) : List (String × String) :=
  marks.foldl (fun acc e => if e.2 = "true" then mset acc e.1 text else acc) target

/-- The map `before` as it stands at line 169. -/
def overlaidBefore (chng : Change) : List (String × String) :=
  overlay (flattenOverlay chng.BeforeSensitive) (flatten "" chng.Before []) "(sensitive value)"

/-- The map `after` as it stands at line 169: unknowns first, then sensitives. -/
def overlaidAfter (chng : Change) : List (String × String) :=
  overlay (flattenOverlay chng.AfterSensitive)
    (overlay (flattenOverlay chng.AfterUnknown) (flatten "" chng.After []) "(known after apply)")
    "(sensitive value)"

/-- The loop of lines 169-187 over `before`. -/
def diffBeforePass (before after : List (String × String)) (out : EntityDiff) : EntityDiff :=
  before.foldl (fun out e =>
    match mget after e.1 with
    | none => mset out e.1 ⟨e.2, "(empty)"⟩
    | some afterVal => if afterVal ≠ e.2 then mset out e.1 ⟨e.2, afterVal⟩ else out) out

/-- The loop of lines 189-199 over `after`. -/
def diffAfterPass (before after : List (String × String)) (out : EntityDiff) : EntityDiff :=
  after.foldl (fun out e =>
    match mget before e.1 with
    | none => mset out e.1 ⟨"(empty)", e.2⟩
    | some _ => out) out

/-- Takes a change of any kind and converts it into an `EntityDiff`. -/
def parseChange (chng : Change) : EntityDiff :=
  diffAfterPass (overlaidBefore chng) (overlaidAfter chng)
    (diffBeforePass (overlaidBefore chng) (overlaidAfter chng) [])

/-! ## `IsEmpty` (`inspect.go` lines 207-209, `compare.go` lines 40-42) -/

/-- Checks if an `InspectOutput` is empty. -/
def InspectOutput.IsEmpty (i : InspectOutput) : Bool :=
  i.Diff.Outputs.length == 0 && i.Diff.ResourceDrifts.length == 0 && i.Diff.Resources.length == 0

/-- Checks if a `CompareInspectsOutput` is empty (line 41 reads `ResourceDrifts` twice). -/
def CompareInspectsOutput.IsEmpty (c : CompareInspectsOutput) : Bool :=
  c.Diff.Outputs.length == 0 && c.Diff.ResourceDrifts.length == 0 &&
    c.Diff.ResourceDrifts.length == 0

/-! ## `getEntityDiffDivergence` and `CompareInspects` (`compare.go` lines 44-181) -/

/-- The literal `&Diff{Before: "(empty)", After: "(empty)"}`. -/
def emptyDiff : Diff := ⟨"(empty)", "(empty)"⟩

/-- The map filled by `for path := range e { m[path] = &Diff{"(empty)", "(empty)"} }`. -/
def mirror (e : EntityDiff) : EntityDiff :=
  e.foldl (fun acc pd => mset acc pd.1 emptyDiff) []

/-- Lines 73-78 followed by the two assignments into `out[address].PlanA` and
`out[address].PlanB`: the entry is created with two empty maps when it is missing. -/
def record (out : List (String × CompareEntityDiff)) (address path : String)
    (dA dB : Diff) : List (String × CompareEntityDiff) :=
  match mget out address with
  | none => mset out address ⟨mset [] path dA, mset [] path dB⟩
  | some ce => mset out address ⟨mset ce.PlanA path dA, mset ce.PlanB path dB⟩

/-- Body of the loop over `a` (lines 48-102) for one address of `a`. -/
def divergeA (b : Collection) (out : List (String × CompareEntityDiff))
    (e : String × EntityDiff) : List (String × CompareEntityDiff) :=
  match mget b e.1 with
  | none => mset out e.1 ⟨e.2, mirror e.2⟩
  | some bEntityDiff =>
    e.2.foldl (fun out pd =>
      match mget bEntityDiff pd.1 with
      | none => record out e.1 pd.1 pd.2 emptyDiff
      | some bDiff => if pd.2 ≠ bDiff then record out e.1 pd.1 pd.2 bDiff else out) out

/-- Body of the loop over `b` (lines 105-160) for one address of `b`. -/
def divergeB (a : Collection) (out : List (String × CompareEntityDiff))
    (e : String × EntityDiff) : List (String × CompareEntityDiff) :=
  match mget a e.1 with
  | none => mset out e.1 ⟨mirror e.2, e.2⟩
  | some aEntityDiff =>
    e.2.foldl (fun out pd =>
      match mget aEntityDiff pd.1 with
      | none => record out e.1 pd.1 emptyDiff pd.2
      | some aDiff => if pd.2 ≠ aDiff then record out e.1 pd.1 aDiff pd.2 else out) out

/-- The divergence of two collections: the pass over `a`, then the pass over `b`. -/
def getEntityDiffDivergence (a b : Collection) : List (String × CompareEntityDiff) :=
  b.foldl (divergeB a) (a.foldl (divergeA b) [])

/-- Compares the output of two inspects against each other. -/
def CompareInspects (a b : InspectOutput) : CompareInspectsOutput :=
  ⟨⟨getEntityDiffDivergence a.Diff.Resources b.Diff.Resources,
    getEntityDiffDivergence a.Diff.Outputs b.Diff.Outputs,
    getEntityDiffDivergence a.Diff.ResourceDrifts b.Diff.ResourceDrifts⟩⟩

/-- Every map of a collection binds each of its keys once. -/
def Collection.WF (c : Collection) : Prop :=
  KeysNodup c ∧ ∀ e ∈ c, KeysNodup e.2

instance instDecidableCollectionWF (c : Collection) : Decidable c.WF := by
  unfold Collection.WF
  infer_instance

/-- The three collections of an inspection result are Go maps of Go maps. -/
def InspectOutput.WF (i : InspectOutput) : Prop :=
  i.Diff.Resources.WF ∧ i.Diff.Outputs.WF ∧ i.Diff.ResourceDrifts.WF

instance instDecidableInspectOutputWF (i : InspectOutput) : Decidable i.WF := by
  unfold InspectOutput.WF
  infer_instance

/-! ## `filterEntityDiffs`, `apply` and `Inspect` (`inspect.go` lines 211-338)

`filterEntityDiffs` receives the map `entityDiff` and the collection `inspectDiffMap`,
and deletes from the map stored at `inspectDiffMap[address]`, which its caller makes
the very map it is ranging over.  Map objects are therefore kept in a heap here. -/

/-- How a call can fail: with a returned error, or with a runtime panic. -/
inductive Failure where
  | error
  | panic
  deriving DecidableEq

/-- The method `Match(pattern, s)` of the wildcard matcher, which is not part of this
repository: `none` stands for a returned error. -/
abbrev Matcher := String → String → Option Bool

/-- A reference to a map object. -/
abbrev Ref := Nat

/-- The contents of every `EntityDiff` map object. -/
abbrev Heap := Ref → EntityDiff

/-- A `map[string]EntityDiff` as stored: each value refers to a map object. -/
abbrev RefCollection := List (String × Ref)

/-- The maps a collection refers to, by contents. -/
def resolve (heap : Heap) (c : RefCollection) : Collection :=
  c.map (fun e => (e.1, heap e.2))

/-- The contents of `inspectDiffMap[address]`; a missing key gives the nil map. -/
def entityAt (heap : Heap) (inspectDiffMap : RefCollection) (address : String) : EntityDiff :=
  match mget inspectDiffMap address with
  | none => []
  | some r => heap r

/-- Lines 240-245: `delete(inspectDiffMap[address], path)`, then the entity is removed
from the collection when it has no path left. -/
def deletePath (address path : String) (st : Heap × RefCollection) : Heap × RefCollection :=
  let heap : Heap :=
    match mget st.2 address with
    | none => st.1
    | some r => fun x => if x = r then mdelete (st.1 r) path else st.1 x
  if (entityAt heap st.2 address).length = 0 then (heap, mdelete st.2 address) else (heap, st.2)

/-- The loop of lines 227-247 over the (before, after) patterns of one path pattern. -/
def filterDiffPatterns (m : Matcher) (address path : String) (diff : Diff) :
    List Diff → Heap × RefCollection → Except Failure (Heap × RefCollection)
  | [], st => .ok st
  | diffPattern :: rest, st =>
    match m diffPattern.Before diff.Before with
    | none => .error .error
    | some bMatch =>
      match m diffPattern.After diff.After with
      | none => .error .error
      | some aMatch =>
        if bMatch && aMatch then
          filterDiffPatterns m address path diff rest (deletePath address path st)
        else filterDiffPatterns m address path diff rest st

/-- The loop of lines 221-249 over the path patterns of one rule, for one path. -/
def filterPathPatterns (m : Matcher) (address path : String) (diff : Diff) :
    List (String × List Diff) → Heap × RefCollection → Except Failure (Heap × RefCollection)
  | [], st => .ok st
  | (pathPattern, diffPatterns) :: rest, st =>
    match m pathPattern path with
    | none => .error .error
    | some false => filterPathPatterns m address path diff rest st
    | some true =>
      match filterDiffPatterns m address path diff diffPatterns st with
      | .error f => .error f
      | .ok st1 => filterPathPatterns m address path diff rest st1

/-- The loop of lines 220-250 over the paths of `entityDiff`, for one rule. -/
def filterPaths (m : Matcher) (address : String) (filter : Filter) :
    List (String × Diff) → Heap × RefCollection → Except Failure (Heap × RefCollection)
  | [], st => .ok st
  | (path, diff) :: rest, st =>
    match filterPathPatterns m address path diff filter.DiffPatterns st with
    | .error f => .error f
    | .ok st1 => filterPaths m address filter rest st1

/-- The loop of lines 214-252 over the rules.  Each `range entityDiff` starts from the
contents the map object has at that moment; the only key deleted while it runs is the
one being visited. -/
def filterRules (m : Matcher) (address : String) (entityDiff : Ref) :
    List Filter → Heap × RefCollection → Except Failure (Heap × RefCollection)
  | [], st => .ok st
  | filter :: rest, st =>
    match m filter.NamePattern address with
    | none => .error .error
    | some false => filterRules m address entityDiff rest st
    | some true =>
      match filterPaths m address filter (st.1 entityDiff) st with
      | .error f => .error f
      | .ok st1 => filterRules m address entityDiff rest st1

/-- Go `filterEntityDiffs(address, entityDiff, filters, inspectDiffMap)`, run on a heap. -/
def filterEntityDiffs (m : Matcher) (heap : Heap) (address : String) (entityDiff : Ref)
    (filters : List Filter) (inspectDiffMap : RefCollection) :
    Except Failure (Heap × RefCollection) :=
  filterRules m address entityDiff filters (heap, inspectDiffMap)

/-- One of the three loops of `apply` (lines 261-286): `rules` is `none` when the
receiver is nil, and reading a field of it inside the loop body panics. -/
def applyCollection (m : Matcher) (rules : Option (List Filter)) :
    List (String × Ref) → Heap × RefCollection → Except Failure (Heap × RefCollection)
  | [], st => .ok st
  | (address, entDiff) :: rest, st =>
    match rules with
    | none => .error .panic
    | some filters =>
      match filterEntityDiffs m st.1 address entDiff filters st.2 with
      | .error f => .error f
      | .ok st1 => applyCollection m rules rest st1

/-- An `InspectDiff` as stored: three collections of references. -/
structure InspectDiffRefs where
  Resources : RefCollection
  Outputs : RefCollection
  ResourceDrifts : RefCollection

/-- Go `(i *InspectFilter) apply(in)`: resources, then drifts, then outputs. -/
def apply (m : Matcher) (i : Option InspectFilter) (heap : Heap) (d : InspectDiffRefs) :
    Except Failure (Heap × InspectDiffRefs) :=
  match applyCollection m (i.map (fun f => f.ResourceChanges)) d.Resources (heap, d.Resources) with
  | .error f => .error f
  | .ok (h1, resources) =>
    match applyCollection m (i.map (fun f => f.DriftChanges)) d.ResourceDrifts
        (h1, d.ResourceDrifts) with
    | .error f => .error f
    | .ok (h2, drifts) =>
      match applyCollection m (i.map (fun f => f.OutputChanges)) d.Outputs (h2, d.Outputs) with
      | .error f => .error f
      | .ok (h3, outputs) => .ok (h3, ⟨resources, outputs, drifts⟩)

/-- The heap together with the next unused reference. -/
structure Mem where
  heap : Heap
  next : Ref

/-- The assignment `coll[name] = parseChange(change)`: the result is a new map object. -/
def storeChange (st : Mem × RefCollection) (name : String) (chng : Change) :
    Mem × RefCollection :=
  (⟨fun x => if x = st.1.next then parseChange chng else st.1.heap x, st.1.next + 1⟩,
    mset st.2 name st.1.next)

/-- The loops of lines 309-311 and 316-318 over a list of resource changes. -/
def buildResources (changes : List ResourceChange) (mem : Mem) : Mem × RefCollection :=
  changes.foldl (fun st rChange => storeChange st rChange.Address rChange.Change) (mem, [])

/-- The loop of lines 323-325 over the output changes. -/
def buildOutputs (changes : List (String × Change)) (mem : Mem) : Mem × RefCollection :=
  changes.foldl (fun st oChange => storeChange st oChange.1 oChange.2) (mem, [])

/-- Go `(p *Plan) Inspect(params)`: the three collections are built, the filter is
applied, and the result is returned by contents. -/
def Inspect (m : Matcher) (p : Plan) (params : InspectInput) : Except Failure InspectOutput :=
  let r := buildResources p.ResourceChanges ⟨fun _ => [], 0⟩
  let d := buildResources p.ResourceDrift r.1
  let o := buildOutputs p.OutputChanges d.1
  match apply m params.Filter o.1.heap ⟨r.2, o.2, d.2⟩ with
  | .error f => .error f
  | .ok (heap, diff) =>
    .ok ⟨⟨resolve heap diff.Resources, resolve heap diff.Outputs,
      resolve heap diff.ResourceDrifts⟩⟩

/-- Modelled from the spec: the Pattern Matcher of section 4.3, whose implementation
(the wildcard package) is not part of the repository.  `*` stands for zero or more
characters, `?` for exactly one, any other character for itself, and the whole string
has to be matched. -/
def globChars : List Char → List Char → Bool
  | [], s => s.isEmpty
  | p :: ps, s =>
    if p = '*' then s.tails.any (fun t => globChars ps t)
    else
      match s with
      | [] => false
      | c :: cs => (p = '?' || p = c) && globChars ps cs

/-- Modelled from the spec: the Pattern Matcher as a `Matcher` that never fails. -/
def globMatcher : Matcher :=
  fun pattern s => some (globChars pattern.toList s.toList)

/-! ## Vocabulary of the statements and worked inputs -/

/-- The overlay `v` marks path `p`: its flattening binds `p` to `"true"`. -/
def MarkedTrue (v : Value) (p : String) : Prop :=
  mget (flattenOverlay v) p = some "true"

instance instDecidableMarkedTrue (v : Value) (p : String) : Decidable (MarkedTrue v p) := by
  unfold MarkedTrue
  infer_instance

/-- An overlay field that is absent (nil) or the `false` sentinel. -/
def absentOverlay : Value → Bool
  | .null => true
  | .bool false => true
  | _ => false

/-- The change carries no overlay at all. -/
def NoOverlays (chng : Change) : Prop :=
  absentOverlay chng.AfterUnknown = true ∧ absentOverlay chng.BeforeSensitive = true ∧
    absentOverlay chng.AfterSensitive = true

instance instDecidableNoOverlays (chng : Change) : Decidable (NoOverlays chng) := by
  unfold NoOverlays
  infer_instance

/-- The change `before={"x":"secret"}, after={"x":"secret2"}` with
`beforeSensitive={"x":true}` and `afterSensitive={"x":true}`. -/
def sensitiveBothChange : Change :=
  ⟨.obj [("x", .str "secret")], .obj [("x", .str "secret2")], .null,
    .obj [("x", .bool true)], .obj [("x", .bool true)]⟩

/-- A created attribute that is both unknown and sensitive on the after side. -/
def unknownSensitiveChange : Change :=
  ⟨.null, .obj [("x", .str "v")], .obj [("x", .bool true)], .bool false,
    .obj [("x", .bool true)]⟩

/-- The change of the test `1 resource no filtered`, with a removed attribute added. -/
def bucketChange : Change :=
  ⟨.obj [("bucket", .str "foo"), ("acl", .str "private")],
    .obj [("bucket", .str "bar"), ("baz", .str "box")], .null, .null, .null⟩

/-! ## Vocabulary for the comparison -/

/-- The three collections of an inspection or of a comparison. -/
inductive CollectionKind where
  | resources
  | outputs
  | resourceDrifts
  deriving DecidableEq

/-- One of the three collections of an inspection result. -/
def InspectOutput.collection (i : InspectOutput) : CollectionKind → Collection
  | .resources => i.Diff.Resources
  | .outputs => i.Diff.Outputs
  | .resourceDrifts => i.Diff.ResourceDrifts

/-- One of the three collections of a comparison. -/
def CompareInspectsOutput.collection (c : CompareInspectsOutput) :
    CollectionKind → List (String × CompareEntityDiff)
  | .resources => c.Diff.Resources
  | .outputs => c.Diff.Outputs
  | .resourceDrifts => c.Diff.ResourceDrifts

/-- The `Diff` a collection holds for a path of an address, if any. -/
def attrAt (c : Collection) (address path : String) : Option Diff :=
  match mget c address with
  | none => none
  | some e => mget e path

/-- The entry `record` leaves at its address, from the entry found there. -/
def recordAt (entry : Option CompareEntityDiff) (path : String) (dA dB : Diff) :
    CompareEntityDiff :=
  match entry with
  | none => ⟨mset [] path dA, mset [] path dB⟩
  | some ce => ⟨mset ce.PlanA path dA, mset ce.PlanB path dB⟩

/-- The path loop of `divergeA` (lines 68-101), seen from the entry of its address. -/
def localA (bEntityDiff aEntityDiff : EntityDiff) (entry : Option CompareEntityDiff) :
    Option CompareEntityDiff :=
  aEntityDiff.foldl (fun o pd =>
    match mget bEntityDiff pd.1 with
    | none => some (recordAt o pd.1 pd.2 emptyDiff)
    | some bDiff => if pd.2 ≠ bDiff then some (recordAt o pd.1 pd.2 bDiff) else o) entry

/-- The path loop of `divergeB` (lines 125-158), seen from the entry of its address. -/
def localB (aEntityDiff bEntityDiff : EntityDiff) (entry : Option CompareEntityDiff) :
    Option CompareEntityDiff :=
  bEntityDiff.foldl (fun o pd =>
    match mget aEntityDiff pd.1 with
    | none => some (recordAt o pd.1 emptyDiff pd.2)
    | some aDiff => if pd.2 ≠ aDiff then some (recordAt o pd.1 aDiff pd.2) else o) entry

/-- The `PlanA` side of an optional entry at a path. -/
def sideA (entry : Option CompareEntityDiff) (p : String) : Option Diff :=
  match entry with
  | none => none
  | some ce => mget ce.PlanA p

/-- The `PlanB` side of an optional entry at a path. -/
def sideB (entry : Option CompareEntityDiff) (p : String) : Option Diff :=
  match entry with
  | none => none
  | some ce => mget ce.PlanB p

/-- What a comparison reports at a path for the plan whose entity is `mine`, the other
plan having `other`: the own `Diff` where the two differ, the `(empty)` mirror where
only the other plan has the path, nothing where they agree. -/
def reportedAt (mine other : Option EntityDiff) (p : String) : Option Diff :=
  match mine, other with
  | none, none => none
  | some e, none => mget e p
  | none, some e => (mget e p).map (fun _ => emptyDiff)
  | some e, some e' =>
    match mget e p, mget e' p with
    | none, none => none
    | some d, none => some d
    | none, some _ => some emptyDiff
    | some d, some d' => if d = d' then none else some d

/-- The two plans diverge on an address: only one has it, or both do with entities
that differ at some path. -/
def Diverges (ea eb : Option EntityDiff) : Prop :=
  match ea, eb with
  | none, none => False
  | some _, none => True
  | none, some _ => True
  | some e, some e' => ∃ p, mget e p ≠ mget e' p

/-- An inspection result with a changed resource, a drift and an output. -/
def inspectA : InspectOutput :=
  ⟨⟨[("aws_instance.foo", [(".ami", ⟨"ami-1", "ami-2"⟩), (".type", ⟨"t2.medium", "t2.micro"⟩)]),
      ("aws_s3_bucket.only_a", [(".bucket", ⟨"foo", "bar"⟩)])],
    [("url", [(".", ⟨"this", "that"⟩)])],
    [("aws_instance.foo", [(".tags.name", ⟨"x", "y"⟩)])]⟩⟩

/-- An inspection result that agrees with `inspectA` on some paths only. -/
def inspectB : InspectOutput :=
  ⟨⟨[("aws_instance.foo", [(".ami", ⟨"ami-1", "ami-3"⟩), (".type", ⟨"t2.medium", "t2.micro"⟩),
        (".ebs", ⟨"(empty)", "true"⟩)]),
      ("aws_s3_bucket.only_b", [(".bucket", ⟨"foo", "baz"⟩)])],
    [("url", [(".", ⟨"this", "that"⟩)])],
    []⟩⟩

/-- An inspection result whose only content is one changed resource. -/
def inspectResourceOnly : InspectOutput :=
  ⟨⟨[("aws_instance.foo", [(".ami", ⟨"ami-1", "ami-2"⟩)])], [], []⟩⟩

/-- An inspection result with nothing in it. -/
def inspectNothing : InspectOutput :=
  ⟨⟨[], [], []⟩⟩

/-! ## Vocabulary for the filter -/

/-- A (before, after) pattern pair matches both values of a diff. -/
def DiffPatternHits (m : Matcher) (diff diffPattern : Diff) : Prop :=
  m diffPattern.Before diff.Before = some true ∧ m diffPattern.After diff.After = some true

/-- Some key of the rule matches the path and holds a pair that matches the diff. -/
def RuleHits (m : Matcher) (filter : Filter) (path : String) (diff : Diff) : Prop :=
  ∃ pp ∈ filter.DiffPatterns, m pp.1 path = some true ∧ ∃ dp ∈ pp.2, DiffPatternHits m diff dp

/-- Some rule matches the address by name and the path and diff by one of its pairs. -/
def Suppressed (m : Matcher) (address path : String) (diff : Diff) (filters : List Filter) :
    Prop :=
  ∃ f ∈ filters, m f.NamePattern address = some true ∧ RuleHits m f path diff

instance instDecidableDiffPatternHits (m : Matcher) (diff diffPattern : Diff) :
    Decidable (DiffPatternHits m diff diffPattern) := by
  unfold DiffPatternHits
  infer_instance

instance instDecidableRuleHits (m : Matcher) (filter : Filter) (path : String) (diff : Diff) :
    Decidable (RuleHits m filter path diff) := by
  unfold RuleHits
  infer_instance

instance instDecidableSuppressed (m : Matcher) (address path : String) (diff : Diff)
    (filters : List Filter) : Decidable (Suppressed m address path diff filters) := by
  unfold Suppressed
  infer_instance

/-- What the filter loops maintain about the map object `r` and the entry of `address`:
the map binds each path once, and the collection holds it at `address` unless it has
been emptied and removed. -/
def CollInv (r : Ref) (address : String) (st : Heap × RefCollection) : Prop :=
  KeysNodup (st.1 r) ∧ (mget st.2 address = some r ∨ (mget st.2 address = none ∧ st.1 r = []))

/-- From `st` to `st'` the map object `r` lost exactly the paths in `D`. -/
def Tracks (r : Ref) (address : String) (st st' : Heap × RefCollection)
    (D : String → Prop) : Prop :=
  CollInv r address st' ∧
    ∀ p, (D p → mget (st'.1 r) p = none) ∧ (¬ D p → mget (st'.1 r) p = mget (st.1 r) p)

/-- The contents of the collection a filter call returns, if it returns one. -/
def filteredContents (res : Except Failure (Heap × RefCollection)) : Option Collection :=
  match res with
  | .ok st => some (resolve st.1 st.2)
  | .error _ => none

/-- The state a filter call returns, or `st` when it fails. -/
def stateOr (res : Except Failure (Heap × RefCollection)) (st : Heap × RefCollection) :
    Heap × RefCollection :=
  match res with
  | .ok st' => st'
  | .error _ => st

/-- The heap of the filter example: one map object, the diff of `aws_instance.example`. -/
def amiHeap : Heap :=
  fun r => if r = 0 then
    [(".ami", ⟨"ami-0397850", "ami-12345678"⟩), (".instance_type", ⟨"t2.medium", "t2.micro"⟩)]
  else []

/-- The collection of the filter example. -/
def amiCollection : RefCollection := [("aws_instance.example", 0)]

/-- The rule of the test `filter match star wildcard`. -/
def amiRules : List Filter :=
  [⟨"aws_instance.*", [(".ami", [⟨"ami-0397850", "ami-*"⟩])]⟩]

/-- A plan whose only resource change leaves the resource as it is. -/
def noopPlan : Plan :=
  ⟨[⟨"aws_instance.same", ⟨.obj [("ami", .str "ami-1")], .obj [("ami", .str "ami-1")],
    .bool false, .bool false, .bool false⟩⟩], [], []⟩

/-! ## Vocabulary and worked inputs for pruning, empty filters and one-sided entries -/

/-- The state `st'` is reached from `st` by running lines 240-245 some number of times
for the entity at `address`, each time with some path. -/
inductive DeletesTo (address : String) :
    Heap × RefCollection → Heap × RefCollection → Prop where
  | refl (st : Heap × RefCollection) : DeletesTo address st st
  | step (st st1 : Heap × RefCollection) (path : String) :
    DeletesTo address st st1 → DeletesTo address st (deletePath address path st1)

/-- The change a list of (name, change) pairs holds for a name: the last one listed,
which is the one a loop of map assignments leaves in the map. -/
def lastChange : List (String × Change) → String → Option Change
  | [], _ => none
  | (k, c) :: t, name =>
    match lastChange t name with
    | some c' => some c'
    | none => if k = name then some c else none

/-- The (address, change) pairs of a list of resource changes. -/
def addressed (changes : List ResourceChange) : List (String × Change) :=
  changes.map (fun rChange => (rChange.Address, rChange.Change))

/-- The filter `InspectFilter{}`: three empty rule lists. -/
def emptyFilter : InspectFilter := ⟨[], [], []⟩

/-- The loop of `buildOutputs`, from any state. -/
def buildFrom (changes : List (String × Change)) (st : Mem × RefCollection) :
    Mem × RefCollection :=
  changes.foldl (fun st oChange => storeChange st oChange.1 oChange.2) st

/-- Every map object the collection refers to has been allocated. -/
def RefsBelow (st : Mem × RefCollection) : Prop :=
  ∀ name r, mget st.2 name = some r → r < st.1.next

/-- The rules of the test `1 resource filtered out`: both paths, exact values. -/
def exactRules : List Filter :=
  [⟨"aws_instance.example",
    [(".ami", [⟨"ami-0397850", "ami-12345678"⟩]),
      (".instance_type", [⟨"t2.medium", "t2.micro"⟩])]⟩]

/-- The plan of the end-to-end scenario: one resource whose instance type changes. -/
def instancePlan : Plan :=
  ⟨[⟨"aws_instance.this", ⟨.obj [("instance_type", .str "t2.medium")],
    .obj [("instance_type", .str "t2.micro")], .null, .null, .null⟩⟩], [], []⟩

/-- A plan with a resource change, a drift and an output change. -/
def mixedPlan : Plan :=
  ⟨[⟨"aws_s3_bucket.this", bucketChange⟩],
    [⟨"aws_instance.this", ⟨.obj [("instance_type", .str "t2.medium")],
      .obj [("instance_type", .str "t2.micro")], .null, .null, .null⟩⟩],
    [("foo-output", ⟨.str "this", .str "that", .null, .null, .null⟩)]⟩

/-- Plan A of the test `resource differences - no overlap`. -/
def noOverlapA : InspectOutput :=
  ⟨⟨[("aws_instance.this", [(".instance_type", ⟨"t2.medium", "t2.micro"⟩)])], [], []⟩⟩

/-- Plan B of the test `resource differences - no overlap`. -/
def noOverlapB : InspectOutput :=
  ⟨⟨[("aws_s3_bucket.this", [(".bucket", ⟨"(empty)", "orange-car"⟩)])], [], []⟩⟩

/-- Plan A of the test `resource differences - extra field change`. -/
def extraFieldA : InspectOutput :=
  ⟨⟨[("aws_instance.this",
      [(".instance_type", ⟨"t2.medium", "t2.micro"⟩), (".some_path", ⟨"was", "now"⟩)])],
    [("foo-output", [(".", ⟨"this", "that"⟩)])],
    [("aws_s3_bucket.this", [(".bucket", ⟨"foo", "bar"⟩)])]⟩⟩

/-- Plan B of the test `resource differences - extra field change`. -/
def extraFieldB : InspectOutput :=
  ⟨⟨[("aws_instance.this", [(".instance_type", ⟨"t2.medium", "t2.micro"⟩)])],
    [("foo-output", [(".", ⟨"this", "that"⟩)])],
    [("aws_s3_bucket.this", [(".bucket", ⟨"foo", "bar"⟩)])]⟩⟩

/-- An inspection result whose resource has a path of its own and a shared path. -/
def unionA : InspectOutput :=
  ⟨⟨[("aws_instance.this",
      [(".instance_type", ⟨"t2.medium", "t2.micro"⟩), (".only_a", ⟨"was", "now"⟩)])], [], []⟩⟩

/-- As `unionA`, with another path of its own. -/
def unionB : InspectOutput :=
  ⟨⟨[("aws_instance.this",
      [(".only_b", ⟨"old", "new"⟩), (".instance_type", ⟨"t2.medium", "t2.micro"⟩)])], [], []⟩⟩

/-! ## Vocabulary for `flatten` -/

/-- The first of two optional values that is present. -/
def firstSome (x y : Option String) : Option String :=
  match x with
  | some s => some s
  | none => y

/-- A non-null scalar: a string, a number or a bool. -/
def isScalar : Value → Bool
  | .bool _ => true
  | .num _ => true
  | .str _ => true
  | _ => false

/-- The tree `{"tags": [ {"key": v} ]}`. -/
def tagsTree (v : Value) : Value :=
  .obj [("tags", .list [.obj [("key", v)]])]

/-! ## Vocabulary and worked inputs for leaves and overlays -/

mutual
/-- An overlay tree all of whose leaves are `false`; an absent (nil) field or part
counts as such, and so does the `false` sentinel itself. -/
def allFalse : Value → Bool
  | .null => true
  | .bool b => !b
  | .num _ => false
  | .str _ => false
  | .strs _ => false
  | .list xs => allFalseElems xs
  | .obj kvs => allFalseFields kvs
/-- Every element of a sequence is `allFalse`. -/
def allFalseElems : List Value → Bool
  | [] => true
  | x :: xs => allFalse x && allFalseElems xs
/-- Every value of a map is `allFalse`. -/
def allFalseFields : List (String × Value) → Bool
  | [] => true
  | (_, v) :: kvs => allFalse v && allFalseFields kvs
end

/-- The `after` value of the test `no filter with after unknowns`. -/
def logGroupAfter : Value :=
  .obj [("kms_key_id", .null), ("name", .str "foo-skfghsjfhgsjfh"),
    ("retention_in_days", .num "0"), ("skip_destroy", .bool false), ("tags", .null)]

/-- The change of the test `no filter with after unknowns`. -/
def logGroupChange : Change :=
  ⟨.null, logGroupAfter,
    .obj [("arn", .bool true), ("id", .bool true), ("log_group_class", .bool true),
      ("name_prefix", .bool true), ("tags_all", .bool true)],
    .bool false, .bool false⟩

/-- The change of the test `no filter all known no sensitives`. -/
def allKnownChange : Change :=
  ⟨.null, .obj [("name", .str "foo-skfghsjfhgsjfh")], .obj [("name", .bool false)],
    .bool false, .obj [("name", .bool false)]⟩

/-- The output change of the tests: the root value goes from `this` to `that`. -/
def outputChange : Change :=
  ⟨.str "this", .str "that", .null, .null, .null⟩

/-! ## Vocabulary for the pattern matcher -/

/-- Modelled from the spec: what section 4.3 says a match is.  The whole string is split
to fit the pattern: `*` stands for any run of characters, also an empty one, `?` for
exactly one character, and every other character for itself. -/
inductive GlobFits : List Char → List Char → Prop where
  | done : GlobFits [] []
  | star (ps run rest s : List Char) :
    s = run ++ rest → GlobFits ps rest → GlobFits ('*' :: ps) s
  | one (ps : List Char) (c : Char) (cs : List Char) :
    GlobFits ps cs → GlobFits ('?' :: ps) (c :: cs)
  | same (p : Char) (ps cs : List Char) :
    p ≠ '*' → p ≠ '?' → GlobFits ps cs → GlobFits (p :: ps) (p :: cs)

/-! ## Vocabulary for counting leaves and reordering maps -/

mutual
/-- The assignments `kvPairs[key] = value` that `flatten` makes for a value, in the
order in which it makes them. -/
def writes : String → Value → List (String × String)
  | path, .obj av1 => writesFields (path ++ ".") av1
  | path, .list av1 => writesElems (path ++ ".") 0 av1
  | path, .strs av1 => [(path ++ ".", String.intercalate "," av1)]
  | _, .null => []
  | path, .bool b => [(leafPath path, render (.bool b))]
  | path, .num text => [(leafPath path, render (.num text))]
  | path, .str s => [(leafPath path, render (.str s))]
/-- The assignments made for the fields of a map. -/
def writesFields : String → List (String × Value) → List (String × String)
  | _, [] => []
  | path, (k, v) :: rest => writes (path ++ k) v ++ writesFields path rest
/-- The assignments made for the elements of a sequence, from index `i` on. -/
def writesElems : String → Nat → List Value → List (String × String)
  | _, _, [] => []
  | path, i, elem :: rest =>
    writes (path ++ "[" ++ toString i ++ "]") elem ++ writesElems path (i + 1) rest
end

mutual
/-- The number of leaves of a tree: nulls, scalars, and sequences of strings, each of
which `flatten` handles as one value; maps and mixed sequences are the containers. -/
def leafCount : Value → Nat
  | .obj kvs => leafCountFields kvs
  | .list xs => leafCountElems xs
  | .strs _ => 1
  | .null => 1
  | .bool _ => 1
  | .num _ => 1
  | .str _ => 1
/-- The number of leaves under the fields of a map. -/
def leafCountFields : List (String × Value) → Nat
  | [] => 0
  | (_, v) :: rest => leafCount v + leafCountFields rest
/-- The number of leaves under the elements of a sequence. -/
def leafCountElems : List Value → Nat
  | [] => 0
  | x :: rest => leafCount x + leafCountElems rest
end

mutual
/-- The tree has no null leaf. -/
def hasNoNull : Value → Bool
  | .null => false
  | .obj kvs => hasNoNullFields kvs
  | .list xs => hasNoNullElems xs
  | .strs _ => true
  | .bool _ => true
  | .num _ => true
  | .str _ => true
/-- No field of the map has a null leaf. -/
def hasNoNullFields : List (String × Value) → Bool
  | [] => true
  | (_, v) :: rest => hasNoNull v && hasNoNullFields rest
/-- No element of the sequence has a null leaf. -/
def hasNoNullElems : List Value → Bool
  | [] => true
  | x :: rest => hasNoNull x && hasNoNullElems rest
end

mutual
/-- The second tree is the first with the fields of its maps, at any depth, listed in
another order: the same Go value, visited in another order. -/
inductive Reordered : Value → Value → Prop where
  | same (v : Value) : Reordered v v
  | list (xs ys : List Value) : ReorderedElems xs ys → Reordered (.list xs) (.list ys)
  | obj (kvs kvs' kvs'' : List (String × Value)) :
    ReorderedFields kvs kvs' → kvs'.Perm kvs'' → Reordered (.obj kvs) (.obj kvs'')
/-- Element by element, the second sequence is a reordering of the first. -/
inductive ReorderedElems : List Value → List Value → Prop where
  | nil : ReorderedElems [] []
  | cons (x y : Value) (xs ys : List Value) :
    Reordered x y → ReorderedElems xs ys → ReorderedElems (x :: xs) (y :: ys)
/-- Field by field, under the same keys, the second list is a reordering of the first. -/
inductive ReorderedFields : List (String × Value) → List (String × Value) → Prop where
  | nil : ReorderedFields [] []
  | cons (k : String) (v w : Value) (kvs kvs' : List (String × Value)) :
    Reordered v w → ReorderedFields kvs kvs' →
    ReorderedFields ((k, v) :: kvs) ((k, w) :: kvs')
end

/-- The tree `{"a.b": "1", "a": {"b": "2"}}`, the key `a.b` visited first. -/
def dottedTree : Value :=
  .obj [("a.b", .str "1"), ("a", .obj [("b", .str "2")])]

/-- The tree of `dottedTree`, the key `a` visited first. -/
def dottedTreeSwapped : Value :=
  .obj [("a", .obj [("b", .str "2")]), ("a.b", .str "1")]

/-- The tree `{"name": "web", "ports": [80, {"tls": true}], "zones": {"a": "x"}}`. -/
def serviceTree : Value :=
  .obj [("name", .str "web"), ("ports", .list [.num "80", .obj [("tls", .bool true)]]),
    ("zones", .obj [("a", .str "x")])]

/-- The tree of `serviceTree`, its top-level keys visited in another order. -/
def serviceTreeSwapped : Value :=
  .obj [("zones", .obj [("a", .str "x")]), ("name", .str "web"),
    ("ports", .list [.num "80", .obj [("tls", .bool true)]])]

/-! ## Worked inputs for the order of the rules -/

/-- A matcher that rejects the pattern `[` as malformed and is `globMatcher` on every
other pattern. -/
def brittleMatcher : Matcher :=
  fun pattern s => if pattern = "[" then none else globMatcher pattern s

/-- A rule that suppresses every change of `.x`. -/
def anyChangeRule : Filter := ⟨"*", [(".x", [⟨"*", "*"⟩])]⟩

/-- A rule whose only path pattern is `[`. -/
def malformedRule : Filter := ⟨"*", [("[", [])]⟩

/-- A heap with one map object, an entity whose only path is `.x`. -/
def singleHeap : Heap :=
  fun r => if r = 0 then [(".x", ⟨"1", "2"⟩)] else []

/-- The collection that holds the entity of `singleHeap` at `r`. -/
def singleCollection : RefCollection := [("r", 0)]

/-- Two rules for `aws_instance.example`, one for each of its paths. -/
def splitRules : List Filter :=
  [⟨"aws_instance.*", [(".ami", [⟨"ami-0397850", "ami-*"⟩])]⟩,
    ⟨"aws_instance.example", [(".instance_type", [⟨"t2.medium", "t2.small"⟩])]⟩]

/-- The rules of `splitRules` in the other order. -/
def splitRulesSwapped : List Filter :=
  [⟨"aws_instance.example", [(".instance_type", [⟨"t2.medium", "t2.small"⟩])]⟩,
    ⟨"aws_instance.*", [(".ami", [⟨"ami-0397850", "ami-*"⟩])]⟩]

/-! ## Vocabulary for filtering entity by entity -/

/-- Two states hold the same entity for `address`, the one as map object `r1` and the
other as `r2`: the two maps have the same contents, and the address is bound to them in
both collections or in neither. -/
def Linked (address : String) (r1 r2 : Ref) (st1 st2 : Heap × RefCollection) : Prop :=
  st1.1 r1 = st2.1 r2 ∧
    ((mget st1.2 address = some r1 ∧ mget st2.2 address = some r2) ∨
      (mget st1.2 address = none ∧ mget st2.2 address = none))

/-- Two results of filtering agree on the entity: both fail in the same way, or both
return states that hold the same entity. -/
def SameOutcome (address : String) (r1 r2 : Ref)
    (res1 res2 : Except Failure (Heap × RefCollection)) : Prop :=
  match res1, res2 with
  | .ok s1, .ok s2 => Linked address r1 r2 s1 s2
  | .error e1, .error e2 => e1 = e2
  | _, _ => False

/-- What `filterEntityDiffs` leaves of one entity, run on a heap that holds nothing but
that entity: its remaining diff, `none` when the entity is removed from the collection,
or the failure. -/
def filteredEntity (m : Matcher) (name : String) (rules : List Filter) (e : EntityDiff) :
    Except Failure (Option EntityDiff) :=
  match filterEntityDiffs m (fun _ => e) name 0 rules [(name, 0)] with
  | .error f => .error f
  | .ok st =>
    match mget st.2 name with
    | some _ => .ok (some (st.1 0))
    | none => .ok none

/-- What `Inspect` reports for a name of one kind, from the changes and the rules of
that kind alone: the filtered diff of the change the plan holds for the name. -/
def keptEntity (m : Matcher) (rules : List Filter) (changes : List (String × Change))
    (name : String) : Option EntityDiff :=
  match lastChange changes name with
  | none => none
  | some c =>
    match filteredEntity m name rules (parseChange c) with
    | .ok res => res
    | .error _ => none

/-- The filter fails on some entity of a kind, taken on its own. -/
def KindFails (m : Matcher) (rules : List Filter) (changes : List (String × Change)) : Prop :=
  ∃ name c, lastChange changes name = some c ∧
    filteredEntity m name rules (parseChange c) = .error .error

/-- The state holds what the filter leaves of the entity `e` for `name`: the address is
bound to the map object `r`, whose contents are the filtered diff, or the address is not
bound and the filter removes the entity. -/
def KeptAs (m : Matcher) (rules : List Filter) (st : Heap × RefCollection) (name : String)
    (r : Ref) (e : EntityDiff) : Prop :=
  (mget st.2 name = some r ∧ filteredEntity m name rules e = .ok (some (st.1 r))) ∨
    (mget st.2 name = none ∧ filteredEntity m name rules e = .ok none)

/-- The collection binds each address once, to map objects that are pairwise distinct
and were allocated at or after `lo`. -/
def BuiltIn (lo : Ref) (st : Mem × RefCollection) : Prop :=
  KeysNodup st.2 ∧ (st.2.map Prod.snd).Nodup ∧
    ∀ r, r ∈ st.2.map Prod.snd → lo ≤ r ∧ r < st.1.next

/-- The filter returns on every entity of a kind, taken on its own. -/
def KindOk (m : Matcher) (rules : List Filter) (changes : List (String × Change)) : Prop :=
  ∀ name c, lastChange changes name = some c →
    ∃ res, filteredEntity m name rules (parseChange c) = .ok res

/-! ## Worked inputs for the independence of the three kinds -/

/-- The change of the test `1 drift filtered out`. -/
def exampleChange : Change :=
  ⟨.obj [("ami", .str "ami-0397850"), ("instance_type", .str "t2.medium")],
    .obj [("ami", .str "ami-12345678"), ("instance_type", .str "t2.micro")],
    .null, .null, .null⟩

/-- A plan in which `aws_instance.example` has the same change as a resource change and
as a drift. -/
def driftedPlan : Plan :=
  ⟨[⟨"aws_instance.example", exampleChange⟩], [⟨"aws_instance.example", exampleChange⟩], []⟩

/-- The resource change of `driftedPlan`, with no drift and an output change. -/
def undriftedPlan : Plan :=
  ⟨[⟨"aws_instance.example", exampleChange⟩], [], [("foo-output", outputChange)]⟩

/-- The `.ami` rule for resource changes, the rules of `1 drift filtered out` for drifts. -/
def driftFilter : InspectFilter := ⟨[], amiRules, exactRules⟩

/-- The `.ami` rule for resource changes alone. -/
def resourceFilter : InspectFilter := ⟨[], amiRules, []⟩

/-! ## `FillWithSpaces` (`helpers.go` lines 3-12) and the widths of `Pretty` -/

/-- The loop `for ; i <= d; i++ { spacer += " " }` of `FillWithSpaces`, from the
counter `i`, with `d` the value of `l - len(s)`. -/
def fillFrom (d : Int) (i : Int) (spacer : String) : String :=
  if i ≤ d then fillFrom d (i + 1) (spacer ++ " ") else spacer
termination_by (d + 1 - i).toNat
decreasing_by omega

/-- Go `FillWithSpaces(s, l)`; `len(s)` is the number of bytes of `s`.  Integers are
unbounded here: the loop makes `l - len(s) + 1` steps, far below the range of `int` for
any string that fits in memory. -/
def FillWithSpaces (s : String) (l : Int) : String :=
  fillFrom (l - (s.utf8ByteSize : Int)) 0 ""

/-- The loop `maxWidth := 0; for path := range m { if len(path) > maxWidth {...} }` of
`Pretty`. -/
def maxWidth (m : EntityDiff) : Nat :=
  m.foldl (fun w pd => if pd.1.utf8ByteSize > w then pd.1.utf8ByteSize else w) 0

/-! ## Vocabulary for empty containers and for replaced leaves -/

/-- A value for which `flatten` writes nothing because it holds nothing: null, an empty
map, or an empty sequence of mixed elements. -/
def isHollow : Value → Bool
  | .null => true
  | .obj [] => true
  | .obj (_ :: _) => false
  | .list [] => true
  | .list (_ :: _) => false
  | .strs _ => false
  | .bool _ => false
  | .num _ => false
  | .str _ => false

mutual
/-- The two trees differ only in hollow values: at some positions one has null, an empty
map or an empty sequence where the other has another of these, or a map of one has a key
bound to such a value that the map of the other does not have. -/
inductive Padded : Value → Value → Prop where
  | same (t : Value) : Padded t t
  | hollow (t t' : Value) : isHollow t = true → isHollow t' = true → Padded t t'
  | obj (kvs kvs' : List (String × Value)) : PaddedFields kvs kvs' →
    Padded (.obj kvs) (.obj kvs')
  | list (xs xs' : List Value) : PaddedElems xs xs' → Padded (.list xs) (.list xs')
  | trans (t t' t'' : Value) : Padded t t' → Padded t' t'' → Padded t t''
/-- The fields of two maps differ only in hollow values and in keys bound to them. -/
inductive PaddedFields : List (String × Value) → List (String × Value) → Prop where
  | nil : PaddedFields [] []
  | cons (k : String) (v v' : Value) (rest rest' : List (String × Value)) :
    Padded v v' → PaddedFields rest rest' → PaddedFields ((k, v) :: rest) ((k, v') :: rest')
  | dropLeft (k : String) (v : Value) (rest rest' : List (String × Value)) :
    isHollow v = true → PaddedFields rest rest' → PaddedFields ((k, v) :: rest) rest'
  | dropRight (k : String) (v : Value) (rest rest' : List (String × Value)) :
    isHollow v = true → PaddedFields rest rest' → PaddedFields rest ((k, v) :: rest')
/-- Element by element, two sequences differ only in hollow values. -/
inductive PaddedElems : List Value → List Value → Prop where
  | nil : PaddedElems [] []
  | cons (x x' : Value) (rest rest' : List Value) :
    Padded x x' → PaddedElems rest rest' → PaddedElems (x :: rest) (x' :: rest')
end

/-- A scalar or null: a value that the `default` case of `flatten` handles. -/
def isLeafValue : Value → Bool
  | .null => true
  | .bool _ => true
  | .num _ => true
  | .str _ => true
  | .obj _ => false
  | .list _ => false
  | .strs _ => false

/-- The tree `t'` is the tree `t`, flattened from `path`, with the scalar or null that
it holds at one position replaced by another scalar or null; `p` is the key under
which `flatten` writes the value of that position. -/
inductive LeafSwap : String → Value → Value → String → Prop where
  | leaf (path : String) (v v' : Value) : isLeafValue v = true → isLeafValue v' = true →
    LeafSwap path v v' (leafPath path)
  | field (path : String) (pre : List (String × Value)) (k : String) (v v' : Value)
    (post : List (String × Value)) (p : String) :
    LeafSwap (path ++ "." ++ k) v v' p →
    LeafSwap path (.obj (pre ++ (k, v) :: post)) (.obj (pre ++ (k, v') :: post)) p
  | elem (path : String) (pre : List Value) (x x' : Value) (post : List Value) (p : String) :
    LeafSwap (path ++ "." ++ "[" ++ toString pre.length ++ "]") x x' p →
    LeafSwap path (.list (pre ++ x :: post)) (.list (pre ++ x' :: post)) p

/-- A change whose before value has an empty map where its after value has null. -/
def emptyTagsChange : Change :=
  ⟨.obj [("name", .str "web"), ("tags", .obj [])],
    .obj [("name", .str "web"), ("tags", .null)], .bool false, .bool false, .bool false⟩

/-- A change of a password that is sensitive on both sides, next to a name. -/
def passwordChange : Change :=
  ⟨.obj [("name", .str "db"), ("password", .str "old")],
    .obj [("name", .str "db1"), ("password", .str "hunter2")],
    .bool false, .bool false, .obj [("password", .bool true)]⟩

/-- An output change whose after value is a map and is sensitive as a whole. -/
def sensitiveMapChange : Change :=
  ⟨.null, .obj [("password", .str "hunter2")], .bool false, .bool false, .bool true⟩

/-! ## Vocabulary for trees whose map keys have no dot -/

/-- The key does not contain the character `.`. -/
def hasNoDot (k : String) : Bool :=
  k.data.all (fun c => c != '.')

mutual
/-- In every map of the tree, at any depth, no key contains `.` and each key occurs
once. -/
def plainKeys : Value → Bool
  | .obj kvs => plainKeysFields kvs
  | .list xs => plainKeysElems xs
  | .strs _ => true
  | .null => true
  | .bool _ => true
  | .num _ => true
  | .str _ => true
/-- The keys of the fields have no dot and are distinct, and so below each field. -/
def plainKeysFields : List (String × Value) → Bool
  | [] => true
  | (k, v) :: rest =>
    hasNoDot k && decide (k ∉ rest.map Prod.fst) && plainKeys v && plainKeysFields rest
/-- Every element of the sequence has plain keys. -/
def plainKeysElems : List Value → Bool
  | [] => true
  | x :: rest => plainKeys x && plainKeysElems rest
end

mutual
/-- The number of non-null scalar leaves of a tree plus the number of its sequences of
strings. -/
def writtenLeaves : Value → Nat
  | .obj kvs => writtenLeavesFields kvs
  | .list xs => writtenLeavesElems xs
  | .strs _ => 1
  | .null => 0
  | .bool _ => 1
  | .num _ => 1
  | .str _ => 1
/-- The count of `writtenLeaves` over the fields of a map. -/
def writtenLeavesFields : List (String × Value) → Nat
  | [] => 0
  | (_, v) :: rest => writtenLeaves v + writtenLeavesFields rest
/-- The count of `writtenLeaves` over the elements of a sequence. -/
def writtenLeavesElems : List Value → Nat
  | [] => 0
  | x :: rest => writtenLeaves x + writtenLeavesElems rest
end

/-- What follows the path of a node in the key of a leaf below it: nothing, or text
that starts with `.`. -/
def DotLed (suffix : List Char) : Prop :=
  suffix = [] ∨ ∃ r, suffix = '.' :: r



/-! ## Lemmas about Go maps -/

theorem mget_mset {β : Type} (m : List (String × β)) (k k' : String) (v : β) :
    mget (mset m k v) k' = if k = k' then some v else mget m k' := by
  induction m with
  | nil => simp [mset, mget]
  | cons e t ih =>
    obtain ⟨a, b⟩ := e
    by_cases h : a = k
    · subst h
      by_cases h' : a = k' <;> simp [mset, mget, h']
    · by_cases h' : a = k'
      · subst h'
        simp [mset, mget, h, Ne.symm h]
      · simp [mset, mget, h, h', ih]

theorem mget_mset_self {β : Type} (m : List (String × β)) (k : String) (v : β) :
    mget (mset m k v) k = some v := by
  simp [mget_mset]

theorem mget_mset_ne {β : Type} (m : List (String × β)) (k k' : String) (v : β) (h : k ≠ k') :
    mget (mset m k v) k' = mget m k' := by
  simp [mget_mset, h]

theorem mget_mdelete {β : Type} (m : List (String × β)) (k k' : String) :
    mget (mdelete m k) k' = if k = k' then none else mget m k' := by
  induction m with
  | nil => simp [mdelete, mget]
  | cons e t ih =>
    obtain ⟨a, b⟩ := e
    by_cases h : a = k
    · subst h
      by_cases h' : a = k'
      · simpa [mdelete, h'] using ih
      · simp [mdelete, mget, h', ih]
    · by_cases h' : a = k'
      · subst h'
        simp [mdelete, mget, h, Ne.symm h]
      · simp [mdelete, mget, h, h', ih]

theorem keys_mdelete_sublist {β : Type} (m : List (String × β)) (k : String) :
    ((mdelete m k).map Prod.fst).Sublist (m.map Prod.fst) := by
  induction m with
  | nil => simp [mdelete]
  | cons e t ih =>
    obtain ⟨a, b⟩ := e
    by_cases h : a = k
    · simp only [mdelete, h, if_true, List.map_cons]
      exact List.Sublist.cons _ (h ▸ ih)
    · simp only [mdelete, h, if_false, List.map_cons]
      exact List.Sublist.cons₂ _ ih

theorem mget_eq_none_iff {β : Type} (m : List (String × β)) (k : String) :
    mget m k = none ↔ k ∉ m.map Prod.fst := by
  induction m with
  | nil => simp [mget]
  | cons e t ih =>
    obtain ⟨a, b⟩ := e
    by_cases h : a = k
    · simp [mget, h]
    · simp [mget, h, ih, Ne.symm h]

theorem mget_of_mem {β : Type} (m : List (String × β)) (k : String) (v : β)
    (hn : KeysNodup m) (h : (k, v) ∈ m) : mget m k = some v := by
  induction m with
  | nil => simp at h
  | cons e t ih =>
    obtain ⟨a, b⟩ := e
    unfold KeysNodup at hn ih
    simp only [List.map_cons, List.nodup_cons] at hn
    rcases List.mem_cons.mp h with h1 | h1
    · cases h1
      simp [mget]
    · have : a ≠ k := by
        intro hak
        subst hak
        exact hn.1 (List.mem_map.mpr ⟨(a, v), h1, rfl⟩)
      simp [mget, this, ih hn.2 h1]

theorem mem_of_mget {β : Type} (m : List (String × β)) (k : String) (v : β)
    (h : mget m k = some v) : (k, v) ∈ m := by
  induction m with
  | nil => simp [mget] at h
  | cons e t ih =>
    obtain ⟨a, b⟩ := e
    by_cases hak : a = k
    · subst hak
      simp [mget] at h
      simp [h]
    · simp [mget, hak] at h
      exact List.mem_cons_of_mem _ (ih h)

theorem keys_mset {β : Type} (m : List (String × β)) (k : String) (v : β) :
    (mset m k v).map Prod.fst =
      if k ∈ m.map Prod.fst then m.map Prod.fst else m.map Prod.fst ++ [k] := by
  induction m with
  | nil => simp [mset]
  | cons e t ih =>
    obtain ⟨a, b⟩ := e
    by_cases h : a = k
    · subst h
      simp [mset]
    · have h' : ¬ k = a := fun hh => h hh.symm
      by_cases hk : k ∈ t.map Prod.fst
      · simp only [mset, h, if_false, List.map_cons, ih, hk, if_true, List.mem_cons, or_true]
      · simp only [mset, h, if_false, List.map_cons, ih, hk, List.mem_cons, h', or_self,
          List.cons_append]

theorem keysNodup_mset {β : Type} (m : List (String × β)) (k : String) (v : β)
    (h : KeysNodup m) : KeysNodup (mset m k v) := by
  unfold KeysNodup at h ⊢
  rw [keys_mset]
  split
  · exact h
  · rename_i hk
    rw [List.nodup_append]
    refine ⟨h, List.nodup_singleton k, ?_⟩
    intro x hx hx'
    simp at hx'
    subst hx'
    exact hk hx

theorem keysNodup_mdelete {β : Type} (m : List (String × β)) (k : String)
    (h : KeysNodup m) : KeysNodup (mdelete m k) :=
  List.Nodup.sublist (keys_mdelete_sublist m k) h

theorem keysNodup_nil {β : Type} : KeysNodup ([] : List (String × β)) := by
  simp [KeysNodup]



/-! ## `flatten` and the overlays build Go maps -/

mutual
theorem keysNodup_flatten : ∀ (path : String) (a : Value) (kvPairs : List (String × String)),
    KeysNodup kvPairs → KeysNodup (flatten path a kvPairs)
  | path, .obj av1, kvPairs, h => by
    rw [flatten]
    exact keysNodup_flattenFields (path ++ ".") av1 kvPairs h
  | path, .list av1, kvPairs, h => by
    rw [flatten]
    exact keysNodup_flattenElems (path ++ ".") 0 av1 kvPairs h
  | path, .strs av1, kvPairs, h => by
    rw [flatten]
    exact keysNodup_mset _ _ _ h
  | _, .null, kvPairs, h => by
    rw [flatten]
    exact h
  | path, .bool b, kvPairs, h => by
    rw [flatten]
    exact keysNodup_mset _ _ _ h
  | path, .num text, kvPairs, h => by
    rw [flatten]
    exact keysNodup_mset _ _ _ h
  | path, .str s, kvPairs, h => by
    rw [flatten]
    exact keysNodup_mset _ _ _ h
theorem keysNodup_flattenFields : ∀ (path : String) (av1 : List (String × Value))
    (kvPairs : List (String × String)),
    KeysNodup kvPairs → KeysNodup (flattenFields path av1 kvPairs)
  | _, [], kvPairs, h => by
    rw [flattenFields]
    exact h
  | path, (k, v) :: rest, kvPairs, h => by
    rw [flattenFields]
    exact keysNodup_flattenFields path rest _ (keysNodup_flatten (path ++ k) v kvPairs h)
theorem keysNodup_flattenElems : ∀ (path : String) (i : Nat) (av1 : List Value)
    (kvPairs : List (String × String)),
    KeysNodup kvPairs → KeysNodup (flattenElems path i av1 kvPairs)
  | _, _, [], kvPairs, h => by
    rw [flattenElems]
    exact h
  | path, i, elem :: rest, kvPairs, h => by
    rw [flattenElems]
    exact keysNodup_flattenElems path (i + 1) rest _ (keysNodup_flatten _ elem kvPairs h)
end

theorem keysNodup_overlay (marks target : List (String × String)) (text : String)
    (h : KeysNodup target) : KeysNodup (overlay marks target text) := by
  unfold overlay
  induction marks generalizing target with
  | nil => simpa using h
  | cons e t ih =>
    simp only [List.foldl_cons]
    apply ih
    split
    · exact keysNodup_mset _ _ _ h
    · exact h

theorem keysNodup_overlaidBefore (chng : Change) : KeysNodup (overlaidBefore chng) :=
  keysNodup_overlay _ _ _ (keysNodup_flatten _ _ _ keysNodup_nil)

theorem keysNodup_overlaidAfter (chng : Change) : KeysNodup (overlaidAfter chng) :=
  keysNodup_overlay _ _ _ (keysNodup_overlay _ _ _ (keysNodup_flatten _ _ _ keysNodup_nil))

/-- A path marked `"true"` reads as the overlay text, every other path is untouched. -/
theorem mget_overlay (marks target : List (String × String)) (text : String) (p : String) :
    mget (overlay marks target text) p =
      if (p, "true") ∈ marks then some text else mget target p := by
  unfold overlay
  induction marks generalizing target with
  | nil => simp
  | cons e t ih =>
    obtain ⟨k, b⟩ := e
    simp only [List.foldl_cons, ih, List.mem_cons, Prod.mk.injEq]
    by_cases hm : (p, "true") ∈ t
    · simp [hm]
    · simp only [hm, if_false, or_false]
      by_cases hb : b = "true"
      · subst hb
        by_cases hk : k = p
        · subst hk
          simp [mget_mset]
        · have hk' : ¬ p = k := fun hh => hk hh.symm
          simp [mget_mset, hk, hk']
      · have : ¬ (p = k ∧ "true" = b) := fun hh => hb hh.2.symm
        simp [hb, this]

/-! ## The two passes of `parseChange` -/

theorem mget_diffBeforePass (before after : List (String × String)) (out : EntityDiff)
    (p : String) (hn : KeysNodup before) :
    mget (diffBeforePass before after out) p =
      match mget before p with
      | none => mget out p
      | some b =>
        match mget after p with
        | none => some ⟨b, "(empty)"⟩
        | some a => if a ≠ b then some ⟨b, a⟩ else mget out p := by
  unfold diffBeforePass
  induction before generalizing out with
  | nil => simp [mget]
  | cons e t ih =>
    obtain ⟨k, v⟩ := e
    unfold KeysNodup at hn ih
    simp only [List.map_cons, List.nodup_cons] at hn
    simp only [List.foldl_cons]
    rw [ih _ hn.2]
    by_cases hk : k = p
    · subst hk
      have hnone : mget t k = none := (mget_eq_none_iff t k).2 hn.1
      simp only [hnone, mget, if_true]
      cases hA : mget after k with
      | none => simp [mget_mset]
      | some a =>
        by_cases hav : a = v
        · simp [hav]
        · simp [hav, mget_mset]
    · simp only [mget, hk, if_false]
      have hstep : mget (match mget after k with
          | none => mset out k ⟨v, "(empty)"⟩
          | some afterVal => if afterVal ≠ v then mset out k ⟨v, afterVal⟩ else out) p
          = mget out p := by
        cases mget after k with
        | none => simp [mget_mset, hk]
        | some a =>
          by_cases hav : a = v
          · simp [hav]
          · simp [hav, mget_mset, hk]
      simp only [hstep]

theorem mget_diffAfterPass (before after : List (String × String)) (out : EntityDiff)
    (p : String) (hn : KeysNodup after) :
    mget (diffAfterPass before after out) p =
      match mget after p with
      | none => mget out p
      | some a =>
        match mget before p with
        | none => some ⟨"(empty)", a⟩
        | some _ => mget out p := by
  unfold diffAfterPass
  induction after generalizing out with
  | nil => simp [mget]
  | cons e t ih =>
    obtain ⟨k, v⟩ := e
    unfold KeysNodup at hn ih
    simp only [List.map_cons, List.nodup_cons] at hn
    simp only [List.foldl_cons]
    rw [ih _ hn.2]
    by_cases hk : k = p
    · subst hk
      have hnone : mget t k = none := (mget_eq_none_iff t k).2 hn.1
      simp only [hnone, mget, if_true]
      cases hB : mget before k with
      | none => simp [mget_mset]
      | some b => simp
    · simp only [mget, hk, if_false]
      have hstep : mget (match mget before k with
          | none => mset out k ⟨"(empty)", v⟩
          | some _ => out) p = mget out p := by
        cases mget before k with
        | none => simp [mget_mset, hk]
        | some b => simp
      simp only [hstep]

/-- The entry of `parseChange` at a path, read off the two overlaid flat maps. -/
theorem mget_parseChange (chng : Change) (p : String) :
    mget (parseChange chng) p =
      match mget (overlaidBefore chng) p, mget (overlaidAfter chng) p with
      | some b, none => some ⟨b, "(empty)"⟩
      | none, some a => some ⟨"(empty)", a⟩
      | some b, some a => if a ≠ b then some ⟨b, a⟩ else none
      | none, none => none := by
  unfold parseChange
  rw [mget_diffAfterPass _ _ _ _ (keysNodup_overlaidAfter chng),
    mget_diffBeforePass _ _ _ _ (keysNodup_overlaidBefore chng)]
  cases mget (overlaidBefore chng) p <;> cases mget (overlaidAfter chng) p <;> simp [mget]



/-! ## Change normalisation: claims C1, C8, C9, C10 -/

/-- C1: the result of `parseChange` is fixed by the overlaid flat maps `B`
(`overlaidBefore`) and `A` (`overlaidAfter`).  A path is a key of the result iff it is
in `B` but not in `A`, or in `A` but not in `B`, or in both with different values; the
entry is then `{B[p], "(empty)"}`, `{"(empty)", A[p]}` or `{B[p], A[p]}` respectively,
and a path bound to equal values in both maps is not a key of the result. -/
theorem parseChange_entries (chng : Change) (p : String) :
    ((mget (parseChange chng) p).isSome ↔
      ((mget (overlaidBefore chng) p).isSome ∧ mget (overlaidAfter chng) p = none) ∨
      ((mget (overlaidAfter chng) p).isSome ∧ mget (overlaidBefore chng) p = none) ∨
      (∃ b a, mget (overlaidBefore chng) p = some b ∧ mget (overlaidAfter chng) p = some a ∧
        b ≠ a)) ∧
    (∀ b, mget (overlaidBefore chng) p = some b → mget (overlaidAfter chng) p = none →
      mget (parseChange chng) p = some ⟨b, "(empty)"⟩) ∧
    (∀ a, mget (overlaidBefore chng) p = none → mget (overlaidAfter chng) p = some a →
      mget (parseChange chng) p = some ⟨"(empty)", a⟩) ∧
    (∀ b a, mget (overlaidBefore chng) p = some b → mget (overlaidAfter chng) p = some a →
      b ≠ a → mget (parseChange chng) p = some ⟨b, a⟩) ∧
    (∀ v, mget (overlaidBefore chng) p = some v → mget (overlaidAfter chng) p = some v →
      mget (parseChange chng) p = none) := by
  rw [mget_parseChange]
  refine ⟨?_, ?_, ?_, ?_, ?_⟩
  · cases hB : mget (overlaidBefore chng) p with
    | none =>
      cases hA : mget (overlaidAfter chng) p with
      | none => simp
      | some a => simp
    | some b =>
      cases hA : mget (overlaidAfter chng) p with
      | none => simp
      | some a =>
        by_cases hab : a = b
        · simp [hab]
        · have hba : ¬ b = a := fun hh => hab hh.symm
          simp [hab, hba]
  · intro b hB hA
    simp [hB, hA]
  · intro a hB hA
    simp [hB, hA]
  · intro b a hB hA hne
    have hab : ¬ a = b := fun hh => hne hh.symm
    simp [hB, hA, hab]
  · intro v hB hA
    simp [hB, hA]

/-- C8 as stated fails: on the input of the claim the path `.x` is present with
different values on the two sides and marked in both sensitive overlays, and
`parseChange` returns the empty diff, not an entry at `.x`. -/
theorem parseChange_sensitiveBoth_counterexample :
    mget (flatten "" sensitiveBothChange.Before []) ".x" = some "secret" ∧
    mget (flatten "" sensitiveBothChange.After []) ".x" = some "secret2" ∧
    MarkedTrue sensitiveBothChange.BeforeSensitive ".x" ∧
    MarkedTrue sensitiveBothChange.AfterSensitive ".x" ∧
    parseChange sensitiveBothChange = [] ∧
    parseChange sensitiveBothChange ≠
      [(".x", ⟨"(sensitive value)", "(sensitive value)"⟩)] := by
  decide

/-- C8 amended: a path marked true in both `beforeSensitive` and `afterSensitive` reads
`"(sensitive value)"` on both sides, whatever `before` and `after` hold there; the two
sides being equal, `parseChange` emits no entry at that path. -/
theorem parseChange_sensitiveBoth (chng : Change) (p : String)
    (hb : MarkedTrue chng.BeforeSensitive p) (ha : MarkedTrue chng.AfterSensitive p) :
    mget (overlaidBefore chng) p = some "(sensitive value)" ∧
    mget (overlaidAfter chng) p = some "(sensitive value)" ∧
    mget (parseChange chng) p = none := by
  have hB : mget (overlaidBefore chng) p = some "(sensitive value)" := by
    unfold overlaidBefore
    rw [mget_overlay, if_pos (mem_of_mget _ _ _ hb)]
  have hA : mget (overlaidAfter chng) p = some "(sensitive value)" := by
    unfold overlaidAfter
    rw [mget_overlay, if_pos (mem_of_mget _ _ _ ha)]
  refine ⟨hB, hA, ?_⟩
  rw [mget_parseChange, hB, hA]
  simp

/-- Witness of C8 amended: the input of the claim yields the empty diff. -/
theorem parseChange_sensitiveBoth_witness :
    MarkedTrue sensitiveBothChange.BeforeSensitive ".x" ∧
    MarkedTrue sensitiveBothChange.AfterSensitive ".x" ∧
    mget (parseChange sensitiveBothChange) ".x" = none ∧
    parseChange sensitiveBothChange = [] :=
  ⟨by decide, by decide,
    (parseChange_sensitiveBoth sensitiveBothChange ".x" (by decide) (by decide)).2.2,
    by decide⟩

/-- C9: for a path marked true in both `afterUnknown` and `afterSensitive`, the after
value `parseChange` uses is `"(sensitive value)"`; an entry of the result at that path
has `After = "(sensitive value)"`, never `"(known after apply)"`. -/
theorem parseChange_unknown_sensitive (chng : Change) (p : String)
    (_hu : MarkedTrue chng.AfterUnknown p) (hs : MarkedTrue chng.AfterSensitive p) :
    mget (overlaidAfter chng) p = some "(sensitive value)" ∧
    ∀ d, mget (parseChange chng) p = some d →
      d.After = "(sensitive value)" ∧ d.After ≠ "(known after apply)" := by
  have hA : mget (overlaidAfter chng) p = some "(sensitive value)" := by
    unfold overlaidAfter
    rw [mget_overlay, if_pos (mem_of_mget _ _ _ hs)]
  refine ⟨hA, ?_⟩
  intro d hd
  rw [mget_parseChange, hA] at hd
  have hAfter : d.After = "(sensitive value)" := by
    cases hB : mget (overlaidBefore chng) p with
    | none =>
      rw [hB] at hd
      simp only [Option.some.injEq] at hd
      rw [← hd]
    | some b =>
      rw [hB] at hd
      by_cases hne : "(sensitive value)" = b
      · simp [hne] at hd
      · simp only [ne_eq, hne, not_false_eq_true, if_true, Option.some.injEq] at hd
        rw [← hd]
  refine ⟨hAfter, ?_⟩
  rw [hAfter]
  decide

/-- Witness of C9: an attribute created unknown and sensitive is reported sensitive. -/
theorem parseChange_unknown_sensitive_witness :
    MarkedTrue unknownSensitiveChange.AfterUnknown ".x" ∧
    MarkedTrue unknownSensitiveChange.AfterSensitive ".x" ∧
    mget (overlaidAfter unknownSensitiveChange) ".x" = some "(sensitive value)" ∧
    parseChange unknownSensitiveChange = [(".x", ⟨"(empty)", "(sensitive value)"⟩)] :=
  ⟨by decide, by decide,
    (parseChange_unknown_sensitive unknownSensitiveChange ".x" (by decide) (by decide)).1,
    by decide⟩

theorem flattenOverlay_absent (v : Value) (h : absentOverlay v = true) :
    flattenOverlay v = [] := by
  cases v with
  | null => simp [flattenOverlay, notFalse, flatten]
  | bool b =>
    cases b
    · simp [flattenOverlay, notFalse]
    · simp [absentOverlay] at h
  | num t => simp [absentOverlay] at h
  | str s => simp [absentOverlay] at h
  | list xs => simp [absentOverlay] at h
  | strs ss => simp [absentOverlay] at h
  | obj kvs => simp [absentOverlay] at h

/-- C10: without overlays, a path that flattens from `before` with value `V` and is
absent from the flattened `after` yields `{V, "(empty)"}`, and a path that flattens from
`after` with value `V` and is absent from the flattened `before` yields
`{"(empty)", V}`. -/
theorem parseChange_absence (chng : Change) (p V : String) (h : NoOverlays chng) :
    (mget (flatten "" chng.Before []) p = some V → mget (flatten "" chng.After []) p = none →
      mget (parseChange chng) p = some ⟨V, "(empty)"⟩) ∧
    (mget (flatten "" chng.After []) p = some V → mget (flatten "" chng.Before []) p = none →
      mget (parseChange chng) p = some ⟨"(empty)", V⟩) := by
  obtain ⟨hu, hbs, has⟩ := h
  have hB : overlaidBefore chng = flatten "" chng.Before [] := by
    simp [overlaidBefore, flattenOverlay_absent _ hbs, overlay]
  have hA : overlaidAfter chng = flatten "" chng.After [] := by
    simp [overlaidAfter, flattenOverlay_absent _ hu, flattenOverlay_absent _ has, overlay]
  rw [mget_parseChange, hB, hA]
  constructor
  · intro h1 h2
    simp [h1, h2]
  · intro h1 h2
    simp [h1, h2]

/-- Witness of C10: `.acl` exists only before, `.baz` only after. -/
theorem parseChange_absence_witness :
    NoOverlays bucketChange ∧
    mget (parseChange bucketChange) ".acl" = some ⟨"private", "(empty)"⟩ ∧
    mget (parseChange bucketChange) ".baz" = some ⟨"(empty)", "box"⟩ :=
  ⟨by decide,
    (parseChange_absence bucketChange ".acl" "private" (by decide)).1 (by decide) (by decide),
    (parseChange_absence bucketChange ".baz" "box" (by decide)).2 (by decide) (by decide)⟩



/-! ## The comparison, address by address -/

theorem mget_record (out : List (String × CompareEntityDiff)) (address path k : String)
    (dA dB : Diff) :
    mget (record out address path dA dB) k =
      if address = k then some (recordAt (mget out address) path dA dB) else mget out k := by
  unfold record recordAt
  cases h : mget out address <;> simp [mget_mset]

theorem mget_pathsA (address : String) (bEnt : EntityDiff) (aEnt : EntityDiff)
    (out : List (String × CompareEntityDiff)) (k : String) :
    mget (aEnt.foldl (fun out pd =>
      match mget bEnt pd.1 with
      | none => record out address pd.1 pd.2 emptyDiff
      | some bDiff => if pd.2 ≠ bDiff then record out address pd.1 pd.2 bDiff else out) out) k =
      if address = k then localA bEnt aEnt (mget out address) else mget out k := by
  unfold localA
  induction aEnt generalizing out with
  | nil => by_cases h : address = k <;> simp [h]
  | cons pd t ih =>
    simp only [List.foldl_cons]
    rw [ih]
    by_cases h : address = k
    · simp only [h, if_true]
      congr 1
      cases hb : mget bEnt pd.1 with
      | none => simp [mget_record]
      | some bDiff =>
        by_cases hd : pd.2 = bDiff
        · simp [hd]
        · simp [hd, mget_record]
    · simp only [h, if_false]
      cases hb : mget bEnt pd.1 with
      | none => simp [mget_record, h]
      | some bDiff =>
        by_cases hd : pd.2 = bDiff
        · simp [hd]
        · simp [hd, mget_record, h]

theorem mget_pathsB (address : String) (aEnt : EntityDiff) (bEnt : EntityDiff)
    (out : List (String × CompareEntityDiff)) (k : String) :
    mget (bEnt.foldl (fun out pd =>
      match mget aEnt pd.1 with
      | none => record out address pd.1 emptyDiff pd.2
      | some aDiff => if pd.2 ≠ aDiff then record out address pd.1 aDiff pd.2 else out) out) k =
      if address = k then localB aEnt bEnt (mget out address) else mget out k := by
  unfold localB
  induction bEnt generalizing out with
  | nil => by_cases h : address = k <;> simp [h]
  | cons pd t ih =>
    simp only [List.foldl_cons]
    rw [ih]
    by_cases h : address = k
    · simp only [h, if_true]
      congr 1
      cases hb : mget aEnt pd.1 with
      | none => simp [mget_record]
      | some aDiff =>
        by_cases hd : pd.2 = aDiff
        · simp [hd]
        · simp [hd, mget_record]
    · simp only [h, if_false]
      cases hb : mget aEnt pd.1 with
      | none => simp [mget_record, h]
      | some aDiff =>
        by_cases hd : pd.2 = aDiff
        · simp [hd]
        · simp [hd, mget_record, h]

theorem mget_divergeA (b : Collection) (out : List (String × CompareEntityDiff))
    (e : String × EntityDiff) (k : String) :
    mget (divergeA b out e) k =
      if e.1 = k then
        (match mget b e.1 with
          | none => some ⟨e.2, mirror e.2⟩
          | some bEnt => localA bEnt e.2 (mget out e.1))
      else mget out k := by
  unfold divergeA
  cases hb : mget b e.1 with
  | none => simp [mget_mset]
  | some bEnt => simp only [mget_pathsA]

theorem mget_divergeB (a : Collection) (out : List (String × CompareEntityDiff))
    (e : String × EntityDiff) (k : String) :
    mget (divergeB a out e) k =
      if e.1 = k then
        (match mget a e.1 with
          | none => some ⟨mirror e.2, e.2⟩
          | some aEnt => localB aEnt e.2 (mget out e.1))
      else mget out k := by
  unfold divergeB
  cases ha : mget a e.1 with
  | none => simp [mget_mset]
  | some aEnt => simp only [mget_pathsB]

theorem mget_passA (a b : Collection) (out : List (String × CompareEntityDiff)) (k : String)
    (hn : KeysNodup a) :
    mget (a.foldl (divergeA b) out) k =
      match mget a k with
      | none => mget out k
      | some aEnt =>
        match mget b k with
        | none => some ⟨aEnt, mirror aEnt⟩
        | some bEnt => localA bEnt aEnt (mget out k) := by
  induction a generalizing out with
  | nil => simp [mget]
  | cons e t ih =>
    obtain ⟨addr, ent⟩ := e
    unfold KeysNodup at hn ih
    simp only [List.map_cons, List.nodup_cons] at hn
    simp only [List.foldl_cons]
    rw [ih _ hn.2]
    by_cases h : addr = k
    · subst h
      have hnone : mget t addr = none := (mget_eq_none_iff t addr).2 hn.1
      simp [hnone, mget, mget_divergeA]
    · simp [mget, h, mget_divergeA]

theorem mget_passB (a b : Collection) (out : List (String × CompareEntityDiff)) (k : String)
    (hn : KeysNodup b) :
    mget (b.foldl (divergeB a) out) k =
      match mget b k with
      | none => mget out k
      | some bEnt =>
        match mget a k with
        | none => some ⟨mirror bEnt, bEnt⟩
        | some aEnt => localB aEnt bEnt (mget out k) := by
  induction b generalizing out with
  | nil => simp [mget]
  | cons e t ih =>
    obtain ⟨addr, ent⟩ := e
    unfold KeysNodup at hn ih
    simp only [List.map_cons, List.nodup_cons] at hn
    simp only [List.foldl_cons]
    rw [ih _ hn.2]
    by_cases h : addr = k
    · subst h
      have hnone : mget t addr = none := (mget_eq_none_iff t addr).2 hn.1
      simp [hnone, mget, mget_divergeB]
    · simp [mget, h, mget_divergeB]

/-- The entry of the divergence at an address, from the entities of the two plans. -/
theorem mget_getEntityDiffDivergence (a b : Collection) (k : String)
    (ha : KeysNodup a) (hb : KeysNodup b) :
    mget (getEntityDiffDivergence a b) k =
      match mget a k, mget b k with
      | none, none => none
      | some aEnt, none => some ⟨aEnt, mirror aEnt⟩
      | none, some bEnt => some ⟨mirror bEnt, bEnt⟩
      | some aEnt, some bEnt => localB aEnt bEnt (localA bEnt aEnt none) := by
  unfold getEntityDiffDivergence
  rw [mget_passB a b _ k hb, mget_passA a b _ k ha]
  cases mget a k <;> cases mget b k <;> simp [mget]



/-! ## The comparison, path by path -/

theorem mget_mirror_aux (e acc : EntityDiff) (p : String) :
    mget (e.foldl (fun acc pd => mset acc pd.1 emptyDiff) acc) p =
      match mget e p with
      | none => mget acc p
      | some _ => some emptyDiff := by
  induction e generalizing acc with
  | nil => simp [mget]
  | cons pd t ih =>
    simp only [List.foldl_cons]
    rw [ih]
    by_cases h : pd.1 = p
    · cases ht : mget t p <;> simp [mget, h, mget_mset]
    · cases ht : mget t p <;> simp [mget, h, mget_mset, ht]

theorem mget_mirror (e : EntityDiff) (p : String) :
    mget (mirror e) p = (mget e p).map (fun _ => emptyDiff) := by
  unfold mirror
  rw [mget_mirror_aux]
  cases mget e p <;> simp [mget]

theorem sideA_recordAt (o : Option CompareEntityDiff) (path p : String) (dA dB : Diff) :
    sideA (some (recordAt o path dA dB)) p = if path = p then some dA else sideA o p := by
  cases o <;> simp [sideA, recordAt, mget_mset, mget]

theorem sideB_recordAt (o : Option CompareEntityDiff) (path p : String) (dA dB : Diff) :
    sideB (some (recordAt o path dA dB)) p = if path = p then some dB else sideB o p := by
  cases o <;> simp [sideB, recordAt, mget_mset, mget]

theorem sideA_localA (bEnt aEnt : EntityDiff) (o : Option CompareEntityDiff) (p : String)
    (hn : KeysNodup aEnt) :
    sideA (localA bEnt aEnt o) p =
      match mget aEnt p with
      | none => sideA o p
      | some d =>
        match mget bEnt p with
        | none => some d
        | some d' => if d = d' then sideA o p else some d := by
  unfold localA
  induction aEnt generalizing o with
  | nil => simp [mget]
  | cons pd t ih =>
    unfold KeysNodup at hn ih
    simp only [List.map_cons, List.nodup_cons] at hn
    simp only [List.foldl_cons]
    rw [ih _ hn.2]
    by_cases h : pd.1 = p
    · have hnone : mget t p = none := (mget_eq_none_iff t p).2 (h ▸ hn.1)
      simp only [hnone, mget, h, if_true]
      rw [← h]
      cases hb : mget bEnt pd.1 with
      | none => simp [sideA_recordAt]
      | some d' =>
        by_cases hd : pd.2 = d'
        · simp [hd]
        · simp [hd, sideA_recordAt]
    · simp only [mget, h, if_false]
      have hstep : sideA (match mget bEnt pd.1 with
          | none => some (recordAt o pd.1 pd.2 emptyDiff)
          | some bDiff => if pd.2 ≠ bDiff then some (recordAt o pd.1 pd.2 bDiff) else o) p
          = sideA o p := by
        cases hb : mget bEnt pd.1 with
        | none => simp [sideA_recordAt, h]
        | some d' =>
          by_cases hd : pd.2 = d'
          · simp [hd]
          · simp [hd, sideA_recordAt, h]
      simp only [hstep]

theorem sideB_localA (bEnt aEnt : EntityDiff) (o : Option CompareEntityDiff) (p : String)
    (hn : KeysNodup aEnt) :
    sideB (localA bEnt aEnt o) p =
      match mget aEnt p with
      | none => sideB o p
      | some d =>
        match mget bEnt p with
        | none => some emptyDiff
        | some d' => if d = d' then sideB o p else some d' := by
  unfold localA
  induction aEnt generalizing o with
  | nil => simp [mget]
  | cons pd t ih =>
    unfold KeysNodup at hn ih
    simp only [List.map_cons, List.nodup_cons] at hn
    simp only [List.foldl_cons]
    rw [ih _ hn.2]
    by_cases h : pd.1 = p
    · have hnone : mget t p = none := (mget_eq_none_iff t p).2 (h ▸ hn.1)
      simp only [hnone, mget, h, if_true]
      rw [← h]
      cases hb : mget bEnt pd.1 with
      | none => simp [sideB_recordAt]
      | some d' =>
        by_cases hd : pd.2 = d'
        · simp [hd]
        · simp [hd, sideB_recordAt]
    · simp only [mget, h, if_false]
      have hstep : sideB (match mget bEnt pd.1 with
          | none => some (recordAt o pd.1 pd.2 emptyDiff)
          | some bDiff => if pd.2 ≠ bDiff then some (recordAt o pd.1 pd.2 bDiff) else o) p
          = sideB o p := by
        cases hb : mget bEnt pd.1 with
        | none => simp [sideB_recordAt, h]
        | some d' =>
          by_cases hd : pd.2 = d'
          · simp [hd]
          · simp [hd, sideB_recordAt, h]
      simp only [hstep]

theorem sideA_localB (aEnt bEnt : EntityDiff) (o : Option CompareEntityDiff) (p : String)
    (hn : KeysNodup bEnt) :
    sideA (localB aEnt bEnt o) p =
      match mget bEnt p with
      | none => sideA o p
      | some d =>
        match mget aEnt p with
        | none => some emptyDiff
        | some d' => if d = d' then sideA o p else some d' := by
  unfold localB
  induction bEnt generalizing o with
  | nil => simp [mget]
  | cons pd t ih =>
    unfold KeysNodup at hn ih
    simp only [List.map_cons, List.nodup_cons] at hn
    simp only [List.foldl_cons]
    rw [ih _ hn.2]
    by_cases h : pd.1 = p
    · have hnone : mget t p = none := (mget_eq_none_iff t p).2 (h ▸ hn.1)
      simp only [hnone, mget, h, if_true]
      rw [← h]
      cases hb : mget aEnt pd.1 with
      | none => simp [sideA_recordAt]
      | some d' =>
        by_cases hd : pd.2 = d'
        · simp [hd]
        · simp [hd, sideA_recordAt]
    · simp only [mget, h, if_false]
      have hstep : sideA (match mget aEnt pd.1 with
          | none => some (recordAt o pd.1 emptyDiff pd.2)
          | some aDiff => if pd.2 ≠ aDiff then some (recordAt o pd.1 aDiff pd.2) else o) p
          = sideA o p := by
        cases hb : mget aEnt pd.1 with
        | none => simp [sideA_recordAt, h]
        | some d' =>
          by_cases hd : pd.2 = d'
          · simp [hd]
          · simp [hd, sideA_recordAt, h]
      simp only [hstep]

theorem sideB_localB (aEnt bEnt : EntityDiff) (o : Option CompareEntityDiff) (p : String)
    (hn : KeysNodup bEnt) :
    sideB (localB aEnt bEnt o) p =
      match mget bEnt p with
      | none => sideB o p
      | some d =>
        match mget aEnt p with
        | none => some d
        | some d' => if d = d' then sideB o p else some d := by
  unfold localB
  induction bEnt generalizing o with
  | nil => simp [mget]
  | cons pd t ih =>
    unfold KeysNodup at hn ih
    simp only [List.map_cons, List.nodup_cons] at hn
    simp only [List.foldl_cons]
    rw [ih _ hn.2]
    by_cases h : pd.1 = p
    · have hnone : mget t p = none := (mget_eq_none_iff t p).2 (h ▸ hn.1)
      simp only [hnone, mget, h, if_true]
      rw [← h]
      cases hb : mget aEnt pd.1 with
      | none => simp [sideB_recordAt]
      | some d' =>
        by_cases hd : pd.2 = d'
        · simp [hd]
        · simp [hd, sideB_recordAt]
    · simp only [mget, h, if_false]
      have hstep : sideB (match mget aEnt pd.1 with
          | none => some (recordAt o pd.1 emptyDiff pd.2)
          | some aDiff => if pd.2 ≠ aDiff then some (recordAt o pd.1 aDiff pd.2) else o) p
          = sideB o p := by
        cases hb : mget aEnt pd.1 with
        | none => simp [sideB_recordAt, h]
        | some d' =>
          by_cases hd : pd.2 = d'
          · simp [hd]
          · simp [hd, sideB_recordAt, h]
      simp only [hstep]

/-- The path loop over one entity leaves an entry iff it found one or some path of the
entity is missing from, or different in, the other entity. -/
theorem isSome_localA (bEnt aEnt : EntityDiff) (o : Option CompareEntityDiff) :
    (localA bEnt aEnt o).isSome ↔
      o.isSome ∨ ∃ pd ∈ aEnt, mget bEnt pd.1 ≠ some pd.2 := by
  unfold localA
  induction aEnt generalizing o with
  | nil => simp
  | cons pd t ih =>
    simp only [List.foldl_cons]
    rw [ih]
    cases hb : mget bEnt pd.1 with
    | none => simp [hb]
    | some d' =>
      by_cases hd : pd.2 = d'
      · simp [hd, hb]
      · have hd' : ¬ d' = pd.2 := fun hh => hd hh.symm
        simp [hd, hd', hb]

theorem isSome_localB (aEnt bEnt : EntityDiff) (o : Option CompareEntityDiff) :
    (localB aEnt bEnt o).isSome ↔
      o.isSome ∨ ∃ pd ∈ bEnt, mget aEnt pd.1 ≠ some pd.2 := by
  unfold localB
  induction bEnt generalizing o with
  | nil => simp
  | cons pd t ih =>
    simp only [List.foldl_cons]
    rw [ih]
    cases hb : mget aEnt pd.1 with
    | none => simp [hb]
    | some d' =>
      by_cases hd : pd.2 = d'
      · simp [hd, hb]
      · have hd' : ¬ d' = pd.2 := fun hh => hd hh.symm
        simp [hd, hd', hb]



/-! ## Comparison: claims C3, C4, C5, C6 -/

theorem keysNodup_of_mget (c : Collection) (k : String) (e : EntityDiff) (h : c.WF)
    (hk : mget c k = some e) : KeysNodup e :=
  h.2 (k, e) (mem_of_mget c k e hk)

theorem eq_nil_of_mget_none {β : Type} (m : List (String × β))
    (h : ∀ k, mget m k = none) : m = [] := by
  cases m with
  | nil => rfl
  | cons e t =>
    have := h e.1
    simp [mget] at this

/-- Both sides of a divergence entry, path by path. -/
theorem sides_getEntityDiffDivergence (a b : Collection) (ha : a.WF) (hb : b.WF)
    (k : String) (ce : CompareEntityDiff) (h : mget (getEntityDiffDivergence a b) k = some ce)
    (p : String) :
    mget ce.PlanA p = reportedAt (mget a k) (mget b k) p ∧
    mget ce.PlanB p = reportedAt (mget b k) (mget a k) p := by
  rw [mget_getEntityDiffDivergence a b k ha.1 hb.1] at h
  cases hA : mget a k with
  | none =>
    cases hB : mget b k with
    | none => simp [hA, hB] at h
    | some bEnt =>
      simp only [hA, hB, Option.some.injEq] at h
      subst h
      simp [reportedAt, mget_mirror]
  | some aEnt =>
    cases hB : mget b k with
    | none =>
      simp only [hA, hB, Option.some.injEq] at h
      subst h
      simp [reportedAt, mget_mirror]
    | some bEnt =>
      simp only [hA, hB] at h
      have hna := keysNodup_of_mget a k aEnt ha hA
      have hnb := keysNodup_of_mget b k bEnt hb hB
      have h1 := sideA_localB aEnt bEnt (localA bEnt aEnt none) p hnb
      have h2 := sideB_localB aEnt bEnt (localA bEnt aEnt none) p hnb
      rw [sideA_localA bEnt aEnt none p hna] at h1
      rw [sideB_localA bEnt aEnt none p hna] at h2
      rw [h] at h1 h2
      simp only [sideA, sideB] at h1 h2
      rw [h1, h2]
      simp only [reportedAt]
      constructor
      · cases hp : mget aEnt p with
        | none => cases hq : mget bEnt p <;> simp
        | some d =>
          cases hq : mget bEnt p with
          | none => simp
          | some d' =>
            by_cases hd : d = d'
            · simp [hd]
            · have hd' : ¬ d' = d := fun hh => hd hh.symm
              simp [hd, hd']
      · cases hp : mget aEnt p with
        | none => cases hq : mget bEnt p <;> simp
        | some d =>
          cases hq : mget bEnt p with
          | none => simp
          | some d' =>
            by_cases hd : d = d'
            · simp [hd]
            · have hd' : ¬ d' = d := fun hh => hd hh.symm
              simp [hd, hd']

theorem diverges_iff (aEnt bEnt : EntityDiff) (hna : KeysNodup aEnt) (hnb : KeysNodup bEnt) :
    ((∃ pd ∈ aEnt, mget bEnt pd.1 ≠ some pd.2) ∨ (∃ pd ∈ bEnt, mget aEnt pd.1 ≠ some pd.2)) ↔
      ∃ p, mget aEnt p ≠ mget bEnt p := by
  constructor
  · rintro (⟨pd, hm, hne⟩ | ⟨pd, hm, hne⟩)
    · refine ⟨pd.1, ?_⟩
      rw [mget_of_mem aEnt pd.1 pd.2 hna hm]
      exact fun hh => hne hh.symm
    · refine ⟨pd.1, ?_⟩
      rw [mget_of_mem bEnt pd.1 pd.2 hnb hm]
      exact hne
  · rintro ⟨p, hne⟩
    cases hA : mget aEnt p with
    | some d =>
      left
      refine ⟨(p, d), mem_of_mget aEnt p d hA, ?_⟩
      rw [hA] at hne
      exact fun hh => hne hh.symm
    | none =>
      right
      cases hB : mget bEnt p with
      | none => rw [hA, hB] at hne; exact absurd rfl hne
      | some d' =>
        refine ⟨(p, d'), mem_of_mget bEnt p d' hB, ?_⟩
        simp [hA]

/-- An address is in the divergence iff the two plans diverge on it. -/
theorem isSome_getEntityDiffDivergence (a b : Collection) (ha : a.WF) (hb : b.WF)
    (k : String) :
    (mget (getEntityDiffDivergence a b) k).isSome ↔ Diverges (mget a k) (mget b k) := by
  rw [mget_getEntityDiffDivergence a b k ha.1 hb.1]
  cases hA : mget a k with
  | none => cases hB : mget b k <;> simp [Diverges]
  | some aEnt =>
    cases hB : mget b k with
    | none => simp [Diverges]
    | some bEnt =>
      have hna := keysNodup_of_mget a k aEnt ha hA
      have hnb := keysNodup_of_mget b k bEnt hb hB
      simp only [Diverges]
      rw [isSome_localB, isSome_localA, ← diverges_iff aEnt bEnt hna hnb]
      simp

theorem diverges_comm (ea eb : Option EntityDiff) : Diverges ea eb ↔ Diverges eb ea := by
  cases ea <;> cases eb <;> simp only [Diverges]
  constructor <;> rintro ⟨p, hp⟩ <;> exact ⟨p, fun hh => hp hh.symm⟩

theorem collection_CompareInspects (a b : InspectOutput) (kind : CollectionKind) :
    (CompareInspects a b).collection kind =
      getEntityDiffDivergence (a.collection kind) (b.collection kind) := by
  cases kind <;> rfl

theorem wf_collection (i : InspectOutput) (h : i.WF) (kind : CollectionKind) :
    (i.collection kind).WF := by
  cases kind
  · exact h.1
  · exact h.2.1
  · exact h.2.2

/-- C3: `CompareInspects` is symmetric.  In each of the three collections an address is
in the comparison of `a` with `b` iff it is in the comparison of `b` with `a`, and for
such an address the `PlanA` side of the one equals, path by path, the `PlanB` side of
the other, and the `PlanB` side equals the `PlanA` side. -/
theorem CompareInspects_symmetric (a b : InspectOutput) (ha : a.WF) (hb : b.WF)
    (kind : CollectionKind) (address : String) :
    ((mget ((CompareInspects a b).collection kind) address).isSome ↔
      (mget ((CompareInspects b a).collection kind) address).isSome) ∧
    ∀ ce ce', mget ((CompareInspects a b).collection kind) address = some ce →
      mget ((CompareInspects b a).collection kind) address = some ce' →
      ∀ p, mget ce.PlanA p = mget ce'.PlanB p ∧ mget ce.PlanB p = mget ce'.PlanA p := by
  have wa := wf_collection a ha kind
  have wb := wf_collection b hb kind
  rw [collection_CompareInspects, collection_CompareInspects]
  constructor
  · rw [isSome_getEntityDiffDivergence _ _ wa wb, isSome_getEntityDiffDivergence _ _ wb wa]
    exact diverges_comm _ _
  · intro ce ce' h h' p
    have h1 := sides_getEntityDiffDivergence _ _ wa wb address ce h p
    have h2 := sides_getEntityDiffDivergence _ _ wb wa address ce' h' p
    exact ⟨h1.1.trans h2.2.symm, h1.2.trans h2.1.symm⟩

/-- Witness of C3 on `inspectA` and `inspectB`, at the resource both plans change. -/
theorem CompareInspects_symmetric_witness :
    inspectA.WF ∧ inspectB.WF ∧
    (mget ((CompareInspects inspectA inspectB).collection .resources) "aws_instance.foo").isSome ∧
    (mget ((CompareInspects inspectB inspectA).collection .resources) "aws_instance.foo").isSome ∧
    ∀ ce ce',
      mget ((CompareInspects inspectA inspectB).collection .resources) "aws_instance.foo"
        = some ce →
      mget ((CompareInspects inspectB inspectA).collection .resources) "aws_instance.foo"
        = some ce' →
      ∀ p, mget ce.PlanA p = mget ce'.PlanB p ∧ mget ce.PlanB p = mget ce'.PlanA p :=
  ⟨by decide, by decide, by decide, by decide,
    (CompareInspects_symmetric inspectA inspectB (by decide) (by decide) .resources
      "aws_instance.foo").2⟩

/-- C4: a path that both plans hold for an address with equal `Diff` values is in
neither `PlanA` nor `PlanB` of the comparison entry of that address, and every path an
entry reports is one on which the two plans disagree. -/
theorem CompareInspects_reports_disagreement (a b : InspectOutput) (ha : a.WF) (hb : b.WF)
    (kind : CollectionKind) (address path : String) (ce : CompareEntityDiff)
    (hce : mget ((CompareInspects a b).collection kind) address = some ce) :
    (∀ d, attrAt (a.collection kind) address path = some d →
      attrAt (b.collection kind) address path = some d →
      mget ce.PlanA path = none ∧ mget ce.PlanB path = none) ∧
    ((mget ce.PlanA path).isSome ∨ (mget ce.PlanB path).isSome →
      attrAt (a.collection kind) address path ≠ attrAt (b.collection kind) address path) := by
  have wa := wf_collection a ha kind
  have wb := wf_collection b hb kind
  rw [collection_CompareInspects] at hce
  have hs := sides_getEntityDiffDivergence _ _ wa wb address ce hce path
  have hd := (isSome_getEntityDiffDivergence _ _ wa wb address).1 (by simp [hce])
  rw [hs.1, hs.2]
  unfold attrAt
  cases hA : mget (a.collection kind) address with
  | none =>
    cases hB : mget (b.collection kind) address with
    | none => simp [hA, hB, Diverges] at hd
    | some bEnt =>
      constructor
      · intro d h1
        simp at h1
      · cases hp : mget bEnt path <;> simp [reportedAt, hp]
  | some aEnt =>
    cases hB : mget (b.collection kind) address with
    | none =>
      constructor
      · intro d _ h2
        simp at h2
      · cases hp : mget aEnt path <;> simp [reportedAt, hp]
    | some bEnt =>
      constructor
      · intro d h1 h2
        simp only at h1 h2
        simp [reportedAt, h1, h2]
      · cases hp : mget aEnt path with
        | none => cases hq : mget bEnt path <;> simp [reportedAt, hp, hq]
        | some d =>
          cases hq : mget bEnt path with
          | none => simp [reportedAt, hp, hq]
          | some d' =>
            by_cases hdd : d = d'
            · simp [reportedAt, hp, hq, hdd]
            · simp [reportedAt, hp, hq, hdd]

/-- Witness of C4: both plans hold `.type` of `aws_instance.foo` with the same `Diff`,
and the comparison entry reports only `.ami` and `.ebs`. -/
theorem CompareInspects_reports_disagreement_witness :
    inspectA.WF ∧ inspectB.WF ∧
    attrAt (inspectA.collection .resources) "aws_instance.foo" ".type"
      = some ⟨"t2.medium", "t2.micro"⟩ ∧
    attrAt (inspectB.collection .resources) "aws_instance.foo" ".type"
      = some ⟨"t2.medium", "t2.micro"⟩ ∧
    mget ((CompareInspects inspectA inspectB).collection .resources) "aws_instance.foo" =
      some ⟨[(".ami", ⟨"ami-1", "ami-2"⟩), (".ebs", emptyDiff)],
        [(".ami", ⟨"ami-1", "ami-3"⟩), (".ebs", ⟨"(empty)", "true"⟩)]⟩ ∧
    mget [(".ami", (⟨"ami-1", "ami-2"⟩ : Diff)), (".ebs", emptyDiff)] ".type" = none ∧
    mget [(".ami", (⟨"ami-1", "ami-3"⟩ : Diff)), (".ebs", ⟨"(empty)", "true"⟩)] ".type" = none :=
  ⟨by decide, by decide, by decide, by decide, by rfl,
    ((CompareInspects_reports_disagreement inspectA inspectB (by decide) (by decide) .resources
      "aws_instance.foo" ".type" _ (by rfl)).1 ⟨"t2.medium", "t2.micro"⟩ (by decide)
      (by decide)).1,
    ((CompareInspects_reports_disagreement inspectA inspectB (by decide) (by decide) .resources
      "aws_instance.foo" ".type" _ (by rfl)).1 ⟨"t2.medium", "t2.micro"⟩ (by decide)
      (by decide)).2⟩

/-- C5: comparing an inspection result with itself yields empty `Resources`, empty
`Outputs` and empty `ResourceDrifts`. -/
theorem CompareInspects_self (x : InspectOutput) (hx : x.WF) :
    (CompareInspects x x).Diff.Resources = [] ∧ (CompareInspects x x).Diff.Outputs = [] ∧
    (CompareInspects x x).Diff.ResourceDrifts = [] := by
  have key : ∀ c : Collection, c.WF → getEntityDiffDivergence c c = [] := by
    intro c hc
    apply eq_nil_of_mget_none
    intro k
    have h := isSome_getEntityDiffDivergence c c hc hc k
    cases hk : mget (getEntityDiffDivergence c c) k with
    | none => rfl
    | some ce =>
      rw [hk] at h
      have hd := h.1 rfl
      cases hc' : mget c k with
      | none => simp [hc', Diverges] at hd
      | some e => simp [hc', Diverges] at hd
  exact ⟨key _ hx.1, key _ hx.2.1, key _ hx.2.2⟩

/-- Witness of C5 on `inspectA`. -/
theorem CompareInspects_self_witness :
    inspectA.WF ∧ (CompareInspects inspectA inspectA).Diff.Resources = [] ∧
    (CompareInspects inspectA inspectA).Diff.Outputs = [] ∧
    (CompareInspects inspectA inspectA).Diff.ResourceDrifts = [] :=
  ⟨by decide, CompareInspects_self inspectA (by decide)⟩

/-- C6 fails on the code: the comparison of a plan that changes one resource with a
plan that changes nothing has a non-empty `Resources` collection, empty `Outputs` and
`ResourceDrifts`, and `IsEmpty` answers `true`. -/
theorem CompareInspectsOutput_IsEmpty_ignores_resources :
    (CompareInspects inspectResourceOnly inspectNothing).Diff.Resources ≠ [] ∧
    (CompareInspects inspectResourceOnly inspectNothing).Diff.Outputs = [] ∧
    (CompareInspects inspectResourceOnly inspectNothing).Diff.ResourceDrifts = [] ∧
    (CompareInspects inspectResourceOnly inspectNothing).IsEmpty = true := by
  refine ⟨?_, rfl, rfl, rfl⟩
  intro h
  exact absurd (congrArg List.length h) (by decide)



/-! ## The filter loops delete paths and nothing else -/

theorem tracks_refl (r : Ref) (address : String) (st : Heap × RefCollection)
    (h : CollInv r address st) : Tracks r address st st (fun _ => False) :=
  ⟨h, fun _ => ⟨fun hf => hf.elim, fun _ => rfl⟩⟩

theorem tracks_trans (r : Ref) (address : String) (st st1 st2 : Heap × RefCollection)
    (D1 D2 : String → Prop) (h1 : Tracks r address st st1 D1)
    (h2 : Tracks r address st1 st2 D2) :
    Tracks r address st st2 (fun p => D1 p ∨ D2 p) := by
  refine ⟨h2.1, fun p => ⟨?_, ?_⟩⟩
  · intro hD
    by_cases hd2 : D2 p
    · exact (h2.2 p).1 hd2
    · rw [(h2.2 p).2 hd2]
      rcases hD with hd1 | hd2'
      · exact (h1.2 p).1 hd1
      · exact absurd hd2' hd2
  · intro hD
    have hd1 : ¬ D1 p := fun hh => hD (Or.inl hh)
    have hd2 : ¬ D2 p := fun hh => hD (Or.inr hh)
    rw [(h2.2 p).2 hd2, (h1.2 p).2 hd1]

theorem tracks_congr (r : Ref) (address : String) (st st' : Heap × RefCollection)
    (D D' : String → Prop) (h : Tracks r address st st' D) (hD : ∀ p, D p ↔ D' p) :
    Tracks r address st st' D' :=
  ⟨h.1, fun p => ⟨fun hd => (h.2 p).1 ((hD p).2 hd),
    fun hd => (h.2 p).2 (fun hh => hd ((hD p).1 hh))⟩⟩

theorem eq_nil_of_length_zero {β : Type} (l : List β) (h : l.length = 0) : l = [] :=
  List.length_eq_zero.mp h

theorem tracks_deletePath (r : Ref) (address path : String) (st : Heap × RefCollection)
    (h : CollInv r address st) :
    Tracks r address st (deletePath address path st) (fun p => p = path) := by
  obtain ⟨hn, hc⟩ := h
  rcases hc with hc | ⟨hc, hnil⟩
  · unfold deletePath
    simp only [hc, entityAt, if_true]
    by_cases hlen : (mdelete (st.1 r) path).length = 0
    · simp only [hlen, if_true]
      refine ⟨⟨?_, Or.inr ⟨?_, ?_⟩⟩, fun p => ⟨?_, ?_⟩⟩
      · simpa using keysNodup_mdelete _ path hn
      · simp [mget_mdelete]
      · simpa using eq_nil_of_length_zero _ hlen
      · intro hp
        simp [hp, mget_mdelete]
      · intro hp
        have : ¬ path = p := fun hh => hp hh.symm
        simp [mget_mdelete, this]
    · simp only [hlen, if_false]
      refine ⟨⟨?_, Or.inl hc⟩, fun p => ⟨?_, ?_⟩⟩
      · simpa using keysNodup_mdelete _ path hn
      · intro hp
        simp [hp, mget_mdelete]
      · intro hp
        have : ¬ path = p := fun hh => hp hh.symm
        simp [mget_mdelete, this]
  · unfold deletePath
    simp only [hc, entityAt, List.length_nil, if_true]
    refine ⟨⟨hn, Or.inr ⟨?_, hnil⟩⟩, fun p => ⟨?_, ?_⟩⟩
    · simp [mget_mdelete]
    · intro _
      simp [hnil, mget]
    · intro _
      rfl

theorem tracks_filterDiffPatterns (m : Matcher) (r : Ref) (address path : String) (diff : Diff)
    (dps : List Diff) (st st' : Heap × RefCollection) (h : CollInv r address st)
    (hres : filterDiffPatterns m address path diff dps st = .ok st') :
    Tracks r address st st' (fun p => p = path ∧ ∃ dp ∈ dps, DiffPatternHits m diff dp) := by
  induction dps generalizing st with
  | nil =>
    simp only [filterDiffPatterns, Except.ok.injEq] at hres
    subst hres
    exact tracks_congr _ _ _ _ _ _ (tracks_refl r address st h) (by simp)
  | cons dp rest ih =>
    unfold filterDiffPatterns at hres
    cases hb : m dp.Before diff.Before with
    | none => simp [hb] at hres
    | some bMatch =>
      cases ha : m dp.After diff.After with
      | none => simp [hb, ha] at hres
      | some aMatch =>
        simp only [hb, ha] at hres
        by_cases hboth : (bMatch && aMatch) = true
        · simp only [hboth, if_true] at hres
          have t1 := tracks_deletePath r address path st h
          have t2 := ih _ t1.1 hres
          refine tracks_congr _ _ _ _ _ _ (tracks_trans _ _ _ _ _ _ _ t1 t2) ?_
          intro p
          simp only [Bool.and_eq_true] at hboth
          constructor
          · rintro (hp | ⟨hp, _⟩)
            · exact ⟨hp, dp, List.mem_cons_self _ _, by
                simp [DiffPatternHits, hb, ha, hboth.1, hboth.2]⟩
            · exact ⟨hp, dp, List.mem_cons_self _ _, by
                simp [DiffPatternHits, hb, ha, hboth.1, hboth.2]⟩
          · rintro ⟨hp, _⟩
            exact Or.inl hp
        · simp only [hboth, if_false] at hres
          have t2 := ih _ h hres
          refine tracks_congr _ _ _ _ _ _ t2 ?_
          intro p
          have hno : ¬ DiffPatternHits m diff dp := by
            intro hh
            unfold DiffPatternHits at hh
            rw [hb, ha] at hh
            simp only [Option.some.injEq] at hh
            exact hboth (by simp [hh.1, hh.2])
          constructor
          · rintro ⟨hp, dp', hmem, hh⟩
            exact ⟨hp, dp', List.mem_cons_of_mem _ hmem, hh⟩
          · rintro ⟨hp, dp', hmem, hh⟩
            rcases List.mem_cons.mp hmem with heq | hmem'
            · exact absurd (heq ▸ hh) hno
            · exact ⟨hp, dp', hmem', hh⟩

theorem tracks_filterPathPatterns (m : Matcher) (r : Ref) (address path : String)
    (diff : Diff) (pps : List (String × List Diff)) (st st' : Heap × RefCollection)
    (h : CollInv r address st)
    (hres : filterPathPatterns m address path diff pps st = .ok st') :
    Tracks r address st st' (fun p => p = path ∧
      ∃ pp ∈ pps, m pp.1 path = some true ∧ ∃ dp ∈ pp.2, DiffPatternHits m diff dp) := by
  induction pps generalizing st with
  | nil =>
    simp only [filterPathPatterns, Except.ok.injEq] at hres
    subst hres
    exact tracks_congr _ _ _ _ _ _ (tracks_refl r address st h) (by simp)
  | cons pp rest ih =>
    obtain ⟨pathPattern, diffPatterns⟩ := pp
    unfold filterPathPatterns at hres
    cases hm : m pathPattern path with
    | none => simp [hm] at hres
    | some b =>
      cases b with
      | false =>
        simp only [hm] at hres
        refine tracks_congr _ _ _ _ _ _ (ih _ h hres) ?_
        intro p
        constructor
        · rintro ⟨hp, pp', hmem, hh⟩
          exact ⟨hp, pp', List.mem_cons_of_mem _ hmem, hh⟩
        · rintro ⟨hp, pp', hmem, hh⟩
          rcases List.mem_cons.mp hmem with heq | hmem'
          · subst heq
            rw [hm] at hh
            simp at hh
          · exact ⟨hp, pp', hmem', hh⟩
      | true =>
        simp only [hm] at hres
        cases hd : filterDiffPatterns m address path diff diffPatterns st with
        | error f => simp [hd] at hres
        | ok st1 =>
          simp only [hd] at hres
          have t1 := tracks_filterDiffPatterns m r address path diff diffPatterns st st1 h hd
          have t2 := ih _ t1.1 hres
          refine tracks_congr _ _ _ _ _ _ (tracks_trans _ _ _ _ _ _ _ t1 t2) ?_
          intro p
          constructor
          · rintro (⟨hp, hh⟩ | ⟨hp, pp', hmem, hh⟩)
            · exact ⟨hp, (pathPattern, diffPatterns), List.mem_cons_self _ _, hm, hh⟩
            · exact ⟨hp, pp', List.mem_cons_of_mem _ hmem, hh⟩
          · rintro ⟨hp, pp', hmem, hh⟩
            rcases List.mem_cons.mp hmem with heq | hmem'
            · subst heq
              exact Or.inl ⟨hp, hh.2⟩
            · exact Or.inr ⟨hp, pp', hmem', hh⟩

theorem tracks_filterPaths (m : Matcher) (r : Ref) (address : String) (filter : Filter)
    (paths : List (String × Diff)) (st st' : Heap × RefCollection) (h : CollInv r address st)
    (hres : filterPaths m address filter paths st = .ok st') :
    Tracks r address st st' (fun p => ∃ d, (p, d) ∈ paths ∧ RuleHits m filter p d) := by
  induction paths generalizing st with
  | nil =>
    simp only [filterPaths, Except.ok.injEq] at hres
    subst hres
    exact tracks_congr _ _ _ _ _ _ (tracks_refl r address st h) (by simp)
  | cons pd rest ih =>
    obtain ⟨path, diff⟩ := pd
    unfold filterPaths at hres
    cases hd : filterPathPatterns m address path diff filter.DiffPatterns st with
    | error f => simp [hd] at hres
    | ok st1 =>
      simp only [hd] at hres
      have t1 := tracks_filterPathPatterns m r address path diff filter.DiffPatterns st st1 h hd
      have t2 := ih _ t1.1 hres
      refine tracks_congr _ _ _ _ _ _ (tracks_trans _ _ _ _ _ _ _ t1 t2) ?_
      intro p
      constructor
      · rintro (⟨hp, hh⟩ | ⟨d, hmem, hh⟩)
        · subst hp
          exact ⟨diff, List.mem_cons_self _ _, hh⟩
        · exact ⟨d, List.mem_cons_of_mem _ hmem, hh⟩
      · rintro ⟨d, hmem, hh⟩
        rcases List.mem_cons.mp hmem with heq | hmem'
        · simp only [Prod.mk.injEq] at heq
          obtain ⟨h1, h2⟩ := heq
          subst h1 h2
          exact Or.inl ⟨rfl, hh⟩
        · exact Or.inr ⟨d, hmem', hh⟩

theorem tracks_filterRules (m : Matcher) (r : Ref) (address : String) (filters : List Filter)
    (st st' : Heap × RefCollection) (h : CollInv r address st)
    (hres : filterRules m address r filters st = .ok st') :
    Tracks r address st st'
      (fun p => ∃ d, mget (st.1 r) p = some d ∧ Suppressed m address p d filters) := by
  induction filters generalizing st with
  | nil =>
    simp only [filterRules, Except.ok.injEq] at hres
    subst hres
    exact tracks_congr _ _ _ _ _ _ (tracks_refl r address st h) (by simp [Suppressed])
  | cons f rest ih =>
    unfold filterRules at hres
    cases hm : m f.NamePattern address with
    | none => simp [hm] at hres
    | some b =>
      cases b with
      | false =>
        simp only [hm] at hres
        refine tracks_congr _ _ _ _ _ _ (ih _ h hres) ?_
        intro p
        constructor
        · rintro ⟨d, hd, f', hmem, hh⟩
          exact ⟨d, hd, f', List.mem_cons_of_mem _ hmem, hh⟩
        · rintro ⟨d, hd, f', hmem, hh⟩
          rcases List.mem_cons.mp hmem with heq | hmem'
          · subst heq
            rw [hm] at hh
            simp at hh
          · exact ⟨d, hd, f', hmem', hh⟩
      | true =>
        simp only [hm] at hres
        cases hd : filterPaths m address f (st.1 r) st with
        | error e => simp [hd] at hres
        | ok st1 =>
          simp only [hd] at hres
          have t1 := tracks_filterPaths m r address f (st.1 r) st st1 h hd
          have t2 := ih _ t1.1 hres
          refine tracks_congr _ _ _ _ _ _ (tracks_trans _ _ _ _ _ _ _ t1 t2) ?_
          intro p
          constructor
          · rintro (⟨d, hmem, hh⟩ | ⟨d, hd1, f', hmem, hh⟩)
            · exact ⟨d, mget_of_mem _ _ _ h.1 hmem, f, List.mem_cons_self _ _, hm, hh⟩
            · by_cases hD : ∃ d, (p, d) ∈ st.1 r ∧ RuleHits m f p d
              · obtain ⟨d0, hmem0, hh0⟩ := hD
                exact ⟨d0, mget_of_mem _ _ _ h.1 hmem0, f, List.mem_cons_self _ _, hm, hh0⟩
              · rw [(t1.2 p).2 hD] at hd1
                exact ⟨d, hd1, f', List.mem_cons_of_mem _ hmem, hh⟩
          · rintro ⟨d, hd0, f', hmem, hh⟩
            rcases List.mem_cons.mp hmem with heq | hmem'
            · subst heq
              exact Or.inl ⟨d, mem_of_mget _ _ _ hd0, hh.2⟩
            · by_cases hD : ∃ d, (p, d) ∈ st.1 r ∧ RuleHits m f p d
              · exact Or.inl hD
              · refine Or.inr ⟨d, ?_, f', hmem', hh⟩
                rw [(t1.2 p).2 hD]
                exact hd0



/-! ## The filter returns when no match fails -/

theorem filterDiffPatterns_ok (m : Matcher) (hm : ∀ pattern s, m pattern s ≠ none)
    (address path : String) (diff : Diff) (dps : List Diff) (st : Heap × RefCollection) :
    ∃ st', filterDiffPatterns m address path diff dps st = .ok st' := by
  induction dps generalizing st with
  | nil => exact ⟨st, rfl⟩
  | cons dp rest ih =>
    unfold filterDiffPatterns
    cases hb : m dp.Before diff.Before with
    | none => exact absurd hb (hm _ _)
    | some bMatch =>
      cases ha : m dp.After diff.After with
      | none => exact absurd ha (hm _ _)
      | some aMatch =>
        simp only
        split
        · exact ih _
        · exact ih _

theorem filterPathPatterns_ok (m : Matcher) (hm : ∀ pattern s, m pattern s ≠ none)
    (address path : String) (diff : Diff) (pps : List (String × List Diff))
    (st : Heap × RefCollection) :
    ∃ st', filterPathPatterns m address path diff pps st = .ok st' := by
  induction pps generalizing st with
  | nil => exact ⟨st, rfl⟩
  | cons pp rest ih =>
    obtain ⟨pathPattern, diffPatterns⟩ := pp
    unfold filterPathPatterns
    cases hp : m pathPattern path with
    | none => exact absurd hp (hm _ _)
    | some b =>
      cases b with
      | false => exact ih _
      | true =>
        obtain ⟨st1, h1⟩ := filterDiffPatterns_ok m hm address path diff diffPatterns st
        simp only [h1]
        exact ih _

theorem filterPaths_ok (m : Matcher) (hm : ∀ pattern s, m pattern s ≠ none)
    (address : String) (filter : Filter) (paths : List (String × Diff))
    (st : Heap × RefCollection) :
    ∃ st', filterPaths m address filter paths st = .ok st' := by
  induction paths generalizing st with
  | nil => exact ⟨st, rfl⟩
  | cons pd rest ih =>
    obtain ⟨path, diff⟩ := pd
    unfold filterPaths
    obtain ⟨st1, h1⟩ := filterPathPatterns_ok m hm address path diff filter.DiffPatterns st
    simp only [h1]
    exact ih _

theorem filterRules_ok (m : Matcher) (hm : ∀ pattern s, m pattern s ≠ none)
    (address : String) (r : Ref) (filters : List Filter) (st : Heap × RefCollection) :
    ∃ st', filterRules m address r filters st = .ok st' := by
  induction filters generalizing st with
  | nil => exact ⟨st, rfl⟩
  | cons f rest ih =>
    unfold filterRules
    cases hn : m f.NamePattern address with
    | none => exact absurd hn (hm _ _)
    | some b =>
      cases b with
      | false => exact ih _
      | true =>
        obtain ⟨st1, h1⟩ := filterPaths_ok m hm address f (st.1 r) st
        simp only [h1]
        exact ih _

/-! ## Filtering: claims C2 and C7 -/

/-- C2: when the collection holds the entity diff at the address, `filterEntityDiffs`
returns if no pattern match fails, and whenever it returns it has removed a path `p` of
the entity exactly when some rule has a name pattern that matches the address, a
`DiffPatterns` key that matches `p` and under that key a pair whose before pattern
matches the diff's `Before` and whose after pattern matches its `After`; every other
path is still in the entity, which is still in the collection, with its `Diff`
unchanged. -/
theorem filterEntityDiffs_removes_exactly (m : Matcher) (heap : Heap) (address : String)
    (entityDiff : Ref) (filters : List Filter) (inspectDiffMap : RefCollection)
    (hheld : mget inspectDiffMap address = some entityDiff)
    (hmap : KeysNodup (heap entityDiff)) :
    ((∀ pattern s, m pattern s ≠ none) →
      ∃ st, filterEntityDiffs m heap address entityDiff filters inspectDiffMap = .ok st) ∧
    ∀ heap' out,
      filterEntityDiffs m heap address entityDiff filters inspectDiffMap = .ok (heap', out) →
      ∀ p d, mget (heap entityDiff) p = some d →
        (mget (heap' entityDiff) p = none ↔ Suppressed m address p d filters) ∧
        (¬ Suppressed m address p d filters →
          mget out address = some entityDiff ∧ mget (heap' entityDiff) p = some d) := by
  constructor
  · intro hm
    exact filterRules_ok m hm address entityDiff filters (heap, inspectDiffMap)
  · intro heap' out hres p d hd
    have hinv : CollInv entityDiff address (heap, inspectDiffMap) := ⟨hmap, Or.inl hheld⟩
    have t := tracks_filterRules m entityDiff address filters (heap, inspectDiffMap)
      (heap', out) hinv hres
    have hD : (∃ d', mget (heap entityDiff) p = some d' ∧ Suppressed m address p d' filters) ↔
        Suppressed m address p d filters := by
      constructor
      · rintro ⟨d', hd', hs⟩
        rw [hd] at hd'
        cases hd'
        exact hs
      · intro hs
        exact ⟨d, hd, hs⟩
    have hkeep : ¬ Suppressed m address p d filters → mget (heap' entityDiff) p = some d := by
      intro hs
      have := (t.2 p).2 (fun hh => hs (hD.1 hh))
      simpa [hd] using this
    refine ⟨⟨?_, ?_⟩, ?_⟩
    · intro hnone
      by_contra hs
      rw [hkeep hs] at hnone
      cases hnone
    · intro hs
      exact (t.2 p).1 (hD.2 hs)
    · intro hs
      refine ⟨?_, hkeep hs⟩
      rcases t.1.2 with hc | ⟨_, hnil⟩
      · exact hc
      · have h1 := hkeep hs
        have h2 : heap' entityDiff = [] := hnil
        rw [h2] at h1
        simp [mget] at h1

/-- Witness of C2: the rule `aws_instance.*` with `.ami` from `ami-0397850` to `ami-*`,
on `aws_instance.example` with diffs `.ami` and `.instance_type`, removes only `.ami`. -/
theorem filterEntityDiffs_removes_exactly_witness :
    mget amiCollection "aws_instance.example" = some 0 ∧ KeysNodup (amiHeap 0) ∧
    (∃ st, filterEntityDiffs globMatcher amiHeap "aws_instance.example" 0 amiRules
      amiCollection = .ok st) ∧
    Suppressed globMatcher "aws_instance.example" ".ami" ⟨"ami-0397850", "ami-12345678"⟩
      amiRules ∧
    ¬ Suppressed globMatcher "aws_instance.example" ".instance_type"
      ⟨"t2.medium", "t2.micro"⟩ amiRules ∧
    filteredContents (filterEntityDiffs globMatcher amiHeap "aws_instance.example" 0 amiRules
      amiCollection) =
      some [("aws_instance.example", [(".instance_type", ⟨"t2.medium", "t2.micro"⟩)])] :=
  ⟨by decide, by decide,
    (filterEntityDiffs_removes_exactly globMatcher amiHeap "aws_instance.example" 0 amiRules
      amiCollection (by decide) (by decide)).1 (fun _ _ => by simp [globMatcher]),
    by decide, by decide, by decide⟩

/-- C7 fails on the code: the resource of `noopPlan` has equal before and after values,
`parseChange` gives it the empty `EntityDiff`, and with the empty filter (whatever the
matcher) `Inspect` returns the resource mapped to that empty diff, and a result that is
not empty. -/
theorem Inspect_keeps_unchanged_entity (m : Matcher) :
    Inspect m noopPlan ⟨some ⟨[], [], []⟩⟩ = .ok ⟨⟨[("aws_instance.same", [])], [], []⟩⟩ ∧
    InspectOutput.IsEmpty ⟨⟨[("aws_instance.same", [])], [], []⟩⟩ = false := by
  constructor
  · rfl
  · rfl



/-! ## The filter loops are runs of deletions -/

theorem deletesTo_trans (address : String) (st st1 st2 : Heap × RefCollection)
    (h1 : DeletesTo address st st1) (h2 : DeletesTo address st1 st2) :
    DeletesTo address st st2 := by
  induction h2 with
  | refl => exact h1
  | step st3 path _ ih => exact DeletesTo.step st st3 path ih

theorem deletesTo_filterDiffPatterns (m : Matcher) (address path : String) (diff : Diff)
    (dps : List Diff) (st st' : Heap × RefCollection)
    (hres : filterDiffPatterns m address path diff dps st = .ok st') :
    DeletesTo address st st' := by
  induction dps generalizing st with
  | nil =>
    simp only [filterDiffPatterns, Except.ok.injEq] at hres
    subst hres
    exact DeletesTo.refl st
  | cons dp rest ih =>
    unfold filterDiffPatterns at hres
    cases hb : m dp.Before diff.Before with
    | none => simp [hb] at hres
    | some bMatch =>
      cases ha : m dp.After diff.After with
      | none => simp [hb, ha] at hres
      | some aMatch =>
        simp only [hb, ha] at hres
        by_cases hboth : (bMatch && aMatch) = true
        · simp only [hboth, if_true] at hres
          exact deletesTo_trans address _ _ _
            (DeletesTo.step st st path (DeletesTo.refl st)) (ih _ hres)
        · simp only [hboth, if_false] at hres
          exact ih _ hres

theorem deletesTo_filterPathPatterns (m : Matcher) (address path : String) (diff : Diff)
    (pps : List (String × List Diff)) (st st' : Heap × RefCollection)
    (hres : filterPathPatterns m address path diff pps st = .ok st') :
    DeletesTo address st st' := by
  induction pps generalizing st with
  | nil =>
    simp only [filterPathPatterns, Except.ok.injEq] at hres
    subst hres
    exact DeletesTo.refl st
  | cons pp rest ih =>
    obtain ⟨pathPattern, diffPatterns⟩ := pp
    unfold filterPathPatterns at hres
    cases hm : m pathPattern path with
    | none => simp [hm] at hres
    | some b =>
      cases b with
      | false =>
        simp only [hm] at hres
        exact ih _ hres
      | true =>
        simp only [hm] at hres
        cases hd : filterDiffPatterns m address path diff diffPatterns st with
        | error f => simp [hd] at hres
        | ok st1 =>
          simp only [hd] at hres
          exact deletesTo_trans address _ _ _
            (deletesTo_filterDiffPatterns m address path diff diffPatterns st st1 hd)
            (ih _ hres)

theorem deletesTo_filterPaths (m : Matcher) (address : String) (filter : Filter)
    (paths : List (String × Diff)) (st st' : Heap × RefCollection)
    (hres : filterPaths m address filter paths st = .ok st') :
    DeletesTo address st st' := by
  induction paths generalizing st with
  | nil =>
    simp only [filterPaths, Except.ok.injEq] at hres
    subst hres
    exact DeletesTo.refl st
  | cons pd rest ih =>
    obtain ⟨path, diff⟩ := pd
    unfold filterPaths at hres
    cases hd : filterPathPatterns m address path diff filter.DiffPatterns st with
    | error f => simp [hd] at hres
    | ok st1 =>
      simp only [hd] at hres
      exact deletesTo_trans address _ _ _
        (deletesTo_filterPathPatterns m address path diff filter.DiffPatterns st st1 hd)
        (ih _ hres)

theorem deletesTo_filterRules (m : Matcher) (address : String) (r : Ref)
    (filters : List Filter) (st st' : Heap × RefCollection)
    (hres : filterRules m address r filters st = .ok st') :
    DeletesTo address st st' := by
  induction filters generalizing st with
  | nil =>
    simp only [filterRules, Except.ok.injEq] at hres
    subst hres
    exact DeletesTo.refl st
  | cons f rest ih =>
    unfold filterRules at hres
    cases hm : m f.NamePattern address with
    | none => simp [hm] at hres
    | some b =>
      cases b with
      | false =>
        simp only [hm] at hres
        exact ih _ hres
      | true =>
        simp only [hm] at hres
        cases hd : filterPaths m address f (st.1 r) st with
        | error e => simp [hd] at hres
        | ok st1 =>
          simp only [hd] at hres
          exact deletesTo_trans address _ _ _
            (deletesTo_filterPaths m address f (st.1 r) st st1 hd) (ih _ hres)

/-- After any run of deletions the entity is still held by the collection only if its
map is non-empty or nothing was deleted from it, and every path it binds is one it
bound before, with the same `Diff`. -/
theorem deletesTo_invariant (r : Ref) (address : String) (st st' : Heap × RefCollection)
    (h : CollInv r address st) (hd : DeletesTo address st st') :
    CollInv r address st' ∧
    (mget st'.2 address = some r → st'.1 r ≠ [] ∨ st'.1 r = st.1 r) ∧
    (∀ p d, mget (st'.1 r) p = some d → mget (st.1 r) p = some d) := by
  induction hd with
  | refl => exact ⟨h, fun _ => Or.inr rfl, fun _ _ hp => hp⟩
  | step st1 path _ ih =>
    obtain ⟨hinv, hkeep, hsub⟩ := ih
    have t := tracks_deletePath r address path st1 hinv
    refine ⟨t.1, ?_, ?_⟩
    · intro hc
      left
      rcases hinv.2 with h1 | ⟨h1, _⟩
      · unfold deletePath at hc ⊢
        simp only [h1, entityAt, if_true] at hc ⊢
        by_cases hlen : (mdelete (st1.1 r) path).length = 0
        · simp only [hlen, if_true] at hc
          simp [mget_mdelete] at hc
        · simp only [hlen, if_false]
          simp only [if_true]
          intro hnil
          exact hlen (by rw [hnil]; rfl)
      · unfold deletePath at hc
        simp only [h1, entityAt, List.length_nil, if_true] at hc
        simp [mget_mdelete] at hc
    · intro p d hp
      by_cases hpp : p = path
      · rw [(t.2 p).1 hpp] at hp
        cases hp
      · rw [(t.2 p).2 hpp] at hp
        exact hsub p d hp

/-! ## Filter pruning: claim C11 -/

/-- C11: when the collection holds the entity diff at the address and
`filterEntityDiffs` returns, then if the entity had at least one path and every path it
had has been removed, the address is no longer a key of the returned collection; and if
the entity keeps at least one path, the address is still a key, bound to that entity. -/
theorem filterEntityDiffs_prunes (m : Matcher) (heap heap' : Heap) (address : String)
    (entityDiff : Ref) (filters : List Filter) (inspectDiffMap out : RefCollection)
    (hheld : mget inspectDiffMap address = some entityDiff)
    (hmap : KeysNodup (heap entityDiff))
    (hres : filterEntityDiffs m heap address entityDiff filters inspectDiffMap =
      .ok (heap', out)) :
    (heap entityDiff ≠ [] →
      (∀ p d, mget (heap entityDiff) p = some d → mget (heap' entityDiff) p = none) →
      mget out address = none) ∧
    (∀ p d, mget (heap' entityDiff) p = some d →
      mget out address = some entityDiff ∧ mget (entityAt heap' out address) p = some d) := by
  have hinv : CollInv entityDiff address (heap, inspectDiffMap) := ⟨hmap, Or.inl hheld⟩
  have hd := deletesTo_filterRules m address entityDiff filters (heap, inspectDiffMap)
    (heap', out) hres
  obtain ⟨hinv', hkeep, hsub⟩ := deletesTo_invariant entityDiff address _ _ hinv hd
  constructor
  · intro hne hall
    have hnil : heap' entityDiff = [] := by
      apply eq_nil_of_mget_none
      intro k
      cases hk : mget (heap' entityDiff) k with
      | none => rfl
      | some d =>
        have h0 := hsub k d hk
        have h1 := hall k d h0
        simp only at h1 hk
        rw [hk] at h1
        cases h1
    rcases hinv'.2 with hc | ⟨hc, _⟩
    · rcases hkeep hc with h1 | h1
      · exact absurd hnil h1
      · simp only at h1
        rw [hnil] at h1
        exact absurd h1.symm hne
    · exact hc
  · intro p d hp
    rcases hinv'.2 with hc | ⟨_, hnil⟩
    · refine ⟨hc, ?_⟩
      simp only [entityAt] at hc ⊢
      rw [hc]
      exact hp
    · simp only at hnil hp
      rw [hnil] at hp
      simp [mget] at hp

/-- Witness of C11: the rules of the test `1 resource filtered out` remove both paths
of `aws_instance.example` and with them the address; the `aws_instance.*` rule removes
`.ami` only and the address stays. -/
theorem filterEntityDiffs_prunes_witness :
    mget amiCollection "aws_instance.example" = some 0 ∧ KeysNodup (amiHeap 0) ∧
    amiHeap 0 ≠ [] ∧
    filteredContents (filterEntityDiffs globMatcher amiHeap "aws_instance.example" 0
      exactRules amiCollection) = some [] ∧
    mget (stateOr (filterEntityDiffs globMatcher amiHeap "aws_instance.example" 0
      exactRules amiCollection) (amiHeap, amiCollection)).2 "aws_instance.example" = none ∧
    filteredContents (filterEntityDiffs globMatcher amiHeap "aws_instance.example" 0
      amiRules amiCollection) =
      some [("aws_instance.example", [(".instance_type", ⟨"t2.medium", "t2.micro"⟩)])] ∧
    mget (stateOr (filterEntityDiffs globMatcher amiHeap "aws_instance.example" 0
      amiRules amiCollection) (amiHeap, amiCollection)).2 "aws_instance.example" = some 0 :=
  ⟨by decide, by decide, by decide, by decide,
    (filterEntityDiffs_prunes globMatcher amiHeap _ "aws_instance.example" 0 exactRules
      amiCollection _ (by decide) (by decide) (by rfl)).1 (by decide) (fun _ _ _ => by rfl),
    by decide,
    ((filterEntityDiffs_prunes globMatcher amiHeap _ "aws_instance.example" 0 amiRules
      amiCollection _ (by decide) (by decide) (by rfl)).2 ".instance_type"
      ⟨"t2.medium", "t2.micro"⟩ (by rfl)).1⟩



/-! ## Building the collections -/

theorem mget_resolve (heap : Heap) (c : RefCollection) (name : String) :
    mget (resolve heap c) name = (mget c name).map heap := by
  unfold resolve
  induction c with
  | nil => simp [mget]
  | cons e t ih =>
    by_cases h : e.1 = name
    · simp [mget, h]
    · simp [mget, h, ih]

theorem next_storeChange (st : Mem × RefCollection) (k : String) (c : Change) :
    (storeChange st k c).1.next = st.1.next + 1 := rfl

theorem heap_storeChange (st : Mem × RefCollection) (k : String) (c : Change) (x : Ref) :
    (storeChange st k c).1.heap x = if x = st.1.next then parseChange c else st.1.heap x := rfl

theorem coll_storeChange (st : Mem × RefCollection) (k : String) (c : Change) :
    (storeChange st k c).2 = mset st.2 k st.1.next := rfl

theorem refsBelow_storeChange (st : Mem × RefCollection) (k : String) (c : Change)
    (hst : RefsBelow st) : RefsBelow (storeChange st k c) := by
  intro name r hr
  rw [coll_storeChange, mget_mset] at hr
  rw [next_storeChange]
  by_cases hk : k = name
  · simp only [hk, if_true, Option.some.injEq] at hr
    rw [← hr]
    exact Nat.lt_succ_self _
  · simp only [hk, if_false] at hr
    exact Nat.lt_succ_of_lt (hst name r hr)

theorem buildFrom_spec (changes : List (String × Change)) (st : Mem × RefCollection)
    (hst : RefsBelow st) :
    RefsBelow (buildFrom changes st) ∧
    st.1.next ≤ (buildFrom changes st).1.next ∧
    (∀ x, x < st.1.next → (buildFrom changes st).1.heap x = st.1.heap x) ∧
    ∀ name,
      (mget (buildFrom changes st).2 name).map (buildFrom changes st).1.heap =
      match lastChange changes name with
      | some c => some (parseChange c)
      | none => (mget st.2 name).map st.1.heap := by
  induction changes generalizing st with
  | nil => exact ⟨hst, Nat.le_refl _, fun _ _ => rfl, fun _ => by simp [lastChange, buildFrom]⟩
  | cons e t ih =>
    obtain ⟨k, c⟩ := e
    obtain ⟨h1, h2, h3, h4⟩ := ih (storeChange st k c) (refsBelow_storeChange st k c hst)
    have hstep : buildFrom ((k, c) :: t) st = buildFrom t (storeChange st k c) := rfl
    rw [hstep]
    rw [next_storeChange] at h2
    refine ⟨h1, Nat.le_of_succ_le h2, ?_, ?_⟩
    · intro x hx
      rw [h3 x (by rw [next_storeChange]; exact Nat.lt_succ_of_lt hx), heap_storeChange]
      have hne : ¬ x = st.1.next := Nat.ne_of_lt hx
      simp [hne]
    · intro name
      rw [h4 name]
      simp only [lastChange]
      cases lastChange t name with
      | some c' => rfl
      | none =>
        simp only [coll_storeChange, mget_mset]
        by_cases hk : k = name
        · simp [hk, heap_storeChange]
        · simp only [hk, if_false]
          cases hr : mget st.2 name with
          | none => rfl
          | some r =>
            have hlt := hst name r hr
            have hne : ¬ r = st.1.next := Nat.ne_of_lt hlt
            simp [heap_storeChange, hne]

theorem buildResources_eq (changes : List ResourceChange) (mem : Mem) :
    buildResources changes mem = buildFrom (addressed changes) (mem, []) := by
  unfold buildResources buildFrom addressed
  rw [List.foldl_map]

theorem buildOutputs_eq (changes : List (String × Change)) (mem : Mem) :
    buildOutputs changes mem = buildFrom changes (mem, []) := rfl

theorem refsBelow_nil (mem : Mem) : RefsBelow (mem, []) := by
  intro name r hr
  simp [mget] at hr

/-- What a build leaves: the contents at every name, read through any later heap that
keeps the objects allocated so far. -/
theorem buildFrom_contents (changes : List (String × Change)) (mem : Mem) (heap : Heap)
    (hheap : ∀ x, x < (buildFrom changes (mem, [])).1.next →
      heap x = (buildFrom changes (mem, [])).1.heap x) (name : String) :
    mget (resolve heap (buildFrom changes (mem, [])).2) name =
      (lastChange changes name).map parseChange := by
  obtain ⟨h1, _, _, h4⟩ := buildFrom_spec changes (mem, []) (refsBelow_nil mem)
  rw [mget_resolve]
  have h := h4 name
  cases hr : mget (buildFrom changes (mem, [])).2 name with
  | none =>
    rw [hr] at h
    cases hl : lastChange changes name with
    | none => rfl
    | some c =>
      rw [hl] at h
      simp at h
  | some r =>
    rw [hr] at h
    simp only [Option.map_some'] at h ⊢
    rw [hheap r (h1 name r hr), h]
    cases hl : lastChange changes name with
    | none => simp [mget]
    | some c => rfl

theorem lastChange_none (changes : List (String × Change)) (name : String)
    (h : name ∉ changes.map Prod.fst) : lastChange changes name = none := by
  induction changes with
  | nil => rfl
  | cons e t ih =>
    simp only [List.map_cons, List.mem_cons, not_or] at h
    have hne : ¬ e.1 = name := fun hh => h.1 hh.symm
    simp [lastChange, ih h.2, hne]

theorem lastChange_of_mem (changes : List (String × Change)) (name : String) (c : Change)
    (hn : KeysNodup changes) (h : (name, c) ∈ changes) : lastChange changes name = some c := by
  induction changes with
  | nil => simp at h
  | cons e t ih =>
    obtain ⟨k, c0⟩ := e
    unfold KeysNodup at hn ih
    simp only [List.map_cons, List.nodup_cons] at hn
    simp only [lastChange]
    rcases List.mem_cons.mp h with heq | hmem
    · simp only [Prod.mk.injEq] at heq
      obtain ⟨h1, h2⟩ := heq
      subst h1 h2
      simp [lastChange_none t name hn.1]
    · rw [ih hn.2 hmem]

/-! ## `apply` with no rules -/

theorem applyCollection_noRules (m : Matcher) (entries : List (String × Ref))
    (st : Heap × RefCollection) : applyCollection m (some []) entries st = .ok st := by
  induction entries with
  | nil => rfl
  | cons e t ih =>
    obtain ⟨address, entDiff⟩ := e
    simp only [applyCollection, filterEntityDiffs, filterRules]
    exact ih

theorem apply_emptyFilter (m : Matcher) (heap : Heap) (d : InspectDiffRefs) :
    apply m (some emptyFilter) heap d = .ok (heap, d) := by
  simp [apply, emptyFilter, applyCollection_noRules]

/-! ## Empty and absent filters: claims C12 and C13 -/

/-- C12: with the empty filter `Inspect` returns a result, whatever the plan and the
matcher, and nothing is suppressed: each collection binds every name of the plan to
`parseChange` of the change the plan holds for it (for a name listed several times,
the last one listed) and binds no other name.  In particular every resource change and
drift of a plan whose addresses are distinct, and every output change, is bound to
`parseChange` of its own change. -/
theorem Inspect_emptyFilter (m : Matcher) (p : Plan) :
    ∃ out, Inspect m p ⟨some emptyFilter⟩ = .ok out ∧
      (∀ address, mget out.Diff.Resources address =
        (lastChange (addressed p.ResourceChanges) address).map parseChange) ∧
      (∀ address, mget out.Diff.ResourceDrifts address =
        (lastChange (addressed p.ResourceDrift) address).map parseChange) ∧
      (∀ name, mget out.Diff.Outputs name =
        (lastChange p.OutputChanges name).map parseChange) ∧
      (KeysNodup (addressed p.ResourceChanges) → ∀ rChange ∈ p.ResourceChanges,
        mget out.Diff.Resources rChange.Address = some (parseChange rChange.Change)) ∧
      (KeysNodup (addressed p.ResourceDrift) → ∀ dChange ∈ p.ResourceDrift,
        mget out.Diff.ResourceDrifts dChange.Address = some (parseChange dChange.Change)) ∧
      (KeysNodup p.OutputChanges → ∀ oChange ∈ p.OutputChanges,
        mget out.Diff.Outputs oChange.1 = some (parseChange oChange.2)) := by
  have hd := buildFrom_spec (addressed p.ResourceDrift)
    ((buildFrom (addressed p.ResourceChanges) (⟨fun _ => [], 0⟩, [])).1, []) (refsBelow_nil _)
  have ho := buildFrom_spec p.OutputChanges
    ((buildFrom (addressed p.ResourceDrift)
      ((buildFrom (addressed p.ResourceChanges) (⟨fun _ => [], 0⟩, [])).1, [])).1, [])
    (refsBelow_nil _)
  have hres : ∀ address, mget (resolve
      (buildFrom p.OutputChanges ((buildFrom (addressed p.ResourceDrift)
        ((buildFrom (addressed p.ResourceChanges) (⟨fun _ => [], 0⟩, [])).1, [])).1, [])).1.heap
      (buildFrom (addressed p.ResourceChanges) (⟨fun _ => [], 0⟩, [])).2) address =
      (lastChange (addressed p.ResourceChanges) address).map parseChange := by
    intro address
    apply buildFrom_contents
    intro x hx
    rw [ho.2.2.1 x (Nat.lt_of_lt_of_le hx hd.2.1), hd.2.2.1 x hx]
  have hdr : ∀ address, mget (resolve
      (buildFrom p.OutputChanges ((buildFrom (addressed p.ResourceDrift)
        ((buildFrom (addressed p.ResourceChanges) (⟨fun _ => [], 0⟩, [])).1, [])).1, [])).1.heap
      (buildFrom (addressed p.ResourceDrift)
        ((buildFrom (addressed p.ResourceChanges) (⟨fun _ => [], 0⟩, [])).1, [])).2) address =
      (lastChange (addressed p.ResourceDrift) address).map parseChange := by
    intro address
    apply buildFrom_contents
    intro x hx
    rw [ho.2.2.1 x hx]
  have hou : ∀ name, mget (resolve
      (buildFrom p.OutputChanges ((buildFrom (addressed p.ResourceDrift)
        ((buildFrom (addressed p.ResourceChanges) (⟨fun _ => [], 0⟩, [])).1, [])).1, [])).1.heap
      (buildFrom p.OutputChanges ((buildFrom (addressed p.ResourceDrift)
        ((buildFrom (addressed p.ResourceChanges) (⟨fun _ => [], 0⟩, [])).1, [])).1, [])).2)
      name = (lastChange p.OutputChanges name).map parseChange := by
    intro name
    apply buildFrom_contents
    intro x _
    rfl
  refine ⟨⟨⟨resolve _ _, resolve _ _, resolve _ _⟩⟩, ?_, hres, hdr, hou, ?_, ?_, ?_⟩
  · simp only [Inspect, apply_emptyFilter, buildResources_eq, buildOutputs_eq]
  · intro hn rChange hmem
    rw [hres, lastChange_of_mem _ rChange.Address rChange.Change hn
      (List.mem_map.mpr ⟨rChange, hmem, rfl⟩)]
    rfl
  · intro hn dChange hmem
    rw [hdr, lastChange_of_mem _ dChange.Address dChange.Change hn
      (List.mem_map.mpr ⟨dChange, hmem, rfl⟩)]
    rfl
  · intro hn oChange hmem
    rw [hou, lastChange_of_mem _ oChange.1 oChange.2 hn hmem]
    rfl

/-- Witness of C12: a plan with a resource change, a drift and an output change, seen
through the empty filter. -/
theorem Inspect_emptyFilter_witness :
    Inspect globMatcher mixedPlan ⟨some emptyFilter⟩ =
      .ok ⟨⟨[("aws_s3_bucket.this", [(".bucket", ⟨"foo", "bar"⟩),
          (".acl", ⟨"private", "(empty)"⟩), (".baz", ⟨"(empty)", "box"⟩)])],
        [("foo-output", [(".", ⟨"this", "that"⟩)])],
        [("aws_instance.this", [(".instance_type", ⟨"t2.medium", "t2.micro"⟩)])]⟩⟩ ∧
    parseChange bucketChange = [(".bucket", ⟨"foo", "bar"⟩),
      (".acl", ⟨"private", "(empty)"⟩), (".baz", ⟨"(empty)", "box"⟩)] := by
  constructor
  · rfl
  · rfl

/-- C13 fails on the code: with a nil `Filter` the loop body of `apply` reads a field
of the nil receiver as soon as a collection has an entry, so `Inspect` of a plan with one
resource change panics, whatever the matcher, where the empty filter returns the diff. -/
theorem Inspect_nilFilter_panics (m : Matcher) :
    Inspect m instancePlan ⟨none⟩ = .error .panic ∧
    Inspect m instancePlan ⟨some emptyFilter⟩ =
      .ok ⟨⟨[("aws_instance.this", [(".instance_type", ⟨"t2.medium", "t2.micro"⟩)])],
        [], []⟩⟩ := by
  constructor
  · rfl
  · rfl



/-! ## One-sided and differing entries: claims C14, C15, C16, C17 -/

theorem exists_entry_of_diverges (a b : Collection) (ha : a.WF) (hb : b.WF) (k : String)
    (h : Diverges (mget a k) (mget b k)) :
    ∃ ce, mget (getEntityDiffDivergence a b) k = some ce := by
  have := (isSome_getEntityDiffDivergence a b ha hb k).2 h
  cases hk : mget (getEntityDiffDivergence a b) k with
  | none => rw [hk] at this; cases this
  | some ce => exact ⟨ce, rfl⟩

theorem keysNodup_record (out : List (String × CompareEntityDiff)) (address path : String)
    (dA dB : Diff) (h : KeysNodup out) : KeysNodup (record out address path dA dB) := by
  unfold record
  cases mget out address <;> exact keysNodup_mset _ _ _ h

theorem keysNodup_foldl {α β : Type} (f : List (String × β) → α → List (String × β))
    (hf : ∀ out x, KeysNodup out → KeysNodup (f out x)) (l : List α)
    (out : List (String × β)) (h : KeysNodup out) : KeysNodup (l.foldl f out) := by
  induction l generalizing out with
  | nil => exact h
  | cons x t ih => exact ih _ (hf out x h)

/-- Every address has one entry in a divergence. -/
theorem keysNodup_getEntityDiffDivergence (a b : Collection) :
    KeysNodup (getEntityDiffDivergence a b) := by
  unfold getEntityDiffDivergence
  apply keysNodup_foldl
  · intro out e h
    unfold divergeB
    cases mget a e.1 with
    | none => exact keysNodup_mset _ _ _ h
    | some aEnt =>
      apply keysNodup_foldl _ _ _ _ h
      intro o pd ho
      cases mget aEnt pd.1 with
      | none => exact keysNodup_record _ _ _ _ _ ho
      | some aDiff =>
        simp only
        split
        · exact keysNodup_record _ _ _ _ _ ho
        · exact ho
  · apply keysNodup_foldl
    · intro out e h
      unfold divergeA
      cases mget b e.1 with
      | none => exact keysNodup_mset _ _ _ h
      | some bEnt =>
        apply keysNodup_foldl _ _ _ _ h
        intro o pd ho
        cases mget bEnt pd.1 with
        | none => exact keysNodup_record _ _ _ _ _ ho
        | some bDiff =>
          simp only
          split
          · exact keysNodup_record _ _ _ _ _ ho
          · exact ho
    · exact keysNodup_nil

/-- C14: an address that is in `a`'s collection but not in `b`'s is in the comparison,
with `PlanA` equal to `a`'s whole `EntityDiff` and `PlanB` binding exactly the same
paths, each to `{"(empty)", "(empty)"}`; and the mirror image for an address that is
only in `b`'s collection. -/
theorem CompareInspects_address_on_one_side (a b : InspectOutput) (ha : a.WF) (hb : b.WF)
    (kind : CollectionKind) (address : String) :
    (∀ e, mget (a.collection kind) address = some e →
      mget (b.collection kind) address = none →
      ∃ ce, mget ((CompareInspects a b).collection kind) address = some ce ∧ ce.PlanA = e ∧
        ∀ p, mget ce.PlanB p = (mget e p).map (fun _ => emptyDiff)) ∧
    (∀ e, mget (b.collection kind) address = some e →
      mget (a.collection kind) address = none →
      ∃ ce, mget ((CompareInspects a b).collection kind) address = some ce ∧ ce.PlanB = e ∧
        ∀ p, mget ce.PlanA p = (mget e p).map (fun _ => emptyDiff)) := by
  have wa := wf_collection a ha kind
  have wb := wf_collection b hb kind
  rw [collection_CompareInspects, mget_getEntityDiffDivergence _ _ address wa.1 wb.1]
  constructor
  · intro e hA hB
    rw [hA, hB]
    exact ⟨⟨e, mirror e⟩, rfl, rfl, fun p => mget_mirror e p⟩
  · intro e hB hA
    rw [hA, hB]
    exact ⟨⟨mirror e, e⟩, rfl, rfl, fun p => mget_mirror e p⟩

/-- Witness of C14: the test `resource differences - no overlap` yields both addresses,
each with the other side fully mirrored. -/
theorem CompareInspects_address_on_one_side_witness :
    noOverlapA.WF ∧ noOverlapB.WF ∧
    (∃ ce, mget ((CompareInspects noOverlapA noOverlapB).collection .resources)
        "aws_instance.this" = some ce ∧
      ce.PlanA = [(".instance_type", ⟨"t2.medium", "t2.micro"⟩)] ∧
      ∀ p, mget ce.PlanB p =
        (mget [(".instance_type", (⟨"t2.medium", "t2.micro"⟩ : Diff))] p).map
          (fun _ => emptyDiff)) ∧
    (CompareInspects noOverlapA noOverlapB).Diff.Resources =
      [("aws_instance.this",
          ⟨[(".instance_type", ⟨"t2.medium", "t2.micro"⟩)], [(".instance_type", emptyDiff)]⟩),
        ("aws_s3_bucket.this",
          ⟨[(".bucket", emptyDiff)], [(".bucket", ⟨"(empty)", "orange-car"⟩)]⟩)] :=
  ⟨by decide, by decide,
    (CompareInspects_address_on_one_side noOverlapA noOverlapB (by decide) (by decide)
      .resources "aws_instance.this").1 _ (by rfl) (by rfl),
    by rfl⟩

/-- C15: for an address present in both `a` and `b`, a path that `a`'s entity binds
and `b`'s does not is reported with `a`'s `Diff` in `PlanA` and
`{"(empty)", "(empty)"}` in `PlanB`, a path that only `b`'s entity binds is reported the
other way round, and a path both bind to the same `Diff` is on neither side. -/
theorem CompareInspects_path_on_one_side (a b : InspectOutput) (ha : a.WF) (hb : b.WF)
    (kind : CollectionKind) (address : String) (ea eb : EntityDiff)
    (hA : mget (a.collection kind) address = some ea)
    (hB : mget (b.collection kind) address = some eb) (p : String) :
    (∀ d, mget ea p = some d → mget eb p = none →
      ∃ ce, mget ((CompareInspects a b).collection kind) address = some ce ∧
        mget ce.PlanA p = some d ∧ mget ce.PlanB p = some emptyDiff) ∧
    (∀ d, mget eb p = some d → mget ea p = none →
      ∃ ce, mget ((CompareInspects a b).collection kind) address = some ce ∧
        mget ce.PlanA p = some emptyDiff ∧ mget ce.PlanB p = some d) ∧
    (∀ d ce, mget ea p = some d → mget eb p = some d →
      mget ((CompareInspects a b).collection kind) address = some ce →
      mget ce.PlanA p = none ∧ mget ce.PlanB p = none) := by
  have wa := wf_collection a ha kind
  have wb := wf_collection b hb kind
  rw [collection_CompareInspects]
  refine ⟨?_, ?_, ?_⟩
  · intro d h1 h2
    have hdiv : Diverges (mget (a.collection kind) address) (mget (b.collection kind) address) := by
      rw [hA, hB]
      exact ⟨p, by rw [h1, h2]; simp⟩
    obtain ⟨ce, hce⟩ := exists_entry_of_diverges _ _ wa wb address hdiv
    have hs := sides_getEntityDiffDivergence _ _ wa wb address ce hce p
    rw [hA, hB] at hs
    refine ⟨ce, hce, ?_, ?_⟩
    · rw [hs.1]
      simp [reportedAt, h1, h2]
    · rw [hs.2]
      simp [reportedAt, h1, h2]
  · intro d h1 h2
    have hdiv : Diverges (mget (a.collection kind) address) (mget (b.collection kind) address) := by
      rw [hA, hB]
      exact ⟨p, by rw [h1, h2]; simp⟩
    obtain ⟨ce, hce⟩ := exists_entry_of_diverges _ _ wa wb address hdiv
    have hs := sides_getEntityDiffDivergence _ _ wa wb address ce hce p
    rw [hA, hB] at hs
    refine ⟨ce, hce, ?_, ?_⟩
    · rw [hs.1]
      simp [reportedAt, h1, h2]
    · rw [hs.2]
      simp [reportedAt, h1, h2]
  · intro d ce h1 h2 hce
    have hs := sides_getEntityDiffDivergence _ _ wa wb address ce hce p
    rw [hA, hB] at hs
    rw [hs.1, hs.2]
    simp [reportedAt, h1, h2]

/-- Witness of C15: the test `resource differences - extra field change`. -/
theorem CompareInspects_path_on_one_side_witness :
    extraFieldA.WF ∧ extraFieldB.WF ∧
    (∃ ce, mget ((CompareInspects extraFieldA extraFieldB).collection .resources)
        "aws_instance.this" = some ce ∧
      mget ce.PlanA ".some_path" = some ⟨"was", "now"⟩ ∧
      mget ce.PlanB ".some_path" = some emptyDiff) ∧
    CompareInspects extraFieldA extraFieldB =
      ⟨⟨[("aws_instance.this", ⟨[(".some_path", ⟨"was", "now"⟩)],
        [(".some_path", emptyDiff)]⟩)], [], []⟩⟩ :=
  ⟨by decide, by decide,
    (CompareInspects_path_on_one_side extraFieldA extraFieldB (by decide) (by decide)
      .resources "aws_instance.this" _ _ (by rfl) (by rfl) ".some_path").1 ⟨"was", "now"⟩
      (by decide) (by decide),
    by rfl⟩

/-- C16: for an address and a path present in both `a` and `b` whose `Diff` values
differ, the comparison entry of the address has `a`'s `Diff` at the path in `PlanA` and
`b`'s `Diff` in `PlanB`. -/
theorem CompareInspects_differing_path (a b : InspectOutput) (ha : a.WF) (hb : b.WF)
    (kind : CollectionKind) (address path : String) (dA dB : Diff)
    (hA : attrAt (a.collection kind) address path = some dA)
    (hB : attrAt (b.collection kind) address path = some dB) (hne : dA ≠ dB) :
    ∃ ce, mget ((CompareInspects a b).collection kind) address = some ce ∧
      mget ce.PlanA path = some dA ∧ mget ce.PlanB path = some dB := by
  have wa := wf_collection a ha kind
  have wb := wf_collection b hb kind
  rw [collection_CompareInspects]
  unfold attrAt at hA hB
  cases hea : mget (a.collection kind) address with
  | none => rw [hea] at hA; cases hA
  | some ea =>
    cases heb : mget (b.collection kind) address with
    | none => rw [heb] at hB; cases hB
    | some eb =>
      rw [hea] at hA
      rw [heb] at hB
      simp only at hA hB
      have hdiv : Diverges (mget (a.collection kind) address)
          (mget (b.collection kind) address) := by
        rw [hea, heb]
        refine ⟨path, ?_⟩
        rw [hA, hB]
        intro hh
        cases hh
        exact hne rfl
      obtain ⟨ce, hce⟩ := exists_entry_of_diverges _ _ wa wb address hdiv
      have hs := sides_getEntityDiffDivergence _ _ wa wb address ce hce path
      rw [hea, heb] at hs
      have hne' : ¬ dB = dA := fun hh => hne hh.symm
      refine ⟨ce, hce, ?_, ?_⟩
      · rw [hs.1]
        simp [reportedAt, hA, hB, hne]
      · rw [hs.2]
        simp [reportedAt, hA, hB, hne']

/-- Witness of C16: `.ami` of `aws_instance.foo` goes to `ami-2` in `inspectA` and to
`ami-3` in `inspectB`. -/
theorem CompareInspects_differing_path_witness :
    inspectA.WF ∧ inspectB.WF ∧
    attrAt (inspectA.collection .resources) "aws_instance.foo" ".ami" = some ⟨"ami-1", "ami-2"⟩ ∧
    attrAt (inspectB.collection .resources) "aws_instance.foo" ".ami" = some ⟨"ami-1", "ami-3"⟩ ∧
    ∃ ce, mget ((CompareInspects inspectA inspectB).collection .resources)
        "aws_instance.foo" = some ce ∧
      mget ce.PlanA ".ami" = some ⟨"ami-1", "ami-2"⟩ ∧
      mget ce.PlanB ".ami" = some ⟨"ami-1", "ami-3"⟩ :=
  ⟨by decide, by decide, by decide, by decide,
    CompareInspects_differing_path inspectA inspectB (by decide) (by decide) .resources
      "aws_instance.foo" ".ami" ⟨"ami-1", "ami-2"⟩ ⟨"ami-1", "ami-3"⟩ (by decide) (by decide)
      (by decide)⟩

/-- C17: the two passes union into one entry.  For an address present in both `a` and
`b`, where `a`'s entity binds `p1` and `b`'s does not, and `b`'s entity binds `p2` and
`a`'s does not, the comparison has one entry for the address, and that entry holds `p1`
with `a`'s `Diff` in `PlanA` and the `(empty)` mirror in `PlanB`, and `p2` with the
mirror in `PlanA` and `b`'s `Diff` in `PlanB`. -/
theorem CompareInspects_unions_passes (a b : InspectOutput) (ha : a.WF) (hb : b.WF)
    (kind : CollectionKind) (address p1 p2 : String) (ea eb : EntityDiff) (d1 d2 : Diff)
    (hA : mget (a.collection kind) address = some ea)
    (hB : mget (b.collection kind) address = some eb)
    (h1a : mget ea p1 = some d1) (h1b : mget eb p1 = none)
    (h2b : mget eb p2 = some d2) (h2a : mget ea p2 = none) :
    KeysNodup ((CompareInspects a b).collection kind) ∧
    ∃ ce, mget ((CompareInspects a b).collection kind) address = some ce ∧
      mget ce.PlanA p1 = some d1 ∧ mget ce.PlanB p1 = some emptyDiff ∧
      mget ce.PlanA p2 = some emptyDiff ∧ mget ce.PlanB p2 = some d2 := by
  have wa := wf_collection a ha kind
  have wb := wf_collection b hb kind
  rw [collection_CompareInspects]
  refine ⟨keysNodup_getEntityDiffDivergence _ _, ?_⟩
  have hdiv : Diverges (mget (a.collection kind) address) (mget (b.collection kind) address) := by
    rw [hA, hB]
    exact ⟨p1, by rw [h1a, h1b]; simp⟩
  obtain ⟨ce, hce⟩ := exists_entry_of_diverges _ _ wa wb address hdiv
  have hs1 := sides_getEntityDiffDivergence _ _ wa wb address ce hce p1
  have hs2 := sides_getEntityDiffDivergence _ _ wa wb address ce hce p2
  rw [hA, hB] at hs1 hs2
  refine ⟨ce, hce, ?_, ?_, ?_, ?_⟩
  · rw [hs1.1]
    simp [reportedAt, h1a, h1b]
  · rw [hs1.2]
    simp [reportedAt, h1a, h1b]
  · rw [hs2.1]
    simp [reportedAt, h2a, h2b]
  · rw [hs2.2]
    simp [reportedAt, h2a, h2b]

/-- Witness of C17: `.only_a` is found by the pass over `unionA`, `.only_b` by the pass
over `unionB`, and both are in the entry of `aws_instance.this`. -/
theorem CompareInspects_unions_passes_witness :
    unionA.WF ∧ unionB.WF ∧
    (CompareInspects unionA unionB).Diff.Resources =
      [("aws_instance.this",
        ⟨[(".only_a", ⟨"was", "now"⟩), (".only_b", emptyDiff)],
          [(".only_a", emptyDiff), (".only_b", ⟨"old", "new"⟩)]⟩)] ∧
    ∃ ce, mget ((CompareInspects unionA unionB).collection .resources)
        "aws_instance.this" = some ce ∧
      mget ce.PlanA ".only_a" = some ⟨"was", "now"⟩ ∧ mget ce.PlanB ".only_a" = some emptyDiff ∧
      mget ce.PlanA ".only_b" = some emptyDiff ∧ mget ce.PlanB ".only_b" = some ⟨"old", "new"⟩ :=
  ⟨by decide, by decide, by rfl,
    (CompareInspects_unions_passes unionA unionB (by decide) (by decide) .resources
      "aws_instance.this" ".only_a" ".only_b" _ _ ⟨"was", "now"⟩ ⟨"old", "new"⟩ (by rfl)
      (by rfl) (by decide) (by decide) (by decide) (by decide)).2⟩



/-! ## What `flatten` writes does not depend on the map it writes into -/

theorem firstSome_assoc (x y z : Option String) :
    firstSome x (firstSome y z) = firstSome (firstSome x y) z := by
  cases x <;> rfl

theorem mget_mset_firstSome (out : List (String × String)) (k s p : String) :
    mget (mset out k s) p = firstSome (mget (mset [] k s) p) (mget out p) := by
  by_cases h : k = p <;> simp [mget_mset, mget, h, firstSome]

mutual
theorem mget_flatten : ∀ (path : String) (a : Value) (out : List (String × String))
    (p : String),
    mget (flatten path a out) p = firstSome (mget (flatten path a []) p) (mget out p)
  | path, .obj av1, out, p => by
    rw [flatten, flatten]
    exact mget_flattenFields (path ++ ".") av1 out p
  | path, .list av1, out, p => by
    rw [flatten, flatten]
    exact mget_flattenElems (path ++ ".") 0 av1 out p
  | path, .strs av1, out, p => by
    rw [flatten, flatten]
    exact mget_mset_firstSome _ _ _ _
  | _, .null, out, p => by
    rw [flatten, flatten]
    simp [mget, firstSome]
  | path, .bool b, out, p => by
    rw [flatten, flatten]
    exact mget_mset_firstSome _ _ _ _
  | path, .num text, out, p => by
    rw [flatten, flatten]
    exact mget_mset_firstSome _ _ _ _
  | path, .str s, out, p => by
    rw [flatten, flatten]
    exact mget_mset_firstSome _ _ _ _
theorem mget_flattenFields : ∀ (path : String) (av1 : List (String × Value))
    (out : List (String × String)) (p : String),
    mget (flattenFields path av1 out) p =
      firstSome (mget (flattenFields path av1 []) p) (mget out p)
  | _, [], out, p => by
    rw [flattenFields, flattenFields]
    simp [mget, firstSome]
  | path, (k, v) :: rest, out, p => by
    rw [flattenFields, flattenFields]
    rw [mget_flattenFields path rest (flatten (path ++ k) v out) p,
      mget_flattenFields path rest (flatten (path ++ k) v []) p,
      mget_flatten (path ++ k) v out p, firstSome_assoc]
theorem mget_flattenElems : ∀ (path : String) (i : Nat) (av1 : List Value)
    (out : List (String × String)) (p : String),
    mget (flattenElems path i av1 out) p =
      firstSome (mget (flattenElems path i av1 []) p) (mget out p)
  | _, _, [], out, p => by
    rw [flattenElems, flattenElems]
    simp [mget, firstSome]
  | path, i, elem :: rest, out, p => by
    rw [flattenElems, flattenElems]
    rw [mget_flattenElems path (i + 1) rest (flatten (path ++ "[" ++ toString i ++ "]") elem out) p,
      mget_flattenElems path (i + 1) rest (flatten (path ++ "[" ++ toString i ++ "]") elem []) p,
      mget_flatten (path ++ "[" ++ toString i ++ "]") elem out p, firstSome_assoc]
end

/-! ## Paths of containers: claims C18, C19, C20 -/

theorem flattenFields_eq_foldl (path : String) (kvs : List (String × Value))
    (out : List (String × String)) :
    flattenFields (path ++ ".") kvs out =
      kvs.foldl (fun acc kv => flatten (path ++ "." ++ kv.1) kv.2 acc) out := by
  induction kvs generalizing out with
  | nil => rfl
  | cons e t ih =>
    obtain ⟨k, v⟩ := e
    rw [flattenFields, ih]
    rfl

theorem flattenElems_eq_foldl (path : String) (i : Nat) (xs : List Value)
    (out : List (String × String)) :
    flattenElems (path ++ ".") i xs out =
      (xs.enumFrom i).foldl
        (fun acc ie => flatten (path ++ "." ++ ("[" ++ toString ie.1 ++ "]")) ie.2 acc) out := by
  induction xs generalizing i out with
  | nil => rfl
  | cons x t ih =>
    rw [flattenElems, ih]
    simp only [List.enumFrom_cons, List.foldl_cons, String.append_assoc]

theorem mget_foldl_flatten {α : Type} (f : α → String) (g : α → Value) (l : List α)
    (out : List (String × String)) (p : String) :
    mget (l.foldl (fun acc x => flatten (f x) (g x) acc) out) p =
      l.foldl (fun found x => firstSome (mget (flatten (f x) (g x) []) p) found) (mget out p) := by
  induction l generalizing out with
  | nil => rfl
  | cons x t ih =>
    simp only [List.foldl_cons]
    rw [ih, mget_flatten]

/-- C18: a map flattens each value `v` under key `k` at `path + "." + k`, a sequence of
mixed elements flattens element `i` at `path + "." + "[i]"`, and what the container
leaves at any key is what its children leave there, flattened on their own at those
paths: the binding of the last child that writes the key, else the binding the map
already had. -/
theorem flatten_container (path : String) (out : List (String × String)) :
    (∀ kvs, flatten path (.obj kvs) out =
      kvs.foldl (fun acc kv => flatten (path ++ "." ++ kv.1) kv.2 acc) out) ∧
    (∀ xs, flatten path (.list xs) out =
      xs.enum.foldl
        (fun acc ie => flatten (path ++ "." ++ ("[" ++ toString ie.1 ++ "]")) ie.2 acc) out) ∧
    (∀ kvs p, mget (flatten path (.obj kvs) out) p =
      kvs.foldl (fun found kv =>
        firstSome (mget (flatten (path ++ "." ++ kv.1) kv.2 []) p) found) (mget out p)) ∧
    (∀ xs p, mget (flatten path (.list xs) out) p =
      xs.enum.foldl (fun found ie =>
        firstSome (mget (flatten (path ++ "." ++ ("[" ++ toString ie.1 ++ "]")) ie.2 []) p)
          found) (mget out p)) := by
  have h1 : ∀ kvs, flatten path (.obj kvs) out =
      kvs.foldl (fun acc kv => flatten (path ++ "." ++ kv.1) kv.2 acc) out := by
    intro kvs
    rw [flatten]
    exact flattenFields_eq_foldl path kvs out
  have h2 : ∀ xs, flatten path (.list xs) out =
      xs.enum.foldl
        (fun acc ie => flatten (path ++ "." ++ ("[" ++ toString ie.1 ++ "]")) ie.2 acc)
        out := by
    intro xs
    rw [flatten]
    exact flattenElems_eq_foldl path 0 xs out
  refine ⟨h1, h2, ?_, ?_⟩
  · intro kvs p
    rw [h1]
    exact mget_foldl_flatten (fun kv => path ++ "." ++ kv.1) (fun kv => kv.2) kvs out p
  · intro xs p
    rw [h2]
    exact mget_foldl_flatten (fun ie => path ++ "." ++ ("[" ++ toString ie.1 ++ "]"))
      (fun ie => ie.2) xs.enum out p

/-- Witness of C18: a sequence holding a string and a map, flattened at `.a`. -/
theorem flatten_container_witness :
    flatten ".a" (.list [.str "x", .obj [("k", .num "1")]]) [] =
      [(".a.[0]", "x"), (".a.[1].k", "1")] ∧
    flatten (".a" ++ "." ++ ("[" ++ toString 0 ++ "]")) (.str "x") [] = [(".a.[0]", "x")] ∧
    flatten (".a" ++ "." ++ ("[" ++ toString 1 ++ "]")) (.obj [("k", .num "1")]) [] =
      [(".a.[1].k", "1")] ∧
    flatten ".a" (.list [.str "x", .obj [("k", .num "1")]]) [] =
      [(0, Value.str "x"), (1, Value.obj [("k", .num "1")])].foldl
        (fun acc ie => flatten (".a" ++ "." ++ ("[" ++ toString ie.1 ++ "]")) ie.2 acc) [] :=
  ⟨by decide, by decide, by decide,
    (flatten_container ".a" []).2.1 [.str "x", .obj [("k", .num "1")]]⟩

/-- C19 as stated fails: flattening `{"tags": [ {"key": "v"} ]}` from the root binds no
key `.tags[0].key`; its single key is `.tags.[0].key`. -/
theorem flatten_index_path_counterexample :
    mget (flatten "" (tagsTree (.str "v")) []) ".tags[0].key" = none ∧
    flatten "" (tagsTree (.str "v")) [] = [(".tags.[0].key", "v")] := by
  decide

/-- C19 amended: every segment of a flat-map key, a map key or an `[index]` alike, is
preceded by `"."`; flattening `{"tags": [ {"key": v} ]}` from the root with a scalar
`v` produces the single key `.tags.[0].key`, bound to the text of `v`. -/
theorem flatten_index_path (v : Value) (hv : isScalar v = true) :
    flatten "" (tagsTree v) [] = [(".tags.[0].key", render v)] := by
  have hp : "" ++ "." ++ "tags" ++ "." ++ "[" ++ toString 0 ++ "]" ++ "." ++ "key"
      = ".tags.[0].key" := by decide
  have hl : leafPath ".tags.[0].key" = ".tags.[0].key" := by decide
  cases v with
  | null => simp [isScalar] at hv
  | list xs => simp [isScalar] at hv
  | strs ss => simp [isScalar] at hv
  | obj kvs => simp [isScalar] at hv
  | bool b => simp only [tagsTree, flatten, flattenFields, flattenElems, hp, hl, mset]
  | num t => simp only [tagsTree, flatten, flattenFields, flattenElems, hp, hl, mset]
  | str s => simp only [tagsTree, flatten, flattenFields, flattenElems, hp, hl, mset]

/-- Witness of C19 amended, with a number as the scalar. -/
theorem flatten_index_path_witness :
    isScalar (.num "8080") = true ∧
    flatten "" (tagsTree (.num "8080")) [] = [(".tags.[0].key", "8080")] :=
  ⟨by decide, flatten_index_path (.num "8080") (by decide)⟩

/-- C20: for every path, sequence of strings and output map, `flatten` writes one
entry, at key `path + "."`, whose value is the elements joined with `","`: every other
key of the map is left as it was, and an empty map ends up with that entry alone, so
there are no per-index entries. -/
theorem flatten_strings (path : String) (ss : List String) (out : List (String × String)) :
    flatten path (.strs ss) out = mset out (path ++ ".") (String.intercalate "," ss) ∧
    (∀ p, mget (flatten path (.strs ss) out) p =
      if path ++ "." = p then some (String.intercalate "," ss) else mget out p) ∧
    flatten path (.strs ss) [] = [(path ++ ".", String.intercalate "," ss)] := by
  refine ⟨by rw [flatten], ?_, by rw [flatten]; rfl⟩
  intro p
  rw [flatten, mget_mset]

/-- Witness of C20: `["a","b"]` at path `.tags` gives the single entry `.tags.` with
value `a,b`. -/
theorem flatten_strings_witness :
    flatten ".tags" (.strs ["a", "b"]) [] = [(".tags.", "a,b")] ∧
    mget (flatten ".tags" (.strs ["a", "b"]) []) ".tags.[0]" = none :=
  ⟨(flatten_strings ".tags" ["a", "b"] []).2.2.trans (by decide), by decide⟩



/-! ## Null and scalar leaves: claims C21 and C22 -/

theorem flattenFields_append (path : String) (l1 l2 : List (String × Value))
    (out : List (String × String)) :
    flattenFields path (l1 ++ l2) out = flattenFields path l2 (flattenFields path l1 out) := by
  induction l1 generalizing out with
  | nil => rfl
  | cons e t ih =>
    obtain ⟨k, v⟩ := e
    rw [List.cons_append, flattenFields, flattenFields]
    exact ih _

/-- C21: `flatten` of a null leaves the output map unchanged, at every path, so no
entry is written for a null leaf; and a map with a key bound to null flattens to what
it flattens to without that key. -/
theorem flatten_null (path : String) (out : List (String × String)) :
    flatten path .null out = out ∧
    (∀ p, mget (flatten path .null out) p = mget out p) ∧
    (∀ kvs1 kvs2 k, flatten path (.obj (kvs1 ++ (k, .null) :: kvs2)) out =
      flatten path (.obj (kvs1 ++ kvs2)) out) := by
  refine ⟨by rw [flatten], fun p => by rw [flatten], ?_⟩
  intro kvs1 kvs2 k
  rw [flatten, flatten, flattenFields_append, flattenFields_append, flattenFields, flatten]

/-- Witness of C21: the `after` value of the test `no filter with after unknowns` has
null `kms_key_id` and `tags`, and no entry is written at their paths. -/
theorem flatten_null_witness :
    flatten "" logGroupAfter [] =
      [(".name", "foo-skfghsjfhgsjfh"), (".retention_in_days", "0"),
        (".skip_destroy", "false")] ∧
    flatten ".kms_key_id" .null [(".name", "foo-skfghsjfhgsjfh")] =
      [(".name", "foo-skfghsjfhgsjfh")] :=
  ⟨by decide, (flatten_null ".kms_key_id" [(".name", "foo-skfghsjfhgsjfh")]).1⟩

theorem parseChange_root_scalars (v w : Value) (hv : isScalar v = true)
    (hw : isScalar w = true) (hne : render v ≠ render w) :
    parseChange ⟨v, w, .null, .null, .null⟩ = [(".", ⟨render v, render w⟩)] := by
  have hl : leafPath "" = "." := by decide
  have hfv : flatten "" v [] = [(".", render v)] := by
    cases v with
    | null => simp [isScalar] at hv
    | list xs => simp [isScalar] at hv
    | strs ss => simp [isScalar] at hv
    | obj kvs => simp [isScalar] at hv
    | bool b => simp only [flatten, hl, mset]
    | num t => simp only [flatten, hl, mset]
    | str s => simp only [flatten, hl, mset]
  have hfw : flatten "" w [] = [(".", render w)] := by
    cases w with
    | null => simp [isScalar] at hw
    | list xs => simp [isScalar] at hw
    | strs ss => simp [isScalar] at hw
    | obj kvs => simp [isScalar] at hw
    | bool b => simp only [flatten, hl, mset]
    | num t => simp only [flatten, hl, mset]
    | str s => simp only [flatten, hl, mset]
  have hnull : flattenOverlay .null = [] := by simp [flattenOverlay, notFalse, flatten]
  have hne' : ¬ render w = render v := fun hh => hne hh.symm
  simp [parseChange, overlaidBefore, overlaidAfter, hnull, overlay, hfv, hfw, diffBeforePass,
    diffAfterPass, mget, mset, hne']

/-- C22: for a non-null scalar `flatten` makes one assignment, of the text of the
scalar, at key `"."` when the path is empty and at the path itself otherwise; from an
empty map the result is that entry alone, and a change of the root value from one
scalar to another with a different text has the single entry keyed `"."`. -/
theorem flatten_scalar (v : Value) (hv : isScalar v = true) (path : String)
    (out : List (String × String)) :
    flatten path v out = mset out (if path = "" then "." else path) (render v) ∧
    flatten "" v [] = [(".", render v)] ∧
    (path ≠ "" → flatten path v [] = [(path, render v)]) ∧
    (∀ w, isScalar w = true → render v ≠ render w →
      parseChange ⟨v, w, .null, .null, .null⟩ = [(".", ⟨render v, render w⟩)]) := by
  have hl : ∀ q : String, leafPath q = if q = "" then "." else q := by
    intro q
    unfold leafPath
    split
    · rename_i h
      rw [h]
      decide
    · rfl
  have key : ∀ (q : String) (o : List (String × String)),
      flatten q v o = mset o (if q = "" then "." else q) (render v) := by
    intro q o
    cases v with
    | null => simp [isScalar] at hv
    | list xs => simp [isScalar] at hv
    | strs ss => simp [isScalar] at hv
    | obj kvs => simp [isScalar] at hv
    | bool b => rw [flatten, hl]
    | num t => rw [flatten, hl]
    | str s => rw [flatten, hl]
  refine ⟨key path out, ?_, ?_, ?_⟩
  · rw [key]
    simp [mset]
  · intro hp
    rw [key]
    simp [hp, mset]
  · intro w hw hne
    exact parseChange_root_scalars v w hv hw hne

/-- Witness of C22: an output that changes from `this` to `that` has the diff keyed by
`"."`. -/
theorem flatten_scalar_witness :
    isScalar (.str "this") = true ∧
    flatten "" (.str "this") [] = [(".", "this")] ∧
    flatten ".bucket" (.str "this") [] = [(".bucket", "this")] ∧
    parseChange outputChange = [(".", ⟨"this", "that"⟩)] :=
  ⟨by decide, (flatten_scalar (.str "this") (by decide) "" []).2.1,
    (flatten_scalar (.str "this") (by decide) ".bucket" []).2.2.1 (by decide),
    (flatten_scalar (.str "this") (by decide) "" []).2.2.2 (.str "that") (by decide)
      (by decide)⟩

/-! ## Unknown and all-false overlays: claims C25 and C26 -/

theorem keysNodup_flattenOverlay (v : Value) : KeysNodup (flattenOverlay v) := by
  unfold flattenOverlay
  split
  · exact keysNodup_flatten _ _ _ keysNodup_nil
  · exact keysNodup_nil

theorem not_mem_of_not_marked (v : Value) (p : String) (h : ¬ MarkedTrue v p) :
    (p, "true") ∉ flattenOverlay v :=
  fun hm => h (mget_of_mem _ _ _ (keysNodup_flattenOverlay v) hm)

/-- C25: for a path marked true in `afterUnknown` and not marked true in
`afterSensitive`, the after value `parseChange` uses is `"(known after apply)"`, whether
or not `after` holds the path; when the before map holds nothing at the path (the path
does not flatten from `before` and is not marked in `beforeSensitive`), the result has
the entry `{"(empty)", "(known after apply)"}` there. -/
theorem parseChange_unknown (chng : Change) (p : String)
    (hu : MarkedTrue chng.AfterUnknown p) (hs : ¬ MarkedTrue chng.AfterSensitive p) :
    mget (overlaidAfter chng) p = some "(known after apply)" ∧
    (mget (overlaidBefore chng) p = none →
      mget (parseChange chng) p = some ⟨"(empty)", "(known after apply)"⟩) ∧
    (mget (flatten "" chng.Before []) p = none → ¬ MarkedTrue chng.BeforeSensitive p →
      mget (parseChange chng) p = some ⟨"(empty)", "(known after apply)"⟩) := by
  have hA : mget (overlaidAfter chng) p = some "(known after apply)" := by
    unfold overlaidAfter
    rw [mget_overlay, if_neg (not_mem_of_not_marked _ _ hs), mget_overlay,
      if_pos (mem_of_mget _ _ _ hu)]
  have hentry : mget (overlaidBefore chng) p = none →
      mget (parseChange chng) p = some ⟨"(empty)", "(known after apply)"⟩ := by
    intro hB
    rw [mget_parseChange, hA, hB]
  refine ⟨hA, hentry, ?_⟩
  intro hB hbs
  apply hentry
  unfold overlaidBefore
  rw [mget_overlay, if_neg (not_mem_of_not_marked _ _ hbs)]
  exact hB

/-- Witness of C25: `.arn` of the test `no filter with after unknowns` is unknown, not
sensitive, in neither `before` nor `after`. -/
theorem parseChange_unknown_witness :
    MarkedTrue logGroupChange.AfterUnknown ".arn" ∧
    ¬ MarkedTrue logGroupChange.AfterSensitive ".arn" ∧
    mget (flatten "" logGroupChange.After []) ".arn" = none ∧
    mget (parseChange logGroupChange) ".arn" = some ⟨"(empty)", "(known after apply)"⟩ :=
  ⟨by decide, by decide, by decide,
    (parseChange_unknown logGroupChange ".arn" (by decide) (by decide)).2.1 (by decide)⟩

theorem mem_mset {β : Type} (m : List (String × β)) (k : String) (v : β) (e : String × β)
    (h : e ∈ mset m k v) : e ∈ m ∨ e = (k, v) := by
  induction m with
  | nil =>
    simp only [mset, List.mem_singleton] at h
    exact Or.inr h
  | cons x t ih =>
    obtain ⟨a, b⟩ := x
    by_cases hak : a = k
    · simp only [mset, hak, if_true, List.mem_cons] at h
      rcases h with h | h
      · exact Or.inr h
      · exact Or.inl (List.mem_cons_of_mem _ h)
    · simp only [mset, hak, if_false, List.mem_cons] at h
      rcases h with h | h
      · exact Or.inl (by rw [h]; exact List.mem_cons_self _ _)
      · rcases ih h with h' | h'
        · exact Or.inl (List.mem_cons_of_mem _ h')
        · exact Or.inr h'

mutual
theorem values_flatten_allFalse : ∀ (path : String) (a : Value)
    (out : List (String × String)), allFalse a = true →
    ∀ e ∈ flatten path a out, e ∈ out ∨ e.2 = "false"
  | path, .obj av1, out, h, e, he => by
    rw [flatten] at he
    rw [allFalse] at h
    exact values_flattenFields_allFalse (path ++ ".") av1 out h e he
  | path, .list av1, out, h, e, he => by
    rw [flatten] at he
    rw [allFalse] at h
    exact values_flattenElems_allFalse (path ++ ".") 0 av1 out h e he
  | _, .strs _, _, h, _, _ => by simp [allFalse] at h
  | _, .null, out, _, e, he => by
    rw [flatten] at he
    exact Or.inl he
  | path, .bool b, out, h, e, he => by
    rw [flatten] at he
    rcases mem_mset _ _ _ _ he with h1 | h1
    · exact Or.inl h1
    · right
      cases b
      · rw [h1]
        rfl
      · simp [allFalse] at h
  | _, .num _, _, h, _, _ => by simp [allFalse] at h
  | _, .str _, _, h, _, _ => by simp [allFalse] at h
theorem values_flattenFields_allFalse : ∀ (path : String) (av1 : List (String × Value))
    (out : List (String × String)), allFalseFields av1 = true →
    ∀ e ∈ flattenFields path av1 out, e ∈ out ∨ e.2 = "false"
  | _, [], out, _, e, he => by
    rw [flattenFields] at he
    exact Or.inl he
  | path, (k, v) :: rest, out, h, e, he => by
    rw [flattenFields] at he
    rw [allFalseFields, Bool.and_eq_true] at h
    rcases values_flattenFields_allFalse path rest _ h.2 e he with h1 | h1
    · exact values_flatten_allFalse (path ++ k) v out h.1 e h1
    · exact Or.inr h1
theorem values_flattenElems_allFalse : ∀ (path : String) (i : Nat) (av1 : List Value)
    (out : List (String × String)), allFalseElems av1 = true →
    ∀ e ∈ flattenElems path i av1 out, e ∈ out ∨ e.2 = "false"
  | _, _, [], out, _, e, he => by
    rw [flattenElems] at he
    exact Or.inl he
  | path, i, elem :: rest, out, h, e, he => by
    rw [flattenElems] at he
    rw [allFalseElems, Bool.and_eq_true] at h
    rcases values_flattenElems_allFalse path (i + 1) rest _ h.2 e he with h1 | h1
    · exact values_flatten_allFalse _ elem out h.1 e h1
    · exact Or.inr h1
end

theorem overlay_of_no_mark (marks target : List (String × String)) (text : String)
    (h : ∀ e ∈ marks, e.2 ≠ "true") : overlay marks target text = target := by
  unfold overlay
  induction marks generalizing target with
  | nil => rfl
  | cons e t ih =>
    simp only [List.foldl_cons]
    have he : ¬ e.2 = "true" := h e (List.mem_cons_self _ _)
    simp only [he, if_false]
    exact ih target (fun x hx => h x (List.mem_cons_of_mem _ hx))

theorem overlay_allFalse (v : Value) (target : List (String × String)) (text : String)
    (h : allFalse v = true) : overlay (flattenOverlay v) target text = target := by
  apply overlay_of_no_mark
  intro e he
  unfold flattenOverlay at he
  split at he
  · rcases values_flatten_allFalse "" v [] h e he with h1 | h1
    · simp at h1
    · rw [h1]
      decide
  · simp at he

/-- C26: when each of `afterUnknown`, `beforeSensitive` and `afterSensitive` is the
`false` sentinel or a tree all of whose leaves are `false`, the maps `parseChange`
compares are the flattened `before` and `after` with no substituted value, and its
result is that of the same change without overlays. -/
theorem parseChange_allFalse (chng : Change) (hu : allFalse chng.AfterUnknown = true)
    (hb : allFalse chng.BeforeSensitive = true) (ha : allFalse chng.AfterSensitive = true) :
    overlaidBefore chng = flatten "" chng.Before [] ∧
    overlaidAfter chng = flatten "" chng.After [] ∧
    parseChange chng =
      diffAfterPass (flatten "" chng.Before []) (flatten "" chng.After [])
        (diffBeforePass (flatten "" chng.Before []) (flatten "" chng.After []) []) ∧
    parseChange chng =
      parseChange ⟨chng.Before, chng.After, .bool false, .bool false, .bool false⟩ := by
  have hB : overlaidBefore chng = flatten "" chng.Before [] := by
    unfold overlaidBefore
    exact overlay_allFalse _ _ _ hb
  have hA : overlaidAfter chng = flatten "" chng.After [] := by
    unfold overlaidAfter
    rw [overlay_allFalse _ _ _ ha, overlay_allFalse _ _ _ hu]
  refine ⟨hB, hA, ?_, ?_⟩
  · unfold parseChange
    rw [hB, hA]
  · unfold parseChange
    rw [hB, hA]
    simp [overlaidBefore, overlaidAfter, flattenOverlay, notFalse, overlay]

/-- Witness of C26: the test `no filter all known no sensitives`. -/
theorem parseChange_allFalse_witness :
    allFalse allKnownChange.AfterUnknown = true ∧
    allFalse allKnownChange.BeforeSensitive = true ∧
    allFalse allKnownChange.AfterSensitive = true ∧
    parseChange allKnownChange = [(".name", ⟨"(empty)", "foo-skfghsjfhgsjfh"⟩)] ∧
    parseChange allKnownChange =
      parseChange ⟨allKnownChange.Before, allKnownChange.After, .bool false, .bool false,
        .bool false⟩ :=
  ⟨by decide, by decide, by decide, by decide,
    (parseChange_allFalse allKnownChange (by decide) (by decide) (by decide)).2.2.2⟩



/-! ## The pattern matcher: claim C30 -/

theorem globChars_iff (pattern s : List Char) :
    globChars pattern s = true ↔ GlobFits pattern s := by
  induction pattern generalizing s with
  | nil =>
    cases s with
    | nil => exact ⟨fun _ => GlobFits.done, fun _ => rfl⟩
    | cons c cs =>
      constructor
      · intro h
        simp [globChars] at h
      · intro h
        cases h
  | cons p ps ih =>
    by_cases hstar : p = '*'
    · subst hstar
      simp only [globChars, if_true, List.any_eq_true, List.mem_tails]
      constructor
      · rintro ⟨t, ⟨run, hrun⟩, ht⟩
        exact GlobFits.star ps run t s hrun.symm ((ih t).1 ht)
      · intro h
        cases h with
        | star _ run rest _ hs hrest => exact ⟨rest, ⟨run, hs.symm⟩, (ih rest).2 hrest⟩
        | same _ _ cs hne _ _ => exact absurd rfl hne
    · simp only [globChars, hstar, if_false]
      cases s with
      | nil =>
        constructor
        · intro h
          simp at h
        · intro h
          cases h with
          | star _ run rest _ _ _ => exact absurd rfl hstar
      | cons c cs =>
        simp only [Bool.and_eq_true, Bool.or_eq_true, decide_eq_true_eq]
        constructor
        · rintro ⟨hp, hrest⟩
          rcases hp with hq | hpc
          · subst hq
            exact GlobFits.one ps c cs ((ih cs).1 hrest)
          · subst hpc
            by_cases hq : p = '?'
            · subst hq
              exact GlobFits.one ps _ cs ((ih cs).1 hrest)
            · exact GlobFits.same p ps cs hstar hq ((ih cs).1 hrest)
        · intro h
          cases h with
          | star _ run rest _ _ _ => exact absurd rfl hstar
          | one _ _ _ hrest => exact ⟨Or.inl rfl, (ih cs).2 hrest⟩
          | same _ _ _ _ _ hrest => exact ⟨Or.inr rfl, (ih cs).2 hrest⟩

theorem globFits_plain (pattern s : List Char) (hstar : '*' ∉ pattern) (hone : '?' ∉ pattern) :
    GlobFits pattern s ↔ s = pattern := by
  induction pattern generalizing s with
  | nil =>
    constructor
    · intro h
      cases h
      rfl
    · intro h
      rw [h]
      exact GlobFits.done
  | cons p ps ih =>
    simp only [List.mem_cons, not_or] at hstar hone
    constructor
    · intro h
      cases h with
      | star _ run rest _ _ _ => exact absurd rfl hstar.1
      | one _ c cs _ => exact absurd rfl hone.1
      | same _ _ cs _ _ hrest => rw [(ih cs hstar.2 hone.2).1 hrest]
    · intro h
      rw [h]
      exact GlobFits.same p ps ps (fun hh => hstar.1 hh.symm) (fun hh => hone.1 hh.symm)
        ((ih ps hstar.2 hone.2).2 rfl)

/-- C30: the matcher never fails and answers true exactly when the whole string can be
split to fit the pattern, `*` standing for zero or more characters, `?` for exactly one
and every other character for itself; a pattern without wildcards matches the identical
string only; `aws_instance.*` and `aws_instance.?xample` match `aws_instance.example`,
and `ami-*` matches `ami-12345678`. -/
theorem globMatcher_decides (pattern s : String) :
    globMatcher pattern s ≠ none ∧
    (globMatcher pattern s = some true ↔ GlobFits pattern.toList s.toList) ∧
    ('*' ∉ pattern.toList → '?' ∉ pattern.toList →
      (globMatcher pattern s = some true ↔ s = pattern)) ∧
    globMatcher "aws_instance.*" "aws_instance.example" = some true ∧
    globMatcher "aws_instance.?xample" "aws_instance.example" = some true ∧
    globMatcher "ami-*" "ami-12345678" = some true := by
  have h1 : globMatcher pattern s = some true ↔ GlobFits pattern.toList s.toList := by
    unfold globMatcher
    rw [Option.some.injEq]
    exact globChars_iff _ _
  refine ⟨by simp [globMatcher], h1, ?_, by decide, by decide, by decide⟩
  intro hstar hone
  rw [h1, globFits_plain _ _ hstar hone]
  constructor
  · intro h
    exact String.ext h
  · intro h
    rw [h]

/-- Witness of C30: matches and mismatches of the wildcard tests, and a `*` that stands
for the empty run. -/
theorem globMatcher_decides_witness :
    globMatcher "aws_instance.example" "aws_instance.example" = some true ∧
    globMatcher "aws_instance.this" "aws_instance.that" = some false ∧
    globMatcher "ami-?" "ami-12345678" = some false ∧
    globMatcher "ami-*" "ami-" = some true ∧
    globMatcher "*" "" = some true ∧
    globMatcher "a*c?e" "abcde" = some true ∧
    GlobFits "ami-*".toList "ami-12345678".toList :=
  ⟨by decide, by decide, by decide, by decide, by decide, by decide,
    (globMatcher_decides "ami-*" "ami-12345678").2.1.1 (by decide)⟩



/-! ## `flatten` as a sequence of assignments -/

/-- A list of assignments, made one after the other. -/
theorem foldl_mset_append (w1 w2 out : List (String × String)) :
    (w1 ++ w2).foldl (fun acc e => mset acc e.1 e.2) out =
      w2.foldl (fun acc e => mset acc e.1 e.2) (w1.foldl (fun acc e => mset acc e.1 e.2) out) :=
  List.foldl_append _ _ _ _

mutual
theorem flatten_eq_writes : ∀ (path : String) (a : Value) (out : List (String × String)),
    flatten path a out = (writes path a).foldl (fun acc e => mset acc e.1 e.2) out
  | path, .obj av1, out => by
    rw [flatten, writes]
    exact flattenFields_eq_writes (path ++ ".") av1 out
  | path, .list av1, out => by
    rw [flatten, writes]
    exact flattenElems_eq_writes (path ++ ".") 0 av1 out
  | path, .strs av1, out => by
    rw [flatten, writes]
    rfl
  | _, .null, out => by
    rw [flatten, writes]
    rfl
  | path, .bool b, out => by
    rw [flatten, writes]
    rfl
  | path, .num text, out => by
    rw [flatten, writes]
    rfl
  | path, .str s, out => by
    rw [flatten, writes]
    rfl
theorem flattenFields_eq_writes : ∀ (path : String) (av1 : List (String × Value))
    (out : List (String × String)),
    flattenFields path av1 out =
      (writesFields path av1).foldl (fun acc e => mset acc e.1 e.2) out
  | _, [], out => by
    rw [flattenFields, writesFields]
    rfl
  | path, (k, v) :: rest, out => by
    rw [flattenFields, writesFields, foldl_mset_append, ← flatten_eq_writes (path ++ k) v out]
    exact flattenFields_eq_writes path rest _
theorem flattenElems_eq_writes : ∀ (path : String) (i : Nat) (av1 : List Value)
    (out : List (String × String)),
    flattenElems path i av1 out =
      (writesElems path i av1).foldl (fun acc e => mset acc e.1 e.2) out
  | _, _, [], out => by
    rw [flattenElems, writesElems]
    rfl
  | path, i, elem :: rest, out => by
    rw [flattenElems, writesElems, foldl_mset_append, ← flatten_eq_writes _ elem out]
    exact flattenElems_eq_writes path (i + 1) rest _
end

theorem keys_foldl_mset (w out : List (String × String)) (hw : KeysNodup w)
    (hd : ∀ k ∈ w.map Prod.fst, k ∉ out.map Prod.fst) :
    (w.foldl (fun acc e => mset acc e.1 e.2) out).map Prod.fst =
      out.map Prod.fst ++ w.map Prod.fst := by
  induction w generalizing out with
  | nil => simp
  | cons e t ih =>
    unfold KeysNodup at hw ih
    simp only [List.map_cons, List.nodup_cons] at hw
    simp only [List.foldl_cons]
    have hk : e.1 ∉ out.map Prod.fst := hd e.1 (by simp)
    have hkeys : (mset out e.1 e.2).map Prod.fst = out.map Prod.fst ++ [e.1] := by
      rw [keys_mset, if_neg hk]
    rw [ih _ hw.2, hkeys]
    · simp
    · intro k hkt
      rw [hkeys]
      simp only [List.mem_append, List.mem_singleton, not_or]
      refine ⟨hd k (by simp [hkt]), ?_⟩
      intro hke
      subst hke
      exact hw.1 hkt

theorem mget_foldl_mset (w out : List (String × String)) (p : String) (hw : KeysNodup w) :
    mget (w.foldl (fun acc e => mset acc e.1 e.2) out) p =
      firstSome (mget w p) (mget out p) := by
  induction w generalizing out with
  | nil => simp [mget, firstSome]
  | cons e t ih =>
    unfold KeysNodup at hw ih
    simp only [List.map_cons, List.nodup_cons] at hw
    simp only [List.foldl_cons]
    rw [ih _ hw.2, mget_mset]
    by_cases hk : e.1 = p
    · have hnone : mget t p = none := (mget_eq_none_iff t p).2 (hk ▸ hw.1)
      simp [mget, hk, hnone, firstSome]
    · simp [mget, hk]

mutual
theorem length_writes : ∀ (path : String) (a : Value), hasNoNull a = true →
    (writes path a).length = leafCount a
  | path, .obj av1, h => by
    rw [writes, leafCount]
    rw [hasNoNull] at h
    exact length_writesFields (path ++ ".") av1 h
  | path, .list av1, h => by
    rw [writes, leafCount]
    rw [hasNoNull] at h
    exact length_writesElems (path ++ ".") 0 av1 h
  | _, .strs _, _ => by
    rw [writes, leafCount]
    rfl
  | _, .null, h => by simp [hasNoNull] at h
  | _, .bool _, _ => by
    rw [writes, leafCount]
    rfl
  | _, .num _, _ => by
    rw [writes, leafCount]
    rfl
  | _, .str _, _ => by
    rw [writes, leafCount]
    rfl
theorem length_writesFields : ∀ (path : String) (av1 : List (String × Value)),
    hasNoNullFields av1 = true → (writesFields path av1).length = leafCountFields av1
  | _, [], _ => by
    rw [writesFields, leafCountFields]
    rfl
  | path, (k, v) :: rest, h => by
    rw [hasNoNullFields, Bool.and_eq_true] at h
    rw [writesFields, leafCountFields, List.length_append, length_writes (path ++ k) v h.1,
      length_writesFields path rest h.2]
theorem length_writesElems : ∀ (path : String) (i : Nat) (av1 : List Value),
    hasNoNullElems av1 = true → (writesElems path i av1).length = leafCountElems av1
  | _, _, [], _ => by
    rw [writesElems, leafCountElems]
    rfl
  | path, i, elem :: rest, h => by
    rw [hasNoNullElems, Bool.and_eq_true] at h
    rw [writesElems, leafCountElems, List.length_append, length_writes _ elem h.1,
      length_writesElems path (i + 1) rest h.2]
end

/-! ## Counting entries: claim C23 -/

/-- C23 as stated fails: `{"a.b": "1", "a": {"b": "2"}}` has no null leaf and two
leaves, its keys are distinct, and flattening it from the root gives one entry, because
both leaves are written at `.a.b`. -/
theorem flatten_leafCount_counterexample :
    hasNoNull dottedTree = true ∧ leafCount dottedTree = 2 ∧
    (flatten "" dottedTree []).length = 1 ∧
    flatten "" dottedTree [] = [(".a.b", "2")] := by
  decide

/-- C23 amended: for every tree that has no null leaf and whose leaves are written at
pairwise distinct keys, the number of entries of the flat map produced from the root
equals the number of leaves of the tree, a sequence of strings counting as one leaf. -/
theorem flatten_leafCount (t : Value) (hnull : hasNoNull t = true)
    (hdistinct : KeysNodup (writes "" t)) :
    (flatten "" t []).length = leafCount t := by
  have hk := keys_foldl_mset (writes "" t) [] hdistinct (by simp)
  rw [flatten_eq_writes]
  have hlen := congrArg List.length hk
  simp only [List.length_map, List.map_nil, List.nil_append] at hlen
  rw [hlen, length_writes "" t hnull]

/-- Witness of C23 amended: `serviceTree` has four leaves and four entries. -/
theorem flatten_leafCount_witness :
    hasNoNull serviceTree = true ∧ KeysNodup (writes "" serviceTree) ∧
    leafCount serviceTree = 4 ∧ (flatten "" serviceTree []).length = 4 ∧
    flatten "" serviceTree [] =
      [(".name", "web"), (".ports.[0]", "80"), (".ports.[1].tls", "true"), (".zones.a", "x")] :=
  ⟨by decide, by decide, by decide,
    (flatten_leafCount serviceTree (by decide) (by decide)).trans (by decide), by decide⟩



/-! ## Visiting order of map keys: claim C24 -/

theorem perm_writesFields_of_perm (path : String) (kvs kvs' : List (String × Value))
    (h : kvs.Perm kvs') : (writesFields path kvs).Perm (writesFields path kvs') := by
  induction h with
  | nil => exact List.Perm.refl _
  | cons x _ ih =>
    obtain ⟨k, v⟩ := x
    rw [writesFields, writesFields]
    exact List.Perm.append_left _ ih
  | swap x y l =>
    obtain ⟨k, v⟩ := x
    obtain ⟨k', v'⟩ := y
    rw [writesFields, writesFields, writesFields, writesFields, ← List.append_assoc,
      ← List.append_assoc]
    exact List.Perm.append_right _ List.perm_append_comm
  | trans _ _ ih1 ih2 => exact ih1.trans ih2

mutual
theorem perm_writes : ∀ (t t' : Value), Reordered t t' → ∀ path : String,
    (writes path t).Perm (writes path t')
  | _, _, .same v, _ => List.Perm.refl _
  | _, _, .list xs ys h, path => by
    rw [writes, writes]
    exact perm_writesElems xs ys h (path ++ ".") 0
  | _, _, .obj kvs kvs' kvs'' h hp, path => by
    rw [writes, writes]
    exact (perm_writesFields kvs kvs' h (path ++ ".")).trans
      (perm_writesFields_of_perm (path ++ ".") kvs' kvs'' hp)
theorem perm_writesElems : ∀ (xs ys : List Value), ReorderedElems xs ys →
    ∀ (path : String) (i : Nat), (writesElems path i xs).Perm (writesElems path i ys)
  | _, _, .nil, _, _ => List.Perm.refl _
  | _, _, .cons x y xs ys h hs, path, i => by
    rw [writesElems, writesElems]
    exact List.Perm.append (perm_writes x y h _) (perm_writesElems xs ys hs path (i + 1))
theorem perm_writesFields : ∀ (kvs kvs' : List (String × Value)), ReorderedFields kvs kvs' →
    ∀ path : String, (writesFields path kvs).Perm (writesFields path kvs')
  | _, _, .nil, _ => List.Perm.refl _
  | _, _, .cons k v w kvs kvs' h hs, path => by
    rw [writesFields, writesFields]
    exact List.Perm.append (perm_writes v w h _) (perm_writesFields kvs kvs' hs path)
end

theorem mget_of_perm {β : Type} (l l' : List (String × β)) (p : String) (hn : KeysNodup l)
    (h : l.Perm l') : mget l p = mget l' p := by
  have hn' : KeysNodup l' := (List.Perm.nodup_iff (List.Perm.map Prod.fst h)).1 hn
  cases hl : mget l p with
  | some v =>
    exact (mget_of_mem l' p v hn' ((List.Perm.mem_iff h).1 (mem_of_mget l p v hl))).symm
  | none =>
    cases hl' : mget l' p with
    | none => rfl
    | some v =>
      have := mget_of_mem l p v hn ((List.Perm.mem_iff h).2 (mem_of_mget l' p v hl'))
      rw [hl] at this
      cases this

/-- C24 as stated fails: `dottedTree` and `dottedTreeSwapped` are the same tree
`{"a.b": "1", "a": {"b": "2"}}` with its two distinct keys visited in the two possible
orders, and the flat maps differ at `.a.b`, which holds the leaf visited last. -/
theorem flatten_order_counterexample :
    Reordered dottedTree dottedTreeSwapped ∧
    KeysNodup [("a.b", Value.str "1"), ("a", Value.obj [("b", .str "2")])] ∧
    mget (flatten "" dottedTree []) ".a.b" = some "2" ∧
    mget (flatten "" dottedTreeSwapped []) ".a.b" = some "1" :=
  ⟨Reordered.obj _ _ _
      (ReorderedFields.cons _ _ _ _ _ (Reordered.same _)
        (ReorderedFields.cons _ _ _ _ _ (Reordered.same _) ReorderedFields.nil))
      (List.Perm.swap _ _ _),
    by decide, by decide, by decide⟩

/-- C24 amended: for every tree whose leaves are written at pairwise distinct keys,
any two visiting orders of the keys of its maps produce the same flat map: from every
path and into every map, the two results hold the same value at every key. -/
theorem flatten_order (t t' : Value) (h : Reordered t t') (path : String)
    (hdistinct : KeysNodup (writes path t)) (out : List (String × String)) (p : String) :
    mget (flatten path t' out) p = mget (flatten path t out) p := by
  have hp := perm_writes t t' h path
  have hn' : KeysNodup (writes path t') :=
    (List.Perm.nodup_iff (List.Perm.map Prod.fst hp)).1 hdistinct
  rw [flatten_eq_writes, flatten_eq_writes, mget_foldl_mset _ _ _ hn',
    mget_foldl_mset _ _ _ hdistinct, mget_of_perm _ _ p hdistinct hp]

/-- Witness of C24 amended: `serviceTree` with its top-level keys in another order. -/
theorem flatten_order_witness :
    Reordered serviceTree serviceTreeSwapped ∧ KeysNodup (writes "" serviceTree) ∧
    flatten "" serviceTreeSwapped [] =
      [(".zones.a", "x"), (".name", "web"), (".ports.[0]", "80"), (".ports.[1].tls", "true")] ∧
    mget (flatten "" serviceTreeSwapped []) ".ports.[1].tls" =
      mget (flatten "" serviceTree []) ".ports.[1].tls" :=
  ⟨Reordered.obj _ _ _
      (ReorderedFields.cons _ _ _ _ _ (Reordered.same _)
        (ReorderedFields.cons _ _ _ _ _ (Reordered.same _)
          (ReorderedFields.cons _ _ _ _ _ (Reordered.same _) ReorderedFields.nil)))
      ((List.Perm.cons _ (List.Perm.swap _ _ _)).trans (List.Perm.swap _ _ _)),
    by decide, by decide,
    flatten_order serviceTree serviceTreeSwapped
      (Reordered.obj _ _ _
        (ReorderedFields.cons _ _ _ _ _ (Reordered.same _)
          (ReorderedFields.cons _ _ _ _ _ (Reordered.same _)
            (ReorderedFields.cons _ _ _ _ _ (Reordered.same _) ReorderedFields.nil)))
        ((List.Perm.cons _ (List.Perm.swap _ _ _)).trans (List.Perm.swap _ _ _)))
      "" (by decide) [] ".ports.[1].tls"⟩



/-! ## What a run of deletions leaves alone -/

/-- A run of deletions for `address` changes no binding of another address, never binds
`address` anew, and changes no map object other than the one bound at `address`. -/
theorem deletesTo_frame (address : String) (st st' : Heap × RefCollection)
    (hd : DeletesTo address st st') :
    (∀ a, a ≠ address → mget st'.2 a = mget st.2 a) ∧
    (mget st'.2 address = mget st.2 address ∨ mget st'.2 address = none) ∧
    (∀ x, mget st.2 address ≠ some x → st'.1 x = st.1 x) := by
  induction hd with
  | refl => exact ⟨fun _ _ => rfl, Or.inl rfl, fun _ _ => rfl⟩
  | step st1 path _ ih =>
    obtain ⟨h1, h2, h3⟩ := ih
    have hcoll : ∀ a, mget (deletePath address path st1).2 a = mget st1.2 a ∨
        (a = address ∧ mget (deletePath address path st1).2 a = none) := by
      intro a
      unfold deletePath
      simp only
      split
      · by_cases ha : address = a
        · right
          exact ⟨ha.symm, by simp [mget_mdelete, ha]⟩
        · left
          simp [mget_mdelete, ha]
      · exact Or.inl rfl
    have hheap : ∀ x, mget st1.2 address ≠ some x →
        (deletePath address path st1).1 x = st1.1 x := by
      intro x hx
      unfold deletePath
      cases hc : mget st1.2 address with
      | none =>
        simp only [hc]
        split <;> rfl
      | some r =>
        have hne : ¬ x = r := by
          intro hh
          rw [hc, hh] at hx
          exact hx rfl
        simp only [hc]
        split <;> simp [hne]
    refine ⟨?_, ?_, ?_⟩
    · intro a ha
      rcases hcoll a with h | ⟨h, _⟩
      · rw [h, h1 a ha]
      · exact absurd h ha
    · rcases hcoll address with h | ⟨_, h⟩
      · rw [h]
        exact h2
      · exact Or.inr h
    · intro x hx
      rw [← h3 x hx]
      apply hheap
      rcases h2 with h | h
      · rw [h]
        exact hx
      · rw [h]
        exact fun hh => by cases hh

theorem filterRules_of_empty (m : Matcher) (address : String) (r : Ref)
    (filters : List Filter) (st st' : Heap × RefCollection) (hnil : st.1 r = [])
    (hres : filterRules m address r filters st = .ok st') : st' = st := by
  induction filters with
  | nil =>
    simp only [filterRules, Except.ok.injEq] at hres
    exact hres.symm
  | cons f rest ih =>
    unfold filterRules at hres
    cases hm : m f.NamePattern address with
    | none => simp [hm] at hres
    | some b =>
      cases b with
      | false =>
        simp only [hm] at hres
        exact ih hres
      | true =>
        simp only [hm, hnil, filterPaths] at hres
        exact ih hres

theorem suppressed_of_perm (m : Matcher) (address p : String) (d : Diff)
    (filters filters' : List Filter) (h : filters.Perm filters') :
    Suppressed m address p d filters ↔ Suppressed m address p d filters' := by
  unfold Suppressed
  constructor
  · rintro ⟨f, hf, hh⟩
    exact ⟨f, (List.Perm.mem_iff h).1 hf, hh⟩
  · rintro ⟨f, hf, hh⟩
    exact ⟨f, (List.Perm.mem_iff h).2 hf, hh⟩

/-- Whether the entity is still held after a returned filter call. -/
theorem held_iff_nonempty (m : Matcher) (heap heap' : Heap) (address : String) (r : Ref)
    (filters : List Filter) (coll out : RefCollection)
    (hheld : mget coll address = some r) (hmap : KeysNodup (heap r)) (hne : heap r ≠ [])
    (hres : filterEntityDiffs m heap address r filters coll = .ok (heap', out)) :
    (heap' r ≠ [] → mget out address = some r) ∧ (heap' r = [] → mget out address = none) := by
  have hinv : CollInv r address (heap, coll) := ⟨hmap, Or.inl hheld⟩
  have hd := deletesTo_filterRules m address r filters (heap, coll) (heap', out) hres
  obtain ⟨hinv', hkeep, _⟩ := deletesTo_invariant r address _ _ hinv hd
  constructor
  · intro h
    rcases hinv'.2 with hc | ⟨_, hnil⟩
    · exact hc
    · exact absurd hnil h
  · intro h
    rcases hinv'.2 with hc | ⟨hc, _⟩
    · rcases hkeep hc with h1 | h1
      · exact absurd h h1
      · simp only at h1
        rw [h] at h1
        exact absurd h1.symm hne
    · exact hc

/-! ## Order of the rules: claim C27 -/

/-- C27 as stated fails: with a matcher that rejects the pattern `[`, the rule that
suppresses `.x` followed by the rule with the path pattern `[` returns the collection
without the entity, because the second rule finds no path left to match; in the other
order the pattern `[` is matched against `.x` and the call fails. -/
theorem filterEntityDiffs_rule_order_counterexample :
    [anyChangeRule, malformedRule].Perm [malformedRule, anyChangeRule] ∧
    mget singleCollection "r" = some 0 ∧
    filteredContents (filterEntityDiffs brittleMatcher singleHeap "r" 0
      [anyChangeRule, malformedRule] singleCollection) = some [] ∧
    filteredContents (filterEntityDiffs brittleMatcher singleHeap "r" 0
      [malformedRule, anyChangeRule] singleCollection) = none :=
  ⟨List.Perm.swap _ _ _, by decide, by decide, by decide⟩

/-- C27 amended: for two rule lists that are permutations of each other, and a
collection that holds the entity diff at the address, `filterEntityDiffs` returns the
same filtered collection whenever it returns one for both lists, binding every address
and every path of every map alike, and it returns one for both when no pattern match
can fail.  (When a match can fail, one order may fail where the other returns.) -/
theorem filterEntityDiffs_rule_order (m : Matcher) (heap : Heap) (address : String)
    (entityDiff : Ref) (filters filters' : List Filter) (inspectDiffMap : RefCollection)
    (hperm : filters.Perm filters')
    (hheld : mget inspectDiffMap address = some entityDiff)
    (hmap : KeysNodup (heap entityDiff)) :
    ((∀ pattern s, m pattern s ≠ none) →
      (∃ st, filterEntityDiffs m heap address entityDiff filters inspectDiffMap = .ok st) ∧
      (∃ st, filterEntityDiffs m heap address entityDiff filters' inspectDiffMap = .ok st)) ∧
    ∀ heap1 out1 heap2 out2,
      filterEntityDiffs m heap address entityDiff filters inspectDiffMap = .ok (heap1, out1) →
      filterEntityDiffs m heap address entityDiff filters' inspectDiffMap = .ok (heap2, out2) →
      (∀ a, mget out1 a = mget out2 a) ∧ (∀ x p, mget (heap1 x) p = mget (heap2 x) p) := by
  constructor
  · intro hm
    exact ⟨filterRules_ok m hm address entityDiff filters (heap, inspectDiffMap),
      filterRules_ok m hm address entityDiff filters' (heap, inspectDiffMap)⟩
  · intro heap1 out1 heap2 out2 h1 h2
    have hinv : CollInv entityDiff address (heap, inspectDiffMap) := ⟨hmap, Or.inl hheld⟩
    have d1 := deletesTo_filterRules m address entityDiff filters _ _ h1
    have d2 := deletesTo_filterRules m address entityDiff filters' _ _ h2
    have f1 := deletesTo_frame address _ _ d1
    have f2 := deletesTo_frame address _ _ d2
    have t1 := tracks_filterRules m entityDiff address filters _ _ hinv h1
    have t2 := tracks_filterRules m entityDiff address filters' _ _ hinv h2
    have hsame : ∀ p, mget (heap1 entityDiff) p = mget (heap2 entityDiff) p := by
      intro p
      by_cases hD : ∃ d, mget (heap entityDiff) p = some d ∧ Suppressed m address p d filters
      · have hD' : ∃ d, mget (heap entityDiff) p = some d ∧
            Suppressed m address p d filters' := by
          obtain ⟨d, hd, hs⟩ := hD
          exact ⟨d, hd, (suppressed_of_perm m address p d _ _ hperm).1 hs⟩
        rw [(t1.2 p).1 hD, (t2.2 p).1 hD']
      · have hD' : ¬ ∃ d, mget (heap entityDiff) p = some d ∧
            Suppressed m address p d filters' := by
          rintro ⟨d, hd, hs⟩
          exact hD ⟨d, hd, (suppressed_of_perm m address p d _ _ hperm).2 hs⟩
        rw [(t1.2 p).2 hD, (t2.2 p).2 hD']
    have hheap : ∀ x p, mget (heap1 x) p = mget (heap2 x) p := by
      intro x p
      by_cases hx : x = entityDiff
      · rw [hx]
        exact hsame p
      · have hx' : mget (heap, inspectDiffMap).2 address ≠ some x := by
          simp only [hheld]
          intro hh
          cases hh
          exact hx rfl
        have e1 := f1.2.2 x hx'
        have e2 := f2.2.2 x hx'
        simp only at e1 e2
        rw [e1, e2]
    refine ⟨?_, hheap⟩
    intro a
    by_cases ha : a = address
    · rw [ha]
      by_cases hne : heap entityDiff = []
      · have s1 := filterRules_of_empty m address entityDiff filters _ _ hne h1
        have s2 := filterRules_of_empty m address entityDiff filters' _ _ hne h2
        cases s1
        cases s2
        rfl
      · have k1 := held_iff_nonempty m heap heap1 address entityDiff filters inspectDiffMap
          out1 hheld hmap hne h1
        have k2 := held_iff_nonempty m heap heap2 address entityDiff filters' inspectDiffMap
          out2 hheld hmap hne h2
        by_cases hnil : heap1 entityDiff = []
        · have hnil2 : heap2 entityDiff = [] := by
            apply eq_nil_of_mget_none
            intro k
            rw [← hsame k, hnil]
            rfl
          rw [k1.2 hnil, k2.2 hnil2]
        · have hnil2 : heap2 entityDiff ≠ [] := by
            intro hh
            apply hnil
            apply eq_nil_of_mget_none
            intro k
            rw [hsame k, hh]
            rfl
          rw [k1.1 hnil, k2.1 hnil2]
    · have e1 := f1.1 a ha
      have e2 := f2.1 a ha
      simp only at e1 e2
      rw [e1, e2]

/-- Witness of C27 amended: the two rules for `aws_instance.example` in both orders,
with the glob matcher, which never fails. -/
theorem filterEntityDiffs_rule_order_witness :
    splitRules.Perm splitRulesSwapped ∧
    mget amiCollection "aws_instance.example" = some 0 ∧ KeysNodup (amiHeap 0) ∧
    filteredContents (filterEntityDiffs globMatcher amiHeap "aws_instance.example" 0
      splitRules amiCollection) =
      some [("aws_instance.example", [(".instance_type", ⟨"t2.medium", "t2.micro"⟩)])] ∧
    filteredContents (filterEntityDiffs globMatcher amiHeap "aws_instance.example" 0
      splitRulesSwapped amiCollection) =
      some [("aws_instance.example", [(".instance_type", ⟨"t2.medium", "t2.micro"⟩)])] ∧
    (∃ st, filterEntityDiffs globMatcher amiHeap "aws_instance.example" 0 splitRules
      amiCollection = .ok st) ∧
    (∃ st, filterEntityDiffs globMatcher amiHeap "aws_instance.example" 0 splitRulesSwapped
      amiCollection = .ok st) :=
  ⟨List.Perm.swap _ _ _, by decide, by decide, by decide, by decide,
    ((filterEntityDiffs_rule_order globMatcher amiHeap "aws_instance.example" 0 splitRules
      splitRulesSwapped amiCollection (List.Perm.swap _ _ _) (by decide) (by decide)).1
      (fun _ _ => by simp [globMatcher])).1,
    ((filterEntityDiffs_rule_order globMatcher amiHeap "aws_instance.example" 0 splitRules
      splitRulesSwapped amiCollection (List.Perm.swap _ _ _) (by decide) (by decide)).1
      (fun _ _ => by simp [globMatcher])).2⟩



/-! ## Filtering one entity does not depend on the rest of the heap -/

theorem linked_deletePath (address path : String) (r1 r2 : Ref)
    (st1 st2 : Heap × RefCollection) (h : Linked address r1 r2 st1 st2) :
    Linked address r1 r2 (deletePath address path st1) (deletePath address path st2) := by
  obtain ⟨hE, hc⟩ := h
  rcases hc with ⟨h1, h2⟩ | ⟨h1, h2⟩
  · unfold deletePath
    simp only [h1, h2, entityAt, if_true]
    rw [hE]
    by_cases hlen : (mdelete (st2.1 r2) path).length = 0
    · simp only [hlen, if_true]
      exact ⟨by simp, Or.inr ⟨by simp [mget_mdelete], by simp [mget_mdelete]⟩⟩
    · simp only [hlen, if_false]
      exact ⟨by simp, Or.inl ⟨h1, h2⟩⟩
  · unfold deletePath
    simp only [h1, h2, entityAt, List.length_nil, if_true]
    exact ⟨hE, Or.inr ⟨by simp [mget_mdelete], by simp [mget_mdelete]⟩⟩

theorem sameOutcome_filterDiffPatterns (m : Matcher) (address path : String) (diff : Diff)
    (dps : List Diff) (r1 r2 : Ref) (st1 st2 : Heap × RefCollection)
    (h : Linked address r1 r2 st1 st2) :
    SameOutcome address r1 r2 (filterDiffPatterns m address path diff dps st1)
      (filterDiffPatterns m address path diff dps st2) := by
  induction dps generalizing st1 st2 with
  | nil => exact h
  | cons dp rest ih =>
    unfold filterDiffPatterns
    cases m dp.Before diff.Before with
    | none => exact rfl
    | some bMatch =>
      cases m dp.After diff.After with
      | none => exact rfl
      | some aMatch =>
        simp only
        split
        · exact ih _ _ (linked_deletePath address path r1 r2 st1 st2 h)
        · exact ih _ _ h

theorem sameOutcome_filterPathPatterns (m : Matcher) (address path : String) (diff : Diff)
    (pps : List (String × List Diff)) (r1 r2 : Ref) (st1 st2 : Heap × RefCollection)
    (h : Linked address r1 r2 st1 st2) :
    SameOutcome address r1 r2 (filterPathPatterns m address path diff pps st1)
      (filterPathPatterns m address path diff pps st2) := by
  induction pps generalizing st1 st2 with
  | nil => exact h
  | cons pp rest ih =>
    obtain ⟨pathPattern, diffPatterns⟩ := pp
    unfold filterPathPatterns
    cases m pathPattern path with
    | none => exact rfl
    | some b =>
      cases b with
      | false => exact ih _ _ h
      | true =>
        have hd := sameOutcome_filterDiffPatterns m address path diff diffPatterns r1 r2
          st1 st2 h
        cases h1 : filterDiffPatterns m address path diff diffPatterns st1 with
        | error e1 =>
          cases h2 : filterDiffPatterns m address path diff diffPatterns st2 with
          | error e2 =>
            rw [h1, h2] at hd
            exact hd
          | ok s2 =>
            rw [h1, h2] at hd
            exact hd.elim
        | ok s1 =>
          cases h2 : filterDiffPatterns m address path diff diffPatterns st2 with
          | error e2 =>
            rw [h1, h2] at hd
            exact hd.elim
          | ok s2 =>
            rw [h1, h2] at hd
            exact ih _ _ hd

theorem sameOutcome_filterPaths (m : Matcher) (address : String) (filter : Filter)
    (paths : List (String × Diff)) (r1 r2 : Ref) (st1 st2 : Heap × RefCollection)
    (h : Linked address r1 r2 st1 st2) :
    SameOutcome address r1 r2 (filterPaths m address filter paths st1)
      (filterPaths m address filter paths st2) := by
  induction paths generalizing st1 st2 with
  | nil => exact h
  | cons pd rest ih =>
    obtain ⟨path, diff⟩ := pd
    unfold filterPaths
    have hd := sameOutcome_filterPathPatterns m address path diff filter.DiffPatterns r1 r2
      st1 st2 h
    cases h1 : filterPathPatterns m address path diff filter.DiffPatterns st1 with
    | error e1 =>
      cases h2 : filterPathPatterns m address path diff filter.DiffPatterns st2 with
      | error e2 =>
        rw [h1, h2] at hd
        exact hd
      | ok s2 =>
        rw [h1, h2] at hd
        exact hd.elim
    | ok s1 =>
      cases h2 : filterPathPatterns m address path diff filter.DiffPatterns st2 with
      | error e2 =>
        rw [h1, h2] at hd
        exact hd.elim
      | ok s2 =>
        rw [h1, h2] at hd
        exact ih _ _ hd

theorem sameOutcome_filterRules (m : Matcher) (address : String) (filters : List Filter)
    (r1 r2 : Ref) (st1 st2 : Heap × RefCollection) (h : Linked address r1 r2 st1 st2) :
    SameOutcome address r1 r2 (filterRules m address r1 filters st1)
      (filterRules m address r2 filters st2) := by
  induction filters generalizing st1 st2 with
  | nil => exact h
  | cons f rest ih =>
    unfold filterRules
    cases m f.NamePattern address with
    | none => exact rfl
    | some b =>
      cases b with
      | false => exact ih _ _ h
      | true =>
        have hd := sameOutcome_filterPaths m address f (st1.1 r1) r1 r2 st1 st2 h
        simp only
        rw [← h.1]
        cases h1 : filterPaths m address f (st1.1 r1) st1 with
        | error e1 =>
          cases h2 : filterPaths m address f (st1.1 r1) st2 with
          | error e2 =>
            rw [h1, h2] at hd
            exact hd
          | ok s2 =>
            rw [h1, h2] at hd
            exact hd.elim
        | ok s1 =>
          cases h2 : filterPaths m address f (st1.1 r1) st2 with
          | error e2 =>
            rw [h1, h2] at hd
            exact hd.elim
          | ok s2 =>
            rw [h1, h2] at hd
            exact ih _ _ hd

/-- The only failure of the rule loop is a returned error. -/
theorem filterRules_error (m : Matcher) (address : String) (r : Ref) (filters : List Filter)
    (st : Heap × RefCollection) (e : Failure)
    (h : filterRules m address r filters st = .error e) : e = .error := by
  cases he : e with
  | error => rfl
  | panic =>
    exfalso
    rw [he] at h
    induction filters generalizing st with
    | nil => simp [filterRules] at h
    | cons f rest ih =>
      unfold filterRules at h
      cases hm : m f.NamePattern address with
      | none => simp [hm] at h
      | some b =>
        cases b with
        | false =>
          simp only [hm] at h
          exact ih _ h
        | true =>
          simp only [hm] at h
          cases hp : filterPaths m address f (st.1 r) st with
          | ok s1 =>
            simp only [hp] at h
            exact ih _ h
          | error e1 =>
            simp only [hp, Except.error.injEq] at h
            subst h
            clear ih
            generalize st.1 r = paths at hp
            induction paths generalizing st with
            | nil => simp [filterPaths] at hp
            | cons pd t iht =>
              obtain ⟨path, diff⟩ := pd
              unfold filterPaths at hp
              cases hq : filterPathPatterns m address path diff f.DiffPatterns st with
              | ok s2 =>
                simp only [hq] at hp
                exact iht _ hp
              | error e2 =>
                simp only [hq, Except.error.injEq] at hp
                subst hp
                clear iht
                generalize f.DiffPatterns = pps at hq
                induction pps generalizing st with
                | nil => simp [filterPathPatterns] at hq
                | cons pp t2 ihp =>
                  obtain ⟨pathPattern, diffPatterns⟩ := pp
                  unfold filterPathPatterns at hq
                  cases hpm : m pathPattern path with
                  | none => simp [hpm] at hq
                  | some b2 =>
                    cases b2 with
                    | false =>
                      simp only [hpm] at hq
                      exact ihp _ hq
                    | true =>
                      simp only [hpm] at hq
                      cases hdp : filterDiffPatterns m address path diff diffPatterns st with
                      | ok s3 =>
                        simp only [hdp] at hq
                        exact ihp _ hq
                      | error e3 =>
                        simp only [hdp, Except.error.injEq] at hq
                        subst hq
                        clear ihp
                        induction diffPatterns generalizing st with
                        | nil => simp [filterDiffPatterns] at hdp
                        | cons dp t3 ihd =>
                          unfold filterDiffPatterns at hdp
                          cases hb : m dp.Before diff.Before with
                          | none => simp [hb] at hdp
                          | some bMatch =>
                            cases ha : m dp.After diff.After with
                            | none => simp [hb, ha] at hdp
                            | some aMatch =>
                              simp only [hb, ha] at hdp
                              split at hdp
                              · exact ihd _ hdp
                              · exact ihd _ hdp



/-! ## A loop of `apply`, entity by entity -/

theorem filterEntityDiffs_entity (m : Matcher) (name : String) (r : Ref) (rules : List Filter)
    (st : Heap × RefCollection) (hheld : mget st.2 name = some r) :
    (∃ f, filterEntityDiffs m st.1 name r rules st.2 = .error f ∧
      filteredEntity m name rules (st.1 r) = .error f) ∨
    (∃ st', filterEntityDiffs m st.1 name r rules st.2 = .ok st' ∧
      KeptAs m rules st' name r (st.1 r)) := by
  have h := sameOutcome_filterRules m name rules r 0 st (fun _ => st.1 r, [(name, 0)])
    ⟨rfl, Or.inl ⟨hheld, by simp [mget]⟩⟩
  unfold KeptAs filteredEntity filterEntityDiffs
  cases h1 : filterRules m name r rules st with
  | error e1 =>
    cases h2 : filterRules m name 0 rules (fun _ => st.1 r, [(name, 0)]) with
    | error e2 =>
      rw [h1, h2] at h
      left
      exact ⟨e1, rfl, by rw [show e1 = e2 from h]⟩
    | ok s2 =>
      rw [h1, h2] at h
      exact h.elim
  | ok s1 =>
    cases h2 : filterRules m name 0 rules (fun _ => st.1 r, [(name, 0)]) with
    | error e2 =>
      rw [h1, h2] at h
      exact h.elim
    | ok s2 =>
      rw [h1, h2] at h
      right
      refine ⟨s1, rfl, ?_⟩
      obtain ⟨hE, hc⟩ := h
      rcases hc with ⟨c1, c2⟩ | ⟨c1, c2⟩
      · left
        exact ⟨c1, by simp only [c2, hE]⟩
      · right
        exact ⟨c1, by simp only [c2]⟩

theorem filterEntityDiffs_frame (m : Matcher) (name : String) (r : Ref) (rules : List Filter)
    (st st' : Heap × RefCollection) (hheld : mget st.2 name = some r)
    (h : filterEntityDiffs m st.1 name r rules st.2 = .ok st') :
    (∀ a, a ≠ name → mget st'.2 a = mget st.2 a) ∧ (∀ x, x ≠ r → st'.1 x = st.1 x) := by
  have d := deletesTo_filterRules m name r rules (st.1, st.2) st' h
  obtain ⟨f1, _, f3⟩ := deletesTo_frame name _ _ d
  refine ⟨f1, ?_⟩
  intro x hx
  apply f3 x
  simp only [hheld, ne_eq, Option.some.injEq]
  exact fun hh => hx hh.symm

theorem applyCollection_entities (m : Matcher) (rules : List Filter)
    (entries : List (String × Ref)) (st : Heap × RefCollection)
    (hk : KeysNodup entries) (hr : (entries.map Prod.snd).Nodup)
    (hheld : ∀ e ∈ entries, mget st.2 e.1 = some e.2) :
    (∃ f, applyCollection m (some rules) entries st = .error f ∧
      ∃ e ∈ entries, filteredEntity m e.1 rules (st.1 e.2) = .error f) ∨
    (∃ st', applyCollection m (some rules) entries st = .ok st' ∧
      (∀ e ∈ entries, KeptAs m rules st' e.1 e.2 (st.1 e.2)) ∧
      (∀ a, a ∉ entries.map Prod.fst → mget st'.2 a = mget st.2 a) ∧
      (∀ x, x ∉ entries.map Prod.snd → st'.1 x = st.1 x)) := by
  induction entries generalizing st with
  | nil =>
    right
    exact ⟨st, rfl, fun e he => by simp at he, fun _ _ => rfl, fun _ _ => rfl⟩
  | cons e rest ih =>
    obtain ⟨address, entDiff⟩ := e
    unfold KeysNodup at hk ih
    simp only [List.map_cons, List.nodup_cons] at hk hr
    have hhead : mget st.2 address = some entDiff := hheld (address, entDiff) (by simp)
    simp only [applyCollection]
    rcases filterEntityDiffs_entity m address entDiff rules st hhead with
      ⟨f, hf, hspec⟩ | ⟨st1, hf, hkept⟩
    · left
      refine ⟨f, by rw [hf], (address, entDiff), by simp, hspec⟩
    · rw [hf]
      simp only
      obtain ⟨fr1, fr2⟩ := filterEntityDiffs_frame m address entDiff rules st st1 hhead hf
      have hkey : ∀ e' ∈ rest, e'.1 ≠ address := by
        intro e' he' hh
        exact hk.1 (hh ▸ List.mem_map_of_mem Prod.fst he')
      have href : ∀ e' ∈ rest, e'.2 ≠ entDiff := by
        intro e' he' hh
        exact hr.1 (hh ▸ List.mem_map_of_mem Prod.snd he')
      have hheld1 : ∀ e' ∈ rest, mget st1.2 e'.1 = some e'.2 := by
        intro e' he'
        rw [fr1 _ (hkey e' he')]
        exact hheld e' (List.mem_cons_of_mem _ he')
      rcases ih st1 hk.2 hr.2 hheld1 with ⟨f, hf2, e', he', hspec⟩ | ⟨st2, hf2, hall, g1, g2⟩
      · left
        refine ⟨f, hf2, e', List.mem_cons_of_mem _ he', ?_⟩
        rw [← fr2 _ (href e' he')]
        exact hspec
      · right
        refine ⟨st2, hf2, ?_, ?_, ?_⟩
        · intro e' he'
          rcases List.mem_cons.mp he' with heq | hmem
          · subst heq
            unfold KeptAs at hkept ⊢
            simp only
            rw [g1 address hk.1, g2 entDiff hr.1]
            exact hkept
          · have := hall e' hmem
            rw [fr2 _ (href e' hmem)] at this
            exact this
        · intro a ha
          simp only [List.map_cons, List.mem_cons, not_or] at ha
          rw [g1 a ha.2, fr1 a ha.1]
        · intro x hx
          simp only [List.map_cons, List.mem_cons, not_or] at hx
          rw [g2 x hx.2, fr2 x hx.1]



/-! ## The map objects of a built collection -/

theorem values_mset_mem {β : Type} (m : List (String × β)) (k : String) (v v' : β)
    (h : v' ∈ (mset m k v).map Prod.snd) : v' = v ∨ v' ∈ m.map Prod.snd := by
  induction m with
  | nil =>
    simp only [mset, List.map_cons, List.map_nil, List.mem_singleton] at h
    exact Or.inl h
  | cons e t ih =>
    obtain ⟨a, b⟩ := e
    by_cases hk : a = k
    · simp only [mset, hk, if_true, List.map_cons, List.mem_cons] at h ⊢
      rcases h with h | h
      · exact Or.inl h
      · exact Or.inr (Or.inr h)
    · simp only [mset, hk, if_false, List.map_cons, List.mem_cons] at h ⊢
      rcases h with h | h
      · exact Or.inr (Or.inl h)
      · rcases ih h with h | h
        · exact Or.inl h
        · exact Or.inr (Or.inr h)

theorem values_mset_nodup {β : Type} (m : List (String × β)) (k : String) (v : β)
    (hn : (m.map Prod.snd).Nodup) (hv : v ∉ m.map Prod.snd) :
    ((mset m k v).map Prod.snd).Nodup := by
  induction m with
  | nil => simp [mset]
  | cons e t ih =>
    obtain ⟨a, b⟩ := e
    simp only [List.map_cons, List.nodup_cons, List.mem_cons, not_or] at hn hv
    by_cases hk : a = k
    · simp only [mset, hk, if_true, List.map_cons, List.nodup_cons]
      exact ⟨hv.2, hn.2⟩
    · simp only [mset, hk, if_false, List.map_cons, List.nodup_cons]
      refine ⟨?_, ih hn.2 hv.2⟩
      intro hb
      rcases values_mset_mem t k v b hb with h | h
      · exact hv.1 h.symm
      · exact hn.1 h

theorem builtIn_storeChange (lo : Ref) (st : Mem × RefCollection) (k : String) (c : Change)
    (h : BuiltIn lo st) (hlo : lo ≤ st.1.next) : BuiltIn lo (storeChange st k c) := by
  obtain ⟨h1, h2, h3⟩ := h
  have hfresh : st.1.next ∉ st.2.map Prod.snd := fun hh => Nat.lt_irrefl _ (h3 _ hh).2
  refine ⟨keysNodup_mset _ _ _ h1, values_mset_nodup _ _ _ h2 hfresh, ?_⟩
  intro r hr
  rw [coll_storeChange] at hr
  rw [next_storeChange]
  rcases values_mset_mem _ _ _ _ hr with h | h
  · rw [h]
    exact ⟨hlo, Nat.lt_succ_self _⟩
  · exact ⟨(h3 r h).1, Nat.lt_succ_of_lt (h3 r h).2⟩

theorem builtIn_buildFrom (lo : Ref) (changes : List (String × Change))
    (st : Mem × RefCollection) (h : BuiltIn lo st) (hlo : lo ≤ st.1.next) :
    BuiltIn lo (buildFrom changes st) := by
  induction changes generalizing st with
  | nil => exact h
  | cons e t ih =>
    have hstep : buildFrom (e :: t) st = buildFrom t (storeChange st e.1 e.2) := rfl
    rw [hstep]
    apply ih _ (builtIn_storeChange lo st e.1 e.2 h hlo)
    rw [next_storeChange]
    exact Nat.le_succ_of_le hlo

theorem builtIn_nil (mem : Mem) : BuiltIn mem.next (mem, []) :=
  ⟨by simp [KeysNodup], by simp, fun r hr => by simp at hr⟩

/-- Each entry of a built collection refers to the parsed diff of the change the list
holds for its address, and the addresses bound are those that have a change. -/
theorem buildFrom_entries (changes : List (String × Change)) (mem : Mem) :
    (∀ e, e ∈ (buildFrom changes (mem, [])).2 →
      ∃ c, lastChange changes e.1 = some c ∧
        (buildFrom changes (mem, [])).1.heap e.2 = parseChange c) ∧
    (∀ name c, lastChange changes name = some c →
      ∃ r, (name, r) ∈ (buildFrom changes (mem, [])).2) := by
  obtain ⟨_, _, _, h4⟩ := buildFrom_spec changes (mem, []) (refsBelow_nil mem)
  have hb := builtIn_buildFrom mem.next changes (mem, []) (builtIn_nil mem) (Nat.le_refl _)
  constructor
  · intro e he
    have hg := mget_of_mem _ e.1 e.2 hb.1 he
    have h := h4 e.1
    rw [hg] at h
    cases hl : lastChange changes e.1 with
    | none =>
      rw [hl] at h
      simp [mget] at h
    | some c =>
      rw [hl] at h
      simp only [Option.map_some', Option.some.injEq] at h
      exact ⟨c, rfl, h⟩
  · intro name c hl
    have h := h4 name
    rw [hl] at h
    cases hg : mget (buildFrom changes (mem, [])).2 name with
    | none =>
      rw [hg] at h
      simp at h
    | some r => exact ⟨r, mem_of_mget _ _ _ hg⟩

/-! ## One loop of `apply` over a built collection -/

theorem applyCollection_built (m : Matcher) (rules : List Filter)
    (changes : List (String × Change)) (mem : Mem) (heap : Heap)
    (hheap : ∀ e, e ∈ (buildFrom changes (mem, [])).2 →
      heap e.2 = (buildFrom changes (mem, [])).1.heap e.2) :
    (∃ f, applyCollection m (some rules) (buildFrom changes (mem, [])).2
        (heap, (buildFrom changes (mem, [])).2) = .error f ∧
      ∃ name c, lastChange changes name = some c ∧
        filteredEntity m name rules (parseChange c) = .error f) ∨
    (∃ st', applyCollection m (some rules) (buildFrom changes (mem, [])).2
        (heap, (buildFrom changes (mem, [])).2) = .ok st' ∧
      (∀ name c, lastChange changes name = some c →
        ∃ res, filteredEntity m name rules (parseChange c) = .ok res) ∧
      (∀ heap' : Heap,
        (∀ x, x ∈ (buildFrom changes (mem, [])).2.map Prod.snd → heap' x = st'.1 x) →
        ∀ name, mget (resolve heap' st'.2) name = keptEntity m rules changes name) ∧
      (∀ x, x ∉ (buildFrom changes (mem, [])).2.map Prod.snd → st'.1 x = heap x)) := by
  have hb := builtIn_buildFrom mem.next changes (mem, []) (builtIn_nil mem) (Nat.le_refl _)
  obtain ⟨hent, hhas⟩ := buildFrom_entries changes mem
  generalize buildFrom changes (mem, []) = B at hb hent hhas hheap ⊢
  have hheld : ∀ e ∈ B.2, mget (heap, B.2).2 e.1 = some e.2 :=
    fun e he => mget_of_mem _ e.1 e.2 hb.1 he
  rcases applyCollection_entities m rules B.2 (heap, B.2) hb.1 hb.2.1 hheld with
    ⟨f, hf, e, he, hspec⟩ | ⟨st', hf, hall, g1, g2⟩
  · left
    obtain ⟨c, hc, hE⟩ := hent e he
    refine ⟨f, hf, e.1, c, hc, ?_⟩
    simp only at hspec
    rw [hheap e he, hE] at hspec
    exact hspec
  · right
    have hkept : ∀ name c r, lastChange changes name = some c → (name, r) ∈ B.2 →
        KeptAs m rules st' name r (parseChange c) := by
      intro name c r hc hmem
      have := hall (name, r) hmem
      simp only at this
      obtain ⟨c', hc', hE⟩ := hent (name, r) hmem
      simp only at hc' hE
      rw [hc] at hc'
      cases hc'
      rw [hheap (name, r) hmem] at this
      simp only at this
      rw [hE] at this
      exact this
    refine ⟨st', hf, ?_, ?_, g2⟩
    · intro name c hc
      obtain ⟨r, hmem⟩ := hhas name c hc
      rcases hkept name c r hc hmem with ⟨_, h⟩ | ⟨_, h⟩
      · exact ⟨_, h⟩
      · exact ⟨_, h⟩
    · intro heap' hheap' name
      rw [mget_resolve]
      unfold keptEntity
      cases hc : lastChange changes name with
      | none =>
        simp only
        have hnot : name ∉ B.2.map Prod.fst := by
          intro hin
          obtain ⟨e, he, hfst⟩ := List.mem_map.mp hin
          obtain ⟨c, hc', _⟩ := hent e he
          rw [hfst, hc] at hc'
          cases hc'
        rw [g1 name hnot]
        simp only
        rw [(mget_eq_none_iff B.2 name).2 hnot]
        rfl
      | some c =>
        simp only
        obtain ⟨r, hmem⟩ := hhas name c hc
        rcases hkept name c r hc hmem with ⟨h1, h2⟩ | ⟨h1, h2⟩
        · rw [h1, h2]
          simp only [Option.map_some']
          rw [hheap' r (List.mem_map_of_mem Prod.snd hmem)]
        · rw [h1, h2]
          rfl



/-! ## `Inspect`, kind by kind -/

theorem Inspect_eq (m : Matcher) (p : Plan) (f : InspectFilter) :
    Inspect m p ⟨some f⟩ =
      match applyCollection m (some f.ResourceChanges)
          (buildFrom (addressed p.ResourceChanges) (⟨fun _ => [], 0⟩, [])).2
          ((buildFrom p.OutputChanges
            ((buildFrom (addressed p.ResourceDrift)
              ((buildFrom (addressed p.ResourceChanges) (⟨fun _ => [], 0⟩, [])).1, [])).1,
              [])).1.heap,
            (buildFrom (addressed p.ResourceChanges) (⟨fun _ => [], 0⟩, [])).2) with
      | .error e => .error e
      | .ok st1 =>
        match applyCollection m (some f.DriftChanges)
            (buildFrom (addressed p.ResourceDrift)
              ((buildFrom (addressed p.ResourceChanges) (⟨fun _ => [], 0⟩, [])).1, [])).2
            (st1.1, (buildFrom (addressed p.ResourceDrift)
              ((buildFrom (addressed p.ResourceChanges) (⟨fun _ => [], 0⟩, [])).1, [])).2) with
        | .error e => .error e
        | .ok st2 =>
          match applyCollection m (some f.OutputChanges)
              (buildFrom p.OutputChanges
                ((buildFrom (addressed p.ResourceDrift)
                  ((buildFrom (addressed p.ResourceChanges) (⟨fun _ => [], 0⟩, [])).1,
                    [])).1, [])).2
              (st2.1, (buildFrom p.OutputChanges
                ((buildFrom (addressed p.ResourceDrift)
                  ((buildFrom (addressed p.ResourceChanges) (⟨fun _ => [], 0⟩, [])).1,
                    [])).1, [])).2) with
          | .error e => .error e
          | .ok st3 =>
            .ok ⟨⟨resolve st3.1 st1.2, resolve st3.1 st3.2, resolve st3.1 st2.2⟩⟩ := by
  unfold Inspect apply
  simp only [buildResources_eq, buildOutputs_eq, Option.map_some']
  cases applyCollection m (some f.ResourceChanges)
      (buildFrom (addressed p.ResourceChanges) (⟨fun _ => [], 0⟩, [])).2
      ((buildFrom p.OutputChanges
        ((buildFrom (addressed p.ResourceDrift)
          ((buildFrom (addressed p.ResourceChanges) (⟨fun _ => [], 0⟩, [])).1,
          [])).1, [])).1.heap,
        (buildFrom (addressed p.ResourceChanges) (⟨fun _ => [], 0⟩, [])).2) with
  | error e => rfl
  | ok st1 =>
    obtain ⟨h1, resources⟩ := st1
    simp only
    cases applyCollection m (some f.DriftChanges)
        (buildFrom (addressed p.ResourceDrift)
          ((buildFrom (addressed p.ResourceChanges) (⟨fun _ => [], 0⟩, [])).1, [])).2
        (h1, (buildFrom (addressed p.ResourceDrift)
          ((buildFrom (addressed p.ResourceChanges) (⟨fun _ => [], 0⟩, [])).1, [])).2) with
    | error e => rfl
    | ok st2 =>
      obtain ⟨h2, drifts⟩ := st2
      simp only
      cases applyCollection m (some f.OutputChanges)
          (buildFrom p.OutputChanges
            ((buildFrom (addressed p.ResourceDrift)
              ((buildFrom (addressed p.ResourceChanges) (⟨fun _ => [], 0⟩, [])).1,
                [])).1, [])).2
          (h2, (buildFrom p.OutputChanges
            ((buildFrom (addressed p.ResourceDrift)
              ((buildFrom (addressed p.ResourceChanges) (⟨fun _ => [], 0⟩, [])).1,
                [])).1, [])).2) with
      | error e => rfl
      | ok st3 =>
        obtain ⟨h3, outputs⟩ := st3
        rfl



theorem filteredEntity_error (m : Matcher) (name : String) (rules : List Filter)
    (e : EntityDiff) (f : Failure) (h : filteredEntity m name rules e = .error f) :
    f = .error := by
  unfold filteredEntity filterEntityDiffs at h
  cases hr : filterRules m name 0 rules (fun _ => e, [(name, 0)]) with
  | error f' =>
    rw [hr] at h
    simp only [Except.error.injEq] at h
    rw [← h]
    exact filterRules_error m name 0 rules _ f' hr
  | ok st =>
    rw [hr] at h
    simp only at h
    cases hg : mget st.2 name with
    | none =>
      rw [hg] at h
      cases h
    | some r =>
      rw [hg] at h
      cases h

theorem kindFails_not_ok (m : Matcher) (rules : List Filter) (changes : List (String × Change))
    (hf : KindFails m rules changes) (hok : KindOk m rules changes) : False := by
  obtain ⟨name, c, hc, he⟩ := hf
  obtain ⟨res, hres⟩ := hok name c hc
  rw [he] at hres
  cases hres

/-- Either `Inspect` fails, and then the filter fails on some entity of the plan taken
on its own, or it returns, and then each collection of the result holds, for every name,
what the rules of its kind leave of the change of that kind. -/
theorem Inspect_kinds (m : Matcher) (p : Plan) (f : InspectFilter) :
    (Inspect m p ⟨some f⟩ = .error .error ∧
      (KindFails m f.ResourceChanges (addressed p.ResourceChanges) ∨
        KindFails m f.DriftChanges (addressed p.ResourceDrift) ∨
        KindFails m f.OutputChanges p.OutputChanges)) ∨
    (∃ out, Inspect m p ⟨some f⟩ = .ok out ∧
      (∀ name, mget out.Diff.Resources name =
        keptEntity m f.ResourceChanges (addressed p.ResourceChanges) name) ∧
      (∀ name, mget out.Diff.ResourceDrifts name =
        keptEntity m f.DriftChanges (addressed p.ResourceDrift) name) ∧
      (∀ name, mget out.Diff.Outputs name =
        keptEntity m f.OutputChanges p.OutputChanges name) ∧
      KindOk m f.ResourceChanges (addressed p.ResourceChanges) ∧
      KindOk m f.DriftChanges (addressed p.ResourceDrift) ∧
      KindOk m f.OutputChanges p.OutputChanges) := by
  rw [Inspect_eq]
  have hbR := builtIn_buildFrom 0 (addressed p.ResourceChanges) (⟨fun _ => [], 0⟩, [])
    (builtIn_nil ⟨fun _ => [], 0⟩) (Nat.le_refl _)
  have l1 := applyCollection_built m f.ResourceChanges (addressed p.ResourceChanges)
    ⟨fun _ => [], 0⟩
  generalize buildFrom (addressed p.ResourceChanges) (⟨fun _ => [], 0⟩, []) = R at hbR l1 ⊢
  have hbD := builtIn_buildFrom R.1.next (addressed p.ResourceDrift) (R.1, [])
    (builtIn_nil R.1) (Nat.le_refl _)
  obtain ⟨_, hleD, hfrD, _⟩ := buildFrom_spec (addressed p.ResourceDrift) (R.1, [])
    (refsBelow_nil R.1)
  have l2 := applyCollection_built m f.DriftChanges (addressed p.ResourceDrift) R.1
  generalize buildFrom (addressed p.ResourceDrift) (R.1, []) = D at hbD hleD hfrD l2 ⊢
  have hbO := builtIn_buildFrom D.1.next p.OutputChanges (D.1, [])
    (builtIn_nil D.1) (Nat.le_refl _)
  obtain ⟨_, hleO, hfrO, _⟩ := buildFrom_spec p.OutputChanges (D.1, []) (refsBelow_nil D.1)
  have l3 := applyCollection_built m f.OutputChanges p.OutputChanges D.1
  generalize buildFrom p.OutputChanges (D.1, []) = O at hbO hleO hfrO l3 ⊢
  simp only at hleD hfrD hleO hfrO
  -- the three collections refer to disjoint ranges of map objects
  have hRD : ∀ x, x ∈ R.2.map Prod.snd → x ∉ D.2.map Prod.snd := by
    intro x hx hx'
    exact Nat.lt_irrefl _ (Nat.lt_of_lt_of_le (hbR.2.2 x hx).2 (hbD.2.2 x hx').1)
  have hRO : ∀ x, x ∈ R.2.map Prod.snd → x ∉ O.2.map Prod.snd := by
    intro x hx hx'
    exact Nat.lt_irrefl _ (Nat.lt_of_lt_of_le (Nat.lt_of_lt_of_le (hbR.2.2 x hx).2 hleD)
      (hbO.2.2 x hx').1)
  have hDO : ∀ x, x ∈ D.2.map Prod.snd → x ∉ O.2.map Prod.snd := by
    intro x hx hx'
    exact Nat.lt_irrefl _ (Nat.lt_of_lt_of_le (hbD.2.2 x hx).2 (hbO.2.2 x hx').1)
  have hheapR : ∀ e, e ∈ R.2 → O.1.heap e.2 = R.1.heap e.2 := by
    intro e he
    have hlt := (hbR.2.2 e.2 (List.mem_map_of_mem Prod.snd he)).2
    rw [hfrO _ (Nat.lt_of_lt_of_le hlt hleD), hfrD _ hlt]
  rcases l1 O.1.heap hheapR with ⟨e, hf, name, c, hc, hspec⟩ | ⟨st1, hf1, ok1, kept1, fr1⟩
  · left
    have he := filteredEntity_error _ _ _ _ _ hspec
    subst he
    rw [hf]
    exact ⟨rfl, Or.inl ⟨name, c, hc, hspec⟩⟩
  · rw [hf1]
    simp only
    have hheapD : ∀ e, e ∈ D.2 → st1.1 e.2 = D.1.heap e.2 := by
      intro e he
      have hin := List.mem_map_of_mem Prod.snd he
      rw [fr1 _ (fun hx => hRD _ hx hin), hfrO _ (hbD.2.2 e.2 hin).2]
    rcases l2 st1.1 hheapD with ⟨e, hf, name, c, hc, hspec⟩ | ⟨st2, hf2, ok2, kept2, fr2⟩
    · left
      have he := filteredEntity_error _ _ _ _ _ hspec
      subst he
      rw [hf]
      exact ⟨rfl, Or.inr (Or.inl ⟨name, c, hc, hspec⟩)⟩
    · rw [hf2]
      simp only
      have hheapO : ∀ e, e ∈ O.2 → st2.1 e.2 = O.1.heap e.2 := by
        intro e he
        have hin := List.mem_map_of_mem Prod.snd he
        rw [fr2 _ (fun hx => hDO _ hx hin), fr1 _ (fun hx => hRO _ hx hin)]
      rcases l3 st2.1 hheapO with ⟨e, hf, name, c, hc, hspec⟩ | ⟨st3, hf3, ok3, kept3, fr3⟩
      · left
        have he := filteredEntity_error _ _ _ _ _ hspec
        subst he
        rw [hf]
        exact ⟨rfl, Or.inr (Or.inr ⟨name, c, hc, hspec⟩)⟩
      · rw [hf3]
        right
        refine ⟨_, rfl, ?_, ?_, ?_, ok1, ok2, ok3⟩
        · apply kept1
          intro x hx
          rw [fr3 _ (hRO _ hx), fr2 _ (hRD _ hx)]
        · apply kept2
          intro x hx
          rw [fr3 _ (hDO _ hx)]
        · apply kept3
          intro x _
          rfl



/-! ## The three kinds are filtered independently: claim C28 -/

/-- C28: when `Inspect` returns, each collection of its result is a function of the
changes and the rules of its own kind alone, `keptEntity` of them at every name; so two
inspections that return and are given the same resource changes and the same
`ResourceChanges` rules report the same Resources, whatever the drifts, the outputs and
the other rules are, and likewise for the ResourceDrifts and for the Outputs. -/
theorem Inspect_kinds_independent (m : Matcher) (p p' : Plan) (f f' : InspectFilter)
    (out out' : InspectOutput)
    (h : Inspect m p ⟨some f⟩ = .ok out) (h' : Inspect m p' ⟨some f'⟩ = .ok out') :
    ((∀ name, mget out.Diff.Resources name =
        keptEntity m f.ResourceChanges (addressed p.ResourceChanges) name) ∧
      (∀ name, mget out.Diff.ResourceDrifts name =
        keptEntity m f.DriftChanges (addressed p.ResourceDrift) name) ∧
      (∀ name, mget out.Diff.Outputs name =
        keptEntity m f.OutputChanges p.OutputChanges name)) ∧
    (p.ResourceChanges = p'.ResourceChanges → f.ResourceChanges = f'.ResourceChanges →
      ∀ name, mget out.Diff.Resources name = mget out'.Diff.Resources name) ∧
    (p.ResourceDrift = p'.ResourceDrift → f.DriftChanges = f'.DriftChanges →
      ∀ name, mget out.Diff.ResourceDrifts name = mget out'.Diff.ResourceDrifts name) ∧
    (p.OutputChanges = p'.OutputChanges → f.OutputChanges = f'.OutputChanges →
      ∀ name, mget out.Diff.Outputs name = mget out'.Diff.Outputs name) := by
  have key : ∀ (q : Plan) (g : InspectFilter) (o : InspectOutput),
      Inspect m q ⟨some g⟩ = .ok o →
      (∀ name, mget o.Diff.Resources name =
        keptEntity m g.ResourceChanges (addressed q.ResourceChanges) name) ∧
      (∀ name, mget o.Diff.ResourceDrifts name =
        keptEntity m g.DriftChanges (addressed q.ResourceDrift) name) ∧
      (∀ name, mget o.Diff.Outputs name =
        keptEntity m g.OutputChanges q.OutputChanges name) := by
    intro q g o ho
    rcases Inspect_kinds m q g with ⟨he, _⟩ | ⟨o', ho', k1, k2, k3, _⟩
    · rw [he] at ho
      cases ho
    · rw [ho'] at ho
      cases ho
      exact ⟨k1, k2, k3⟩
  obtain ⟨a1, a2, a3⟩ := key p f out h
  obtain ⟨b1, b2, b3⟩ := key p' f' out' h'
  refine ⟨⟨a1, a2, a3⟩, ?_, ?_, ?_⟩
  · intro hp hf name
    rw [a1, b1, hp, hf]
  · intro hp hf name
    rw [a2, b2, hp, hf]
  · intro hp hf name
    rw [a3, b3, hp, hf]

/-- Witness of C28: `aws_instance.example` has the same change as a resource change and
as a drift; the drift rules remove the drift and leave the resource change as the
resource rule alone leaves it in a plan with no drift and an output change. -/
theorem Inspect_kinds_independent_witness :
    Inspect globMatcher driftedPlan ⟨some driftFilter⟩ =
      .ok ⟨⟨[("aws_instance.example", [(".instance_type", ⟨"t2.medium", "t2.micro"⟩)])],
        [], []⟩⟩ ∧
    Inspect globMatcher undriftedPlan ⟨some resourceFilter⟩ =
      .ok ⟨⟨[("aws_instance.example", [(".instance_type", ⟨"t2.medium", "t2.micro"⟩)])],
        [("foo-output", [(".", ⟨"this", "that"⟩)])], []⟩⟩ ∧
    (∀ name,
      mget (InspectOutput.mk ⟨[("aws_instance.example",
          [(".instance_type", ⟨"t2.medium", "t2.micro"⟩)])], [], []⟩).Diff.Resources name =
      mget (InspectOutput.mk ⟨[("aws_instance.example",
          [(".instance_type", ⟨"t2.medium", "t2.micro"⟩)])],
        [("foo-output", [(".", ⟨"this", "that"⟩)])], []⟩).Diff.Resources name) ∧
    keptEntity globMatcher amiRules (addressed driftedPlan.ResourceChanges)
      "aws_instance.example" = some [(".instance_type", ⟨"t2.medium", "t2.micro"⟩)] ∧
    keptEntity globMatcher exactRules (addressed driftedPlan.ResourceDrift)
      "aws_instance.example" = none :=
  ⟨by rfl, by rfl,
    (Inspect_kinds_independent globMatcher driftedPlan undriftedPlan driftFilter resourceFilter
      ⟨⟨[("aws_instance.example", [(".instance_type", ⟨"t2.medium", "t2.micro"⟩)])], [], []⟩⟩
      ⟨⟨[("aws_instance.example", [(".instance_type", ⟨"t2.medium", "t2.micro"⟩)])],
        [("foo-output", [(".", ⟨"this", "that"⟩)])], []⟩⟩ (by rfl) (by rfl)).2.1 rfl rfl,
    by rfl, by rfl⟩



/-! ## No partial success: claim C29 -/

theorem filteredEntity_ok (m : Matcher) (hm : ∀ pattern s, m pattern s ≠ none)
    (name : String) (rules : List Filter) (e : EntityDiff) :
    ∃ res, filteredEntity m name rules e = .ok res := by
  obtain ⟨st, hst⟩ := filterRules_ok m hm name 0 rules (fun _ => e, [(name, 0)])
  unfold filteredEntity filterEntityDiffs
  rw [hst]
  simp only
  cases mget st.2 name with
  | none => exact ⟨_, rfl⟩
  | some r => exact ⟨_, rfl⟩

/-- C29: with a filter, `Inspect` either returns an error and no output or returns an
output and no error.  It returns the error exactly when the filter, run on some entity
of the plan on its own, fails, and an output exactly when it fails on none; it returns
an output whenever no pattern match can fail.  Within the filter each match that fails
ends the loop it is in with the error: the match of a rule's name pattern, of a path
pattern, and of a before or an after pattern. -/
theorem Inspect_no_partial_success (m : Matcher) (p : Plan) (f : InspectFilter) :
    (Inspect m p ⟨some f⟩ = .error .error ∨ ∃ out, Inspect m p ⟨some f⟩ = .ok out) ∧
    (Inspect m p ⟨some f⟩ = .error .error ↔
      (KindFails m f.ResourceChanges (addressed p.ResourceChanges) ∨
        KindFails m f.DriftChanges (addressed p.ResourceDrift) ∨
        KindFails m f.OutputChanges p.OutputChanges)) ∧
    ((∃ out, Inspect m p ⟨some f⟩ = .ok out) ↔
      (KindOk m f.ResourceChanges (addressed p.ResourceChanges) ∧
        KindOk m f.DriftChanges (addressed p.ResourceDrift) ∧
        KindOk m f.OutputChanges p.OutputChanges)) ∧
    ((∀ pattern s, m pattern s ≠ none) → ∃ out, Inspect m p ⟨some f⟩ = .ok out) ∧
    (∀ address entityDiff rule rest st, m rule.NamePattern address = none →
      filterRules m address entityDiff (rule :: rest) st = .error .error) ∧
    (∀ address path diff pathPattern diffPatterns rest st, m pathPattern path = none →
      filterPathPatterns m address path diff ((pathPattern, diffPatterns) :: rest) st =
        .error .error) ∧
    (∀ address path diff diffPattern rest st,
      (m diffPattern.Before diff.Before = none ∨ m diffPattern.After diff.After = none) →
      filterDiffPatterns m address path diff (diffPattern :: rest) st = .error .error) := by
  have hk := Inspect_kinds m p f
  have hno : ∀ (fails : KindFails m f.ResourceChanges (addressed p.ResourceChanges) ∨
        KindFails m f.DriftChanges (addressed p.ResourceDrift) ∨
        KindFails m f.OutputChanges p.OutputChanges)
      (ok1 : KindOk m f.ResourceChanges (addressed p.ResourceChanges))
      (ok2 : KindOk m f.DriftChanges (addressed p.ResourceDrift))
      (ok3 : KindOk m f.OutputChanges p.OutputChanges), False := by
    intro fails ok1 ok2 ok3
    rcases fails with h | h | h
    · exact kindFails_not_ok _ _ _ h ok1
    · exact kindFails_not_ok _ _ _ h ok2
    · exact kindFails_not_ok _ _ _ h ok3
  have hok : (KindOk m f.ResourceChanges (addressed p.ResourceChanges) ∧
        KindOk m f.DriftChanges (addressed p.ResourceDrift) ∧
        KindOk m f.OutputChanges p.OutputChanges) → ∃ out, Inspect m p ⟨some f⟩ = .ok out := by
    intro h
    rcases hk with ⟨_, hf⟩ | ⟨out, ho, _⟩
    · exact (hno hf h.1 h.2.1 h.2.2).elim
    · exact ⟨out, ho⟩
  refine ⟨?_, ?_, ?_, ?_, ?_, ?_, ?_⟩
  · rcases hk with ⟨he, _⟩ | ⟨out, ho, _⟩
    · exact Or.inl he
    · exact Or.inr ⟨out, ho⟩
  · constructor
    · intro he
      rcases hk with ⟨_, hf⟩ | ⟨out, ho, _⟩
      · exact hf
      · rw [ho] at he
        cases he
    · intro hf
      rcases hk with ⟨he, _⟩ | ⟨out, _, _, _, _, ok1, ok2, ok3⟩
      · exact he
      · exact (hno hf ok1 ok2 ok3).elim
  · constructor
    · rintro ⟨out, ho⟩
      rcases hk with ⟨he, _⟩ | ⟨_, _, _, _, _, ok1, ok2, ok3⟩
      · rw [ho] at he
        cases he
      · exact ⟨ok1, ok2, ok3⟩
    · exact hok
  · intro hm
    exact hok ⟨fun name c _ => filteredEntity_ok m hm name _ _,
      fun name c _ => filteredEntity_ok m hm name _ _,
      fun name c _ => filteredEntity_ok m hm name _ _⟩
  · intro address entityDiff rule rest st h
    simp [filterRules, h]
  · intro address path diff pathPattern diffPatterns rest st h
    simp [filterPathPatterns, h]
  · intro address path diff diffPattern rest st h
    unfold filterDiffPatterns
    rcases h with h | h
    · simp [h]
    · rw [h]
      cases m diffPattern.Before diff.Before <;> rfl

/-- Witness of C29: the instance plan with a rule whose path pattern the matcher
rejects fails with an error, and returns with the glob matcher, which never fails. -/
theorem Inspect_no_partial_success_witness :
    Inspect brittleMatcher instancePlan ⟨some ⟨[], [malformedRule], []⟩⟩ = .error .error ∧
    (KindFails brittleMatcher [malformedRule] (addressed instancePlan.ResourceChanges) ∨
      KindFails brittleMatcher [] (addressed instancePlan.ResourceDrift) ∨
      KindFails brittleMatcher [] instancePlan.OutputChanges) ∧
    ∃ out, Inspect globMatcher instancePlan ⟨some ⟨[], [malformedRule], []⟩⟩ = .ok out :=
  ⟨by rfl,
    (Inspect_no_partial_success brittleMatcher instancePlan ⟨[], [malformedRule], []⟩).2.1.1
      (by rfl),
    (Inspect_no_partial_success globMatcher instancePlan ⟨[], [malformedRule], []⟩).2.2.2.1
      (fun _ _ => by simp [globMatcher])⟩



/-! ## The emptiness predicates: claims C31 and C32 -/

theorem length_beq_zero {α : Type} (l : List α) : (l.length == 0) = true ↔ l = [] := by
  cases l <;> simp

/-- C31: `IsEmpty` of an `InspectOutput` is true if and only if its Resources, its
ResourceDrifts and its Outputs are all empty. -/
theorem InspectOutput_IsEmpty_iff (i : InspectOutput) :
    i.IsEmpty = true ↔
      i.Diff.Resources = [] ∧ i.Diff.ResourceDrifts = [] ∧ i.Diff.Outputs = [] := by
  unfold InspectOutput.IsEmpty
  rw [Bool.and_eq_true, Bool.and_eq_true, length_beq_zero, length_beq_zero, length_beq_zero]
  constructor
  · rintro ⟨⟨h1, h2⟩, h3⟩
    exact ⟨h3, h2, h1⟩
  · rintro ⟨h3, h2, h1⟩
    exact ⟨⟨h1, h2⟩, h3⟩

/-- C32: `IsEmpty` of a `CompareInspectsOutput` is true if and only if its Outputs and
its ResourceDrifts are empty, and it does not depend on Resources: the answer is the
same with any other Resources collection in its place. -/
theorem CompareInspectsOutput_IsEmpty_iff (c : CompareInspectsOutput) :
    (c.IsEmpty = true ↔ c.Diff.Outputs = [] ∧ c.Diff.ResourceDrifts = []) ∧
    ∀ resources : List (String × CompareEntityDiff),
      CompareInspectsOutput.IsEmpty ⟨⟨resources, c.Diff.Outputs, c.Diff.ResourceDrifts⟩⟩ =
        c.IsEmpty := by
  constructor
  · unfold CompareInspectsOutput.IsEmpty
    rw [Bool.and_eq_true, Bool.and_eq_true, length_beq_zero, length_beq_zero]
    constructor
    · rintro ⟨⟨h1, h2⟩, _⟩
      exact ⟨h1, h2⟩
    · rintro ⟨h1, h2⟩
      exact ⟨⟨h1, h2⟩, h2⟩
  · intro resources
    rfl

/-! ## Padding: claim C33 -/

theorem fillFrom_eq (n : Nat) : ∀ (d i : Int) (spacer : String), (d + 1 - i).toNat = n →
    fillFrom d i spacer = spacer ++ String.mk (List.replicate n ' ') := by
  induction n with
  | zero =>
    intro d i spacer h
    rw [fillFrom]
    have hlt : ¬ i ≤ d := by omega
    simp only [hlt, if_false, List.replicate_zero]
    apply String.ext
    simp
  | succ n ih =>
    intro d i spacer h
    rw [fillFrom]
    have hle : i ≤ d := by omega
    simp only [hle, if_true]
    rw [ih d (i + 1) (spacer ++ " ") (by omega)]
    apply String.ext
    simp [List.replicate_succ]

theorem utf8ByteSize_spaces (n : Nat) :
    (String.mk (List.replicate n ' ')).utf8ByteSize = n := by
  induction n with
  | zero => rfl
  | succ n ih =>
    simp only [String.utf8ByteSize_mk, List.replicate_succ, String.utf8Len_cons] at ih ⊢
    rw [ih]
    rfl

theorem utf8ByteSize_append (s t : String) :
    (s ++ t).utf8ByteSize = s.utf8ByteSize + t.utf8ByteSize := by
  obtain ⟨a⟩ := s
  obtain ⟨b⟩ := t
  change String.utf8ByteSize ⟨a ++ b⟩ = _
  simp only [String.utf8ByteSize_mk, String.utf8Len_append]

theorem FillWithSpaces_eq (s : String) (l : Int) :
    FillWithSpaces s l =
      String.mk (List.replicate (l - (s.utf8ByteSize : Int) + 1).toNat ' ') := by
  unfold FillWithSpaces
  rw [fillFrom_eq (l - (s.utf8ByteSize : Int) + 1).toNat _ 0 "" (by simp)]
  apply String.ext
  simp

/-- C33 as stated fails: for `s = "ab"` and `l = 2`, where `len(s) <= l`, the loop runs
for `i = 0` and returns one space, so `s` followed by the result has length 3. -/
theorem FillWithSpaces_counterexample :
    (("ab".utf8ByteSize : Int) ≤ 2) ∧ FillWithSpaces "ab" 2 = " " ∧
    ("ab" ++ FillWithSpaces "ab" 2).utf8ByteSize = 3 := by
  have h : FillWithSpaces "ab" 2 = " " := by
    rw [FillWithSpaces_eq]
    decide
  refine ⟨by decide, h, ?_⟩
  rw [h]
  decide

/-- C33 amended: for every string `s` and length `l` with `len(s) <= l`,
`FillWithSpaces(s, l)` consists of `l - len(s) + 1` spaces and of nothing else, so that
`s` followed by it has length `l + 1`: one space more than what fills `s` up to `l`. -/
theorem FillWithSpaces_length (s : String) (l : Int) (h : (s.utf8ByteSize : Int) ≤ l) :
    FillWithSpaces s l =
      String.mk (List.replicate (l - (s.utf8ByteSize : Int) + 1).toNat ' ') ∧
    ((FillWithSpaces s l).utf8ByteSize : Int) = l - (s.utf8ByteSize : Int) + 1 ∧
    (((s ++ FillWithSpaces s l).utf8ByteSize : Nat) : Int) = l + 1 := by
  have he := FillWithSpaces_eq s l
  have hn : ((FillWithSpaces s l).utf8ByteSize : Int) = l - (s.utf8ByteSize : Int) + 1 := by
    rw [he, utf8ByteSize_spaces]
    omega
  refine ⟨he, hn, ?_⟩
  rw [utf8ByteSize_append]
  push_cast
  omega

/-- Witness of C33 amended: the widest path of the test `simple` is followed by one
space, as the expected line `.instance_type: t2.medium` of that test has it. -/
theorem FillWithSpaces_length_witness :
    ((".instance_type".utf8ByteSize : Int) ≤ 14) ∧
    FillWithSpaces ".instance_type" 14 = " " ∧
    (((".instance_type" ++ FillWithSpaces ".instance_type" 14).utf8ByteSize : Nat) : Int) =
      14 + 1 :=
  ⟨by decide,
    (FillWithSpaces_length ".instance_type" 14 (by decide)).1.trans (by decide),
    (FillWithSpaces_length ".instance_type" 14 (by decide)).2.2⟩



/-! ## The `(empty)` sentinel: claim C34 -/

/-- C34 as stated fails: when the after value of `.a` is the text `(empty)` itself, the
diff has `After` equal to `(empty)` at `.a`, a path that the after flat map holds. -/
theorem parseChange_empty_counterexample :
    parseChange ⟨.obj [("a", .str "x")], .obj [("a", .str "(empty)")], .bool false,
      .bool false, .bool false⟩ = [(".a", ⟨"x", "(empty)"⟩)] ∧
    mget (overlaidAfter ⟨.obj [("a", .str "x")], .obj [("a", .str "(empty)")], .bool false,
      .bool false, .bool false⟩) ".a" = some "(empty)" := by
  decide

/-- C34 amended: in every diff emitted by `parseChange`, a side holds the value that
the overlaid flat map of that side has at the path, and `(empty)` when the path is absent
from it; so an `After` equal to `(empty)` occurs only for a path that is absent from the
overlaid after flat map or whose value there is the text `(empty)` itself, likewise for
`Before`, and an explicit empty string is reported as the empty string. -/
theorem parseChange_empty (chng : Change) (p : String) (d : Diff)
    (h : mget (parseChange chng) p = some d) :
    (d.After = "(empty)" →
      mget (overlaidAfter chng) p = none ∨ mget (overlaidAfter chng) p = some "(empty)") ∧
    (d.Before = "(empty)" →
      mget (overlaidBefore chng) p = none ∨ mget (overlaidBefore chng) p = some "(empty)") ∧
    (mget (overlaidAfter chng) p = none → d.After = "(empty)") ∧
    (mget (overlaidBefore chng) p = none → d.Before = "(empty)") ∧
    (∀ v, mget (overlaidAfter chng) p = some v → d.After = v) ∧
    (∀ v, mget (overlaidBefore chng) p = some v → d.Before = v) ∧
    (mget (overlaidAfter chng) p = some "" → d.After = "") ∧
    (mget (overlaidBefore chng) p = some "" → d.Before = "") := by
  rw [mget_parseChange] at h
  cases hb : mget (overlaidBefore chng) p with
  | none =>
    cases ha : mget (overlaidAfter chng) p with
    | none =>
      rw [hb, ha] at h
      cases h
    | some a =>
      rw [hb, ha] at h
      simp only [Option.some.injEq] at h
      subst h
      simp
  | some b =>
    cases ha : mget (overlaidAfter chng) p with
    | none =>
      rw [hb, ha] at h
      simp only [Option.some.injEq] at h
      subst h
      simp
    | some a =>
      rw [hb, ha] at h
      simp only at h
      split at h
      · simp only [Option.some.injEq] at h
        subst h
        simp
      · cases h

/-- Witness of C34 amended: in the bucket change `.acl` is absent from after and `.baz`
from before, and an after value that is the empty string is reported as such. -/
theorem parseChange_empty_witness :
    mget (parseChange bucketChange) ".acl" = some ⟨"private", "(empty)"⟩ ∧
    mget (overlaidAfter bucketChange) ".acl" = none ∧
    mget (parseChange bucketChange) ".baz" = some ⟨"(empty)", "box"⟩ ∧
    mget (overlaidBefore bucketChange) ".baz" = none ∧
    parseChange ⟨.obj [("a", .str "x")], .obj [("a", .str "")], .bool false, .bool false,
      .bool false⟩ = [(".a", ⟨"x", ""⟩)] ∧
    ((⟨"private", "(empty)"⟩ : Diff).After = "(empty)" →
      mget (overlaidAfter bucketChange) ".acl" = none ∨
        mget (overlaidAfter bucketChange) ".acl" = some "(empty)") :=
  ⟨by decide, by decide, by decide, by decide, by decide,
    (parseChange_empty bucketChange ".acl" ⟨"private", "(empty)"⟩ (by decide)).1⟩



/-! ## Empty comparisons: claim C35 -/

theorem getEntityDiffDivergence_eq_nil_iff (a b : Collection) (ha : a.WF) (hb : b.WF) :
    getEntityDiffDivergence a b = [] ↔
      ∀ address, (mget a address).isSome = (mget b address).isSome ∧
        ∀ path, attrAt a address path = attrAt b address path := by
  have key : ∀ address, mget (getEntityDiffDivergence a b) address = none ↔
      ((mget a address).isSome = (mget b address).isSome ∧
        ∀ path, attrAt a address path = attrAt b address path) := by
    intro address
    have h := isSome_getEntityDiffDivergence a b ha hb address
    have hn : mget (getEntityDiffDivergence a b) address = none ↔
        ¬ Diverges (mget a address) (mget b address) := by
      rw [← h]
      cases mget (getEntityDiffDivergence a b) address <;> simp
    rw [hn]
    unfold attrAt
    cases hA : mget a address with
    | none =>
      cases hB : mget b address with
      | none => simp [Diverges]
      | some bEnt => simp [Diverges]
    | some aEnt =>
      cases hB : mget b address with
      | none => simp [Diverges]
      | some bEnt => simp [Diverges]
  constructor
  · intro h address
    apply (key address).1
    rw [h]
    rfl
  · intro h
    apply eq_nil_of_mget_none
    intro address
    exact (key address).2 (h address)

/-- C35: for inspection results whose maps bind each key once, all three collections of
`CompareInspects(a, b)` are empty if and only if `a` and `b` have, in each of
Resources, Outputs and ResourceDrifts, the same addresses and at every address the same
`Diff` (or none) at every path. -/
theorem CompareInspects_empty_iff (a b : InspectOutput) (ha : a.WF) (hb : b.WF) :
    ((CompareInspects a b).Diff.Resources = [] ∧ (CompareInspects a b).Diff.Outputs = [] ∧
      (CompareInspects a b).Diff.ResourceDrifts = []) ↔
    ∀ kind address,
      (mget (a.collection kind) address).isSome = (mget (b.collection kind) address).isSome ∧
      ∀ path, attrAt (a.collection kind) address path =
        attrAt (b.collection kind) address path := by
  have hk : ∀ kind, (CompareInspects a b).collection kind = [] ↔
      ∀ address,
        (mget (a.collection kind) address).isSome =
          (mget (b.collection kind) address).isSome ∧
        ∀ path, attrAt (a.collection kind) address path =
          attrAt (b.collection kind) address path := by
    intro kind
    rw [collection_CompareInspects]
    exact getEntityDiffDivergence_eq_nil_iff _ _ (wf_collection a ha kind)
      (wf_collection b hb kind)
  constructor
  · rintro ⟨h1, h2, h3⟩ kind
    cases kind
    · exact (hk .resources).1 h1
    · exact (hk .outputs).1 h2
    · exact (hk .resourceDrifts).1 h3
  · intro h
    exact ⟨(hk .resources).2 (h .resources), (hk .outputs).2 (h .outputs),
      (hk .resourceDrifts).2 (h .resourceDrifts)⟩

/-- Witness of C35: `inspectA` and `inspectB` differ at `aws_instance.foo`, and their
comparison has a non-empty Resources collection. -/
theorem CompareInspects_empty_iff_witness :
    inspectA.WF ∧ inspectB.WF ∧
    attrAt (inspectA.collection .resources) "aws_instance.foo" ".ami" ≠
      attrAt (inspectB.collection .resources) "aws_instance.foo" ".ami" ∧
    ¬ ((CompareInspects inspectA inspectB).Diff.Resources = [] ∧
      (CompareInspects inspectA inspectB).Diff.Outputs = [] ∧
      (CompareInspects inspectA inspectB).Diff.ResourceDrifts = []) :=
  ⟨by decide, by decide, by decide,
    fun h => absurd
      (((CompareInspects_empty_iff inspectA inspectB (by decide) (by decide)).1 h
        .resources "aws_instance.foo").2 ".ami") (by decide)⟩

/-! ## Both sides of an entry have the same paths: claim C36 -/

theorem isSome_reportedAt (ea eb : Option EntityDiff) (p : String) :
    (reportedAt ea eb p).isSome = (reportedAt eb ea p).isSome := by
  unfold reportedAt
  cases ea with
  | none =>
    cases eb with
    | none => rfl
    | some e => cases hp : mget e p <;> simp [hp]
  | some e =>
    cases eb with
    | none => cases hp : mget e p <;> simp [hp]
    | some e' =>
      cases hp : mget e p with
      | none => cases hq : mget e' p <;> simp [hp, hq]
      | some d =>
        cases hq : mget e' p with
        | none => simp [hp, hq]
        | some d' =>
          simp only [hp, hq]
          by_cases hd : d = d'
          · simp [hd]
          · have hd' : ¬ d' = d := fun hh => hd hh.symm
            simp [hd, hd']

theorem le_foldl_maxWidth (m : EntityDiff) (w : Nat) :
    w ≤ m.foldl (fun w pd => if pd.1.utf8ByteSize > w then pd.1.utf8ByteSize else w) w ∧
    ∀ p, p ∈ m.map Prod.fst → p.utf8ByteSize ≤
      m.foldl (fun w pd => if pd.1.utf8ByteSize > w then pd.1.utf8ByteSize else w) w := by
  induction m generalizing w with
  | nil => exact ⟨Nat.le_refl _, fun p hp => by simp at hp⟩
  | cons e t ih =>
    simp only [List.foldl_cons, List.map_cons, List.mem_cons]
    obtain ⟨h1, h2⟩ := ih (if e.1.utf8ByteSize > w then e.1.utf8ByteSize else w)
    have hw : w ≤ (if e.1.utf8ByteSize > w then e.1.utf8ByteSize else w) := by
      split
      · omega
      · exact Nat.le_refl _
    have he : e.1.utf8ByteSize ≤ (if e.1.utf8ByteSize > w then e.1.utf8ByteSize else w) := by
      split
      · exact Nat.le_refl _
      · omega
    refine ⟨Nat.le_trans hw h1, ?_⟩
    intro p hp
    rcases hp with hp | hp
    · rw [hp]
      exact Nat.le_trans he h1
    · exact h2 p hp

theorem mem_keys_iff_isSome {β : Type} (m : List (String × β)) (k : String) :
    k ∈ m.map Prod.fst ↔ (mget m k).isSome = true := by
  have h := mget_eq_none_iff m k
  cases hg : mget m k with
  | none =>
    rw [hg] at h
    simp only [Option.isSome_none, Bool.false_eq_true, iff_false]
    exact h.1 rfl
  | some v =>
    rw [hg] at h
    simp only [Option.isSome_some, iff_true]
    by_contra hc
    have := h.2 hc
    cases this

/-- C36: in every entry of `getEntityDiffDivergence`, for collections whose maps bind
each key once, `PlanA` and `PlanB` have the same set of paths; so the width that
`Pretty` computes from the paths of `PlanA` is at least the length of every path of
`PlanB`. -/
theorem getEntityDiffDivergence_same_paths (a b : Collection) (ha : a.WF) (hb : b.WF)
    (entry : String × CompareEntityDiff) (h : entry ∈ getEntityDiffDivergence a b) :
    (∀ p, (mget entry.2.PlanA p).isSome = (mget entry.2.PlanB p).isSome) ∧
    (∀ p, p ∈ entry.2.PlanA.map Prod.fst ↔ p ∈ entry.2.PlanB.map Prod.fst) ∧
    (∀ p, p ∈ entry.2.PlanB.map Prod.fst → p.utf8ByteSize ≤ maxWidth entry.2.PlanA) := by
  obtain ⟨address, ce⟩ := entry
  have hg := mget_of_mem _ address ce (keysNodup_getEntityDiffDivergence a b) h
  have hs := sides_getEntityDiffDivergence a b ha hb address ce hg
  have h1 : ∀ p, (mget ce.PlanA p).isSome = (mget ce.PlanB p).isSome := by
    intro p
    rw [(hs p).1, (hs p).2]
    exact isSome_reportedAt _ _ p
  have h2 : ∀ p, p ∈ ce.PlanA.map Prod.fst ↔ p ∈ ce.PlanB.map Prod.fst := by
    intro p
    rw [mem_keys_iff_isSome, mem_keys_iff_isSome, h1 p]
  exact ⟨h1, h2, fun p hp => (le_foldl_maxWidth ce.PlanA 0).2 p ((h2 p).2 hp)⟩

/-- Witness of C36: one plan changes `.x` of `r` and the other `.name`; the entry of `r`
has both paths on both sides, the missing ones as the `(empty)` mirror. -/
theorem getEntityDiffDivergence_same_paths_witness :
    Collection.WF [("r", [(".x", ⟨"1", "2"⟩)])] ∧
    Collection.WF [("r", [(".name", ⟨"3", "4"⟩)])] ∧
    getEntityDiffDivergence [("r", [(".x", ⟨"1", "2"⟩)])] [("r", [(".name", ⟨"3", "4"⟩)])] =
      [("r", ⟨[(".x", ⟨"1", "2"⟩), (".name", emptyDiff)],
        [(".x", emptyDiff), (".name", ⟨"3", "4"⟩)]⟩)] ∧
    maxWidth [(".x", ⟨"1", "2"⟩), (".name", emptyDiff)] = 5 ∧
    (∀ p, p ∈ [".x", ".name"] → p.utf8ByteSize ≤ 5) :=
  ⟨by decide, by decide, by rfl, by decide,
    (getEntityDiffDivergence_same_paths [("r", [(".x", ⟨"1", "2"⟩)])]
      [("r", [(".name", ⟨"3", "4"⟩)])] (by decide) (by decide)
      ("r", ⟨[(".x", ⟨"1", "2"⟩), (".name", emptyDiff)],
        [(".x", emptyDiff), (".name", ⟨"3", "4"⟩)]⟩)
      (List.mem_singleton_self _)).2.2⟩



/-! ## Empty containers: claim C40 -/

theorem flatten_hollow (t : Value) (h : isHollow t = true) (path : String)
    (out : List (String × String)) : flatten path t out = out := by
  cases t with
  | null => rw [flatten]
  | obj kvs =>
    cases kvs with
    | nil => rw [flatten, flattenFields]
    | cons e rest => simp [isHollow] at h
  | list xs =>
    cases xs with
    | nil => rw [flatten, flattenElems]
    | cons e rest => simp [isHollow] at h
  | strs ss => simp [isHollow] at h
  | bool b => simp [isHollow] at h
  | num n => simp [isHollow] at h
  | str s => simp [isHollow] at h

theorem flatten_padded (t t' : Value) (h : Padded t t') :
    ∀ (path : String) (out : List (String × String)),
      flatten path t' out = flatten path t out :=
  @Padded.rec
    (fun t t' _ => ∀ (path : String) (out : List (String × String)),
      flatten path t' out = flatten path t out)
    (fun kvs kvs' _ => ∀ (path : String) (out : List (String × String)),
      flattenFields path kvs' out = flattenFields path kvs out)
    (fun xs xs' _ => ∀ (path : String) (i : Nat) (out : List (String × String)),
      flattenElems path i xs' out = flattenElems path i xs out)
    (fun _ _ _ => rfl)
    (fun t t' h h' path out => by rw [flatten_hollow t h, flatten_hollow t' h'])
    (fun kvs kvs' _ ih path out => by
      rw [flatten, flatten]
      exact ih (path ++ ".") out)
    (fun xs xs' _ ih path out => by
      rw [flatten, flatten]
      exact ih (path ++ ".") 0 out)
    (fun _ _ _ _ _ ih1 ih2 path out => by rw [ih2 path out, ih1 path out])
    (fun _ _ => rfl)
    (fun k v v' rest rest' _ _ ihv ihr path out => by
      rw [flattenFields, flattenFields, ihv (path ++ k) out]
      exact ihr path _)
    (fun k v rest rest' h _ ihr path out => by
      rw [flattenFields, flatten_hollow v h]
      exact ihr path out)
    (fun k v rest rest' h _ ihr path out => by
      rw [flattenFields, flatten_hollow v h]
      exact ihr path out)
    (fun _ _ _ => rfl)
    (fun x x' rest rest' _ _ ihx ihr path i out => by
      rw [flattenElems, flattenElems, ihx _ out]
      exact ihr path (i + 1) _)
    t t' h

/-- C40: `flatten` writes no entry for an empty map or an empty sequence of mixed
elements, at any path; so when the before and after trees of a change are replaced by
trees that differ from them only in hollow values (null, an empty map, an empty
sequence, or a key bound to one of these in one map and missing in the other), each
flattens to the same flat map and `parseChange` returns the same diff. -/
theorem parseChange_hollow (chng : Change) (before' after' : Value)
    (hb : Padded chng.Before before') (ha : Padded chng.After after') :
    (∀ path out, flatten path (.obj []) out = out ∧ flatten path (.list []) out = out) ∧
    (∀ path out, flatten path before' out = flatten path chng.Before out) ∧
    (∀ path out, flatten path after' out = flatten path chng.After out) ∧
    parseChange ⟨before', after', chng.AfterUnknown, chng.BeforeSensitive,
      chng.AfterSensitive⟩ = parseChange chng := by
  refine ⟨fun path out => ⟨flatten_hollow (.obj []) rfl path out,
      flatten_hollow (.list []) rfl path out⟩,
    flatten_padded _ _ hb, flatten_padded _ _ ha, ?_⟩
  unfold parseChange overlaidBefore overlaidAfter
  simp only [flatten_padded _ _ hb, flatten_padded _ _ ha]

/-- Witness of C40: before has `tags` as an empty map and after as null; the diff is
empty, as it is when before has no `tags` key and after has an empty sequence there. -/
theorem parseChange_hollow_witness :
    parseChange emptyTagsChange = [] ∧
    parseChange ⟨.obj [("name", .str "web")],
      .obj [("name", .str "web"), ("tags", .list [])], .bool false, .bool false,
      .bool false⟩ = parseChange emptyTagsChange ∧
    parseChange ⟨.obj [("tags", .obj [])], .obj [("tags", .null)], .bool false, .bool false,
      .bool false⟩ = [] :=
  ⟨by decide,
    (parseChange_hollow emptyTagsChange (.obj [("name", .str "web")])
      (.obj [("name", .str "web"), ("tags", .list [])])
      (Padded.obj _ _ (PaddedFields.cons _ _ _ _ _ (Padded.same _)
        (PaddedFields.dropLeft _ _ _ _ rfl PaddedFields.nil)))
      (Padded.obj _ _ (PaddedFields.cons _ _ _ _ _ (Padded.same _)
        (PaddedFields.cons _ _ _ _ _ (Padded.hollow _ _ rfl rfl) PaddedFields.nil)))).2.2.2,
    by decide⟩



/-! ## Redaction does not depend on the value: claim C38 -/

theorem flattenElems_append (path : String) (i : Nat) (l1 l2 : List Value)
    (out : List (String × String)) :
    flattenElems path i (l1 ++ l2) out =
      flattenElems path (i + l1.length) l2 (flattenElems path i l1 out) := by
  induction l1 generalizing i out with
  | nil => rfl
  | cons e t ih =>
    rw [List.cons_append, flattenElems, flattenElems, ih, List.length_cons]
    have hi : i + 1 + t.length = i + (t.length + 1) := by omega
    rw [hi]

theorem mget_flatten_leaf (v : Value) (hv : isLeafValue v = true) (path q : String)
    (hq : q ≠ leafPath path) (out : List (String × String)) :
    mget (flatten path v out) q = mget out q := by
  have hne : leafPath path ≠ q := fun hh => hq hh.symm
  cases v with
  | null => rw [flatten]
  | bool b => rw [flatten, mget_mset_ne _ _ _ _ hne]
  | num n => rw [flatten, mget_mset_ne _ _ _ _ hne]
  | str s => rw [flatten, mget_mset_ne _ _ _ _ hne]
  | obj kvs => simp [isLeafValue] at hv
  | list xs => simp [isLeafValue] at hv
  | strs ss => simp [isLeafValue] at hv

/-- Replacing a leaf changes the flat map at the key of that leaf only. -/
theorem mget_flatten_leafSwap (path : String) (t t' : Value) (p : String)
    (h : LeafSwap path t t' p) :
    ∀ q, q ≠ p → ∀ out : List (String × String),
      mget (flatten path t' out) q = mget (flatten path t out) q := by
  induction h with
  | leaf path v v' hv hv' =>
    intro q hq out
    rw [mget_flatten_leaf v hv path q hq, mget_flatten_leaf v' hv' path q hq]
  | field path pre k v v' post p _ ih =>
    intro q hq out
    rw [flatten, flatten, flattenFields_append, flattenFields_append, flattenFields,
      flattenFields]
    rw [mget_flattenFields (path ++ ".") post
        (flatten (path ++ "." ++ k) v' (flattenFields (path ++ ".") pre out)) q,
      mget_flattenFields (path ++ ".") post
        (flatten (path ++ "." ++ k) v (flattenFields (path ++ ".") pre out)) q,
      ih q hq]
  | elem path pre x x' post p _ ih =>
    intro q hq out
    rw [flatten, flatten, flattenElems_append, flattenElems_append, flattenElems,
      flattenElems, Nat.zero_add]
    rw [mget_flattenElems (path ++ ".") (pre.length + 1) post
        (flatten (path ++ "." ++ "[" ++ toString pre.length ++ "]") x'
          (flattenElems (path ++ ".") 0 pre out)) q,
      mget_flattenElems (path ++ ".") (pre.length + 1) post
        (flatten (path ++ "." ++ "[" ++ toString pre.length ++ "]") x
          (flattenElems (path ++ ".") 0 pre out)) q,
      ih q hq]

theorem mget_overlaidAfter (chng : Change) (q : String) :
    mget (overlaidAfter chng) q =
      if (q, "true") ∈ flattenOverlay chng.AfterSensitive then some "(sensitive value)"
      else if (q, "true") ∈ flattenOverlay chng.AfterUnknown then some "(known after apply)"
      else mget (flatten "" chng.After []) q := by
  unfold overlaidAfter
  rw [mget_overlay, mget_overlay]

theorem mget_overlaidBefore (chng : Change) (q : String) :
    mget (overlaidBefore chng) q =
      if (q, "true") ∈ flattenOverlay chng.BeforeSensitive then some "(sensitive value)"
      else mget (flatten "" chng.Before []) q := by
  unfold overlaidBefore
  rw [mget_overlay]

/-- C38: for a path `p` that `afterSensitive` marks true and at which `after` holds a
scalar or null, replacing that value by any other scalar or null leaves the result of
`parseChange` unchanged, at `p` and at every other path; and likewise for a path that
`beforeSensitive` marks true and the value `before` holds there. -/
theorem parseChange_redaction (chng : Change) (p : String) (replaced : Value) :
    (LeafSwap "" chng.After replaced p → MarkedTrue chng.AfterSensitive p →
      ∀ q, mget (parseChange ⟨chng.Before, replaced, chng.AfterUnknown, chng.BeforeSensitive,
        chng.AfterSensitive⟩) q = mget (parseChange chng) q) ∧
    (LeafSwap "" chng.Before replaced p → MarkedTrue chng.BeforeSensitive p →
      ∀ q, mget (parseChange ⟨replaced, chng.After, chng.AfterUnknown, chng.BeforeSensitive,
        chng.AfterSensitive⟩) q = mget (parseChange chng) q) := by
  constructor
  · intro hswap hs q
    have hoff := mget_flatten_leafSwap "" _ _ p hswap
    have hmem : (p, "true") ∈ flattenOverlay chng.AfterSensitive := mem_of_mget _ _ _ hs
    have hA : mget (overlaidAfter ⟨chng.Before, replaced, chng.AfterUnknown,
        chng.BeforeSensitive, chng.AfterSensitive⟩) q = mget (overlaidAfter chng) q := by
      rw [mget_overlaidAfter, mget_overlaidAfter]
      by_cases hq : q = p
      · subst hq
        simp only [hmem, if_true]
      · simp only [hoff q hq []]
    have hB : overlaidBefore ⟨chng.Before, replaced, chng.AfterUnknown,
        chng.BeforeSensitive, chng.AfterSensitive⟩ = overlaidBefore chng := rfl
    rw [mget_parseChange, mget_parseChange, hA, hB]
  · intro hswap hs q
    have hoff := mget_flatten_leafSwap "" _ _ p hswap
    have hmem : (p, "true") ∈ flattenOverlay chng.BeforeSensitive := mem_of_mget _ _ _ hs
    have hB : mget (overlaidBefore ⟨replaced, chng.After, chng.AfterUnknown,
        chng.BeforeSensitive, chng.AfterSensitive⟩) q = mget (overlaidBefore chng) q := by
      rw [mget_overlaidBefore, mget_overlaidBefore]
      by_cases hq : q = p
      · subst hq
        simp only [hmem, if_true]
      · simp only [hoff q hq []]
    have hA : overlaidAfter ⟨replaced, chng.After, chng.AfterUnknown,
        chng.BeforeSensitive, chng.AfterSensitive⟩ = overlaidAfter chng := rfl
    rw [mget_parseChange, mget_parseChange, hA, hB]

/-- Witness of C38: the after password is sensitive; with any other password in its
place, and with null, the diff is the same, and it does not hold the password. -/
theorem parseChange_redaction_witness :
    MarkedTrue passwordChange.AfterSensitive ".password" ∧
    parseChange passwordChange =
      [(".name", ⟨"db", "db1"⟩), (".password", ⟨"old", "(sensitive value)"⟩)] ∧
    (∀ q, mget (parseChange ⟨passwordChange.Before,
        .obj [("name", .str "db1"), ("password", .str "another")],
        passwordChange.AfterUnknown, passwordChange.BeforeSensitive,
        passwordChange.AfterSensitive⟩) q = mget (parseChange passwordChange) q) ∧
    (∀ q, mget (parseChange ⟨passwordChange.Before,
        .obj [("name", .str "db1"), ("password", .null)],
        passwordChange.AfterUnknown, passwordChange.BeforeSensitive,
        passwordChange.AfterSensitive⟩) q = mget (parseChange passwordChange) q) :=
  ⟨by decide, by decide,
    (parseChange_redaction passwordChange ".password"
      (.obj [("name", .str "db1"), ("password", .str "another")])).1
      (LeafSwap.field "" [("name", .str "db1")] "password" (.str "hunter2") (.str "another")
        [] ".password" (LeafSwap.leaf ".password" _ _ rfl rfl))
      (by decide),
    (parseChange_redaction passwordChange ".password"
      (.obj [("name", .str "db1"), ("password", .null)])).1
      (LeafSwap.field "" [("name", .str "db1")] "password" (.str "hunter2") .null
        [] ".password" (LeafSwap.leaf ".password" _ _ rfl rfl))
      (by decide)⟩



/-! ## A value that is sensitive as a whole: claim C39 -/

theorem mget_overlaidAfter_wholly_sensitive (before v unknown bs : Value)
    (hv : isLeafValue v = true) (hu : isLeafValue unknown = true) (q : String) :
    mget (overlaidAfter ⟨before, v, unknown, bs, .bool true⟩) q =
      if q = "." then some "(sensitive value)" else none := by
  rw [mget_overlaidAfter]
  have hs : flattenOverlay (.bool true) = [(".", "true")] := by decide
  simp only [hs, List.mem_singleton, Prod.mk.injEq, and_true]
  by_cases hq : q = "."
  · simp only [hq, if_true]
  · simp only [hq, if_false]
    have hnot : (q, "true") ∉ flattenOverlay unknown := by
      intro hm
      have hk := mget_of_mem _ _ _ (keysNodup_flattenOverlay unknown) hm
      unfold flattenOverlay at hk
      split at hk
      · rw [mget_flatten_leaf unknown hu "" q hq] at hk
        simp [mget] at hk
      · simp [mget] at hk
    simp only [hnot, if_false]
    rw [mget_flatten_leaf v hv "" q hq]
    rfl

/-- C39 fails on the code: when `afterSensitive` is `true` for a whole value that is a
map, the overlay marks only the path `.`, which the map does not have, and the leaves
of `after` stay in the diff: the password is reported at `.password`, next to a
`(sensitive value)` at `.`.  When the after value is a scalar (and `afterUnknown` is a
scalar or null) every `After` is `(sensitive value)` or `(empty)`, as claimed. -/
theorem parseChange_wholly_sensitive_leaks :
    parseChange sensitiveMapChange =
      [(".password", ⟨"(empty)", "hunter2"⟩), (".", ⟨"(empty)", "(sensitive value)"⟩)] ∧
    mget (parseChange sensitiveMapChange) ".password" = some ⟨"(empty)", "hunter2"⟩ ∧
    parseChange ⟨.null, .str "hunter2", .bool false, .bool false, .bool true⟩ =
      [(".", ⟨"(empty)", "(sensitive value)"⟩)] ∧
    ∀ (before v unknown bs : Value), isLeafValue v = true → isLeafValue unknown = true →
      ∀ p d, mget (parseChange ⟨before, v, unknown, bs, .bool true⟩) p = some d →
        d.After = "(sensitive value)" ∨ d.After = "(empty)" := by
  refine ⟨by decide, by decide, by decide, ?_⟩
  intro before v unknown bs hv hu p d h
  rw [mget_parseChange, mget_overlaidAfter_wholly_sensitive before v unknown bs hv hu] at h
  by_cases hp : p = "."
  · simp only [hp, if_true] at h
    cases hb : mget (overlaidBefore ⟨before, v, unknown, bs, .bool true⟩) "." with
    | none =>
      rw [hb] at h
      simp only [Option.some.injEq] at h
      subst h
      exact Or.inl rfl
    | some b =>
      rw [hb] at h
      simp only at h
      split at h
      · simp only [Option.some.injEq] at h
        subst h
        exact Or.inl rfl
      · cases h
  · simp only [hp, if_false] at h
    cases hb : mget (overlaidBefore ⟨before, v, unknown, bs, .bool true⟩) p with
    | none =>
      rw [hb] at h
      cases h
    | some b =>
      rw [hb] at h
      simp only [Option.some.injEq] at h
      subst h
      exact Or.inr rfl



/-! ## Rendering of indices -/

theorem digitChar_ne_dot (k : Nat) (hk : k < 10) : Nat.digitChar k ≠ '.' := by
  interval_cases k <;> decide

theorem toDigitsCore_no_dot (fuel : Nat) : ∀ (n : Nat) (ds : List Char),
    (∀ c ∈ ds, c ≠ '.') → ∀ c ∈ Nat.toDigitsCore 10 fuel n ds, c ≠ '.' := by
  induction fuel with
  | zero =>
    intro n ds h c hc
    simp only [Nat.toDigitsCore] at hc
    exact h c hc
  | succ fuel ih =>
    intro n ds h c hc
    simp only [Nat.toDigitsCore] at hc
    have hds : ∀ c ∈ Nat.digitChar (n % 10) :: ds, c ≠ '.' := by
      intro c hc
      rcases List.mem_cons.mp hc with h1 | h1
      · rw [h1]
        exact digitChar_ne_dot _ (Nat.mod_lt _ (by decide))
      · exact h c h1
    split at hc
    · exact hds c hc
    · exact ih _ _ hds c hc

theorem toString_no_dot (n : Nat) : ∀ c ∈ (toString n).data, c ≠ '.' := by
  intro c hc
  have h : (toString n).data = Nat.toDigitsCore 10 (n + 1) n [] := rfl
  rw [h] at hc
  exact toDigitsCore_no_dot _ _ _ (fun c hc => by simp at hc) c hc

theorem toDigitsCore_append (fuel : Nat) : ∀ (n : Nat) (ds : List Char),
    Nat.toDigitsCore 10 fuel n ds = Nat.toDigitsCore 10 fuel n [] ++ ds := by
  induction fuel with
  | zero =>
    intro n ds
    simp [Nat.toDigitsCore]
  | succ fuel ih =>
    intro n ds
    simp only [Nat.toDigitsCore]
    split
    · simp
    · rw [ih _ (Nat.digitChar (n % 10) :: ds), ih _ [Nat.digitChar (n % 10)]]
      simp

theorem digitChar_toNat (k : Nat) (hk : k < 10) : (Nat.digitChar k).toNat - 48 = k := by
  interval_cases k <;> decide

theorem toDigitsCore_value (fuel : Nat) : ∀ (n : Nat), n < fuel →
    (Nat.toDigitsCore 10 fuel n []).foldl (fun a c => 10 * a + (c.toNat - 48)) 0 = n := by
  induction fuel with
  | zero =>
    intro n h
    omega
  | succ fuel ih =>
    intro n h
    simp only [Nat.toDigitsCore]
    split
    · rename_i h0
      simp only [List.foldl_cons, List.foldl_nil]
      rw [digitChar_toNat _ (Nat.mod_lt _ (by decide))]
      omega
    · rename_i h0
      rw [toDigitsCore_append, List.foldl_append, ih (n / 10) (by omega)]
      simp only [List.foldl_cons, List.foldl_nil]
      rw [digitChar_toNat _ (Nat.mod_lt _ (by decide))]
      omega

theorem toString_nat_injective (i j : Nat) (h : (toString i).data = (toString j).data) :
    i = j := by
  have hi : (toString i).data = Nat.toDigitsCore 10 (i + 1) i [] := rfl
  have hj : (toString j).data = Nat.toDigitsCore 10 (j + 1) j [] := rfl
  rw [hi, hj] at h
  have h1 := toDigitsCore_value (i + 1) i (Nat.lt_succ_self _)
  have h2 := toDigitsCore_value (j + 1) j (Nat.lt_succ_self _)
  rw [h] at h1
  rw [← h1, h2]


/-! ## Keys of the leaves of a tree with plain keys -/

theorem stem_eq_of_dotLed : ∀ (l1 l2 s1 s2 : List Char), (∀ c ∈ l1, c ≠ '.') →
    (∀ c ∈ l2, c ≠ '.') → DotLed s1 → DotLed s2 → l1 ++ s1 = l2 ++ s2 → l1 = l2
  | [], [], _, _, _, _, _, _, _ => rfl
  | [], c :: l2, s1, s2, _, h2, d1, _, h => by
    exfalso
    rcases d1 with d1 | ⟨r, d1⟩
    · rw [d1] at h
      simp at h
    · rw [d1] at h
      simp only [List.nil_append, List.cons_append, List.cons.injEq] at h
      exact h2 c (by simp) h.1.symm
  | c :: l1, [], s1, s2, h1, _, _, d2, h => by
    exfalso
    rcases d2 with d2 | ⟨r, d2⟩
    · rw [d2] at h
      simp at h
    · rw [d2] at h
      simp only [List.nil_append, List.cons_append, List.cons.injEq] at h
      exact h1 c (by simp) h.1
  | c :: l1, c' :: l2, s1, s2, h1, h2, d1, d2, h => by
    simp only [List.cons_append, List.cons.injEq] at h
    rw [h.1, stem_eq_of_dotLed l1 l2 s1 s2 (fun x hx => h1 x (by simp [hx]))
      (fun x hx => h2 x (by simp [hx])) d1 d2 h.2]

theorem hasNoDot_spec (k : String) (h : hasNoDot k = true) : ∀ c ∈ k.data, c ≠ '.' := by
  intro c hc
  unfold hasNoDot at h
  rw [List.all_eq_true] at h
  have := h c hc
  simpa using this

theorem leafPath_data (path : String) :
    ∃ suf, (leafPath path).data = path.data ++ suf ∧ DotLed suf := by
  unfold leafPath
  split
  · exact ⟨['.'], by rw [String.data_append], Or.inr ⟨[], rfl⟩⟩
  · exact ⟨[], by simp, Or.inl rfl⟩

mutual
theorem keys_writes : ∀ (path : String) (t : Value) (q : String),
    q ∈ (writes path t).map Prod.fst → ∃ suf, q.data = path.data ++ suf ∧ DotLed suf
  | path, .obj av1, q, h => by
    rw [writes] at h
    obtain ⟨k, _, suf, hq, _⟩ := keys_writesFields (path ++ ".") av1 q h
    refine ⟨'.' :: (k.data ++ suf), ?_, Or.inr ⟨_, rfl⟩⟩
    rw [hq, String.data_append]
    simp only [List.append_assoc]
    rfl
  | path, .list av1, q, h => by
    rw [writes] at h
    obtain ⟨j, _, suf, hq, _⟩ := keys_writesElems (path ++ ".") 0 av1 q h
    refine ⟨'.' :: (("[" ++ toString j ++ "]").data ++ suf), ?_, Or.inr ⟨_, rfl⟩⟩
    rw [hq, String.data_append]
    simp only [List.append_assoc]
    rfl
  | path, .strs av1, q, h => by
    rw [writes] at h
    simp only [List.map_cons, List.map_nil, List.mem_singleton] at h
    rw [h]
    exact ⟨['.'], by rw [String.data_append], Or.inr ⟨[], rfl⟩⟩
  | path, .null, q, h => by
    rw [writes] at h
    simp at h
  | path, .bool b, q, h => by
    rw [writes] at h
    simp only [List.map_cons, List.map_nil, List.mem_singleton] at h
    rw [h]
    exact leafPath_data path
  | path, .num text, q, h => by
    rw [writes] at h
    simp only [List.map_cons, List.map_nil, List.mem_singleton] at h
    rw [h]
    exact leafPath_data path
  | path, .str s, q, h => by
    rw [writes] at h
    simp only [List.map_cons, List.map_nil, List.mem_singleton] at h
    rw [h]
    exact leafPath_data path
theorem keys_writesFields : ∀ (path : String) (av1 : List (String × Value)) (q : String),
    q ∈ (writesFields path av1).map Prod.fst →
    ∃ k, k ∈ av1.map Prod.fst ∧ ∃ suf, q.data = path.data ++ k.data ++ suf ∧ DotLed suf
  | _, [], q, h => by
    rw [writesFields] at h
    simp at h
  | path, (k, v) :: rest, q, h => by
    rw [writesFields, List.map_append, List.mem_append] at h
    rcases h with h | h
    · obtain ⟨suf, hq, hs⟩ := keys_writes (path ++ k) v q h
      exact ⟨k, by simp, suf, by rw [hq, String.data_append], hs⟩
    · obtain ⟨k', hk', suf, hq, hs⟩ := keys_writesFields path rest q h
      exact ⟨k', by simp [hk'], suf, hq, hs⟩
theorem keys_writesElems : ∀ (path : String) (i : Nat) (av1 : List Value) (q : String),
    q ∈ (writesElems path i av1).map Prod.fst →
    ∃ j, i ≤ j ∧ ∃ suf, q.data = path.data ++ ("[" ++ toString j ++ "]").data ++ suf ∧
      DotLed suf
  | _, _, [], q, h => by
    rw [writesElems] at h
    simp at h
  | path, i, elem :: rest, q, h => by
    rw [writesElems, List.map_append, List.mem_append] at h
    rcases h with h | h
    · obtain ⟨suf, hq, hs⟩ := keys_writes (path ++ "[" ++ toString i ++ "]") elem q h
      refine ⟨i, Nat.le_refl _, suf, ?_, hs⟩
      rw [hq]
      simp only [String.data_append, List.append_assoc]
    · obtain ⟨j, hj, suf, hq, hs⟩ := keys_writesElems path (i + 1) rest q h
      exact ⟨j, Nat.le_of_succ_le hj, suf, hq, hs⟩
end

theorem segment_no_dot (j : Nat) : ∀ c ∈ ("[" ++ toString j ++ "]").data, c ≠ '.' := by
  intro c hc
  simp only [String.data_append, List.mem_append] at hc
  rcases hc with (hc | hc) | hc
  · have : c = '[' := by simpa using hc
    rw [this]
    decide
  · exact toString_no_dot j c hc
  · have : c = ']' := by simpa using hc
    rw [this]
    decide

theorem segment_injective (i j : Nat)
    (h : ("[" ++ toString i ++ "]").data = ("[" ++ toString j ++ "]").data) : i = j := by
  simp only [String.data_append] at h
  have h1 := List.append_cancel_right h
  have h2 := List.append_cancel_left h1
  exact toString_nat_injective i j h2

theorem plainKeysFields_keys : ∀ (av1 : List (String × Value)), plainKeysFields av1 = true →
    ∀ k ∈ av1.map Prod.fst, hasNoDot k = true
  | [], _, k, hk => by simp at hk
  | (k0, v) :: rest, h, k, hk => by
    rw [plainKeysFields] at h
    simp only [Bool.and_eq_true] at h
    simp only [List.map_cons, List.mem_cons] at hk
    rcases hk with hk | hk
    · rw [hk]
      exact h.1.1.1
    · exact plainKeysFields_keys rest h.2 k hk

mutual
theorem nodup_writes : ∀ (path : String) (t : Value), plainKeys t = true →
    KeysNodup (writes path t)
  | path, .obj av1, h => by
    rw [plainKeys] at h
    rw [writes]
    exact nodup_writesFields (path ++ ".") av1 h
  | path, .list av1, h => by
    rw [plainKeys] at h
    rw [writes]
    exact nodup_writesElems (path ++ ".") 0 av1 h
  | path, .strs av1, _ => by
    rw [writes]
    simp [KeysNodup]
  | path, .null, _ => by
    rw [writes]
    simp [KeysNodup]
  | path, .bool b, _ => by
    rw [writes]
    simp [KeysNodup]
  | path, .num text, _ => by
    rw [writes]
    simp [KeysNodup]
  | path, .str s, _ => by
    rw [writes]
    simp [KeysNodup]
theorem nodup_writesFields : ∀ (path : String) (av1 : List (String × Value)),
    plainKeysFields av1 = true → KeysNodup (writesFields path av1)
  | _, [], _ => by
    rw [writesFields]
    simp [KeysNodup]
  | path, (k, v) :: rest, h => by
    have hkeys := plainKeysFields_keys ((k, v) :: rest) h
    rw [plainKeysFields] at h
    simp only [Bool.and_eq_true, decide_eq_true_eq] at h
    obtain ⟨⟨⟨hk, hnot⟩, hv⟩, hrest⟩ := h
    rw [writesFields]
    unfold KeysNodup
    rw [List.map_append, List.nodup_append]
    refine ⟨nodup_writes (path ++ k) v hv, nodup_writesFields path rest hrest, ?_⟩
    intro q hq1 hq2
    obtain ⟨suf, e1, d1⟩ := keys_writes (path ++ k) v q hq1
    obtain ⟨k', hk', suf', e2, d2⟩ := keys_writesFields path rest q hq2
    rw [e1, String.data_append, List.append_assoc, List.append_assoc] at e2
    have e3 := List.append_cancel_left e2
    have e4 := stem_eq_of_dotLed k.data k'.data suf suf' (hasNoDot_spec k hk)
      (hasNoDot_spec k' (hkeys k' (by simp [hk']))) d1 d2 e3
    have e5 : k = k' := String.ext e4
    rw [e5] at hnot
    exact hnot hk'
theorem nodup_writesElems : ∀ (path : String) (i : Nat) (av1 : List Value),
    plainKeysElems av1 = true → KeysNodup (writesElems path i av1)
  | _, _, [], _ => by
    rw [writesElems]
    simp [KeysNodup]
  | path, i, elem :: rest, h => by
    rw [plainKeysElems, Bool.and_eq_true] at h
    rw [writesElems]
    unfold KeysNodup
    rw [List.map_append, List.nodup_append]
    refine ⟨nodup_writes _ elem h.1, nodup_writesElems path (i + 1) rest h.2, ?_⟩
    intro q hq1 hq2
    obtain ⟨suf, e1, d1⟩ := keys_writes (path ++ "[" ++ toString i ++ "]") elem q hq1
    obtain ⟨j, hj, suf', e2, d2⟩ := keys_writesElems path (i + 1) rest q hq2
    have e1' : q.data = path.data ++ ("[" ++ toString i ++ "]").data ++ suf := by
      rw [e1]
      simp only [String.data_append, List.append_assoc]
    rw [e1', List.append_assoc, List.append_assoc] at e2
    have e3 := List.append_cancel_left e2
    have e4 := stem_eq_of_dotLed _ _ suf suf' (segment_no_dot i) (segment_no_dot j) d1 d2 e3
    have e5 := segment_injective i j e4
    omega
end

mutual
theorem length_writes_written : ∀ (path : String) (a : Value),
    (writes path a).length = writtenLeaves a
  | path, .obj av1 => by
    rw [writes, writtenLeaves]
    exact length_writesFields_written (path ++ ".") av1
  | path, .list av1 => by
    rw [writes, writtenLeaves]
    exact length_writesElems_written (path ++ ".") 0 av1
  | path, .strs av1 => by
    rw [writes, writtenLeaves]
    rfl
  | path, .null => by
    rw [writes, writtenLeaves]
    rfl
  | path, .bool b => by
    rw [writes, writtenLeaves]
    rfl
  | path, .num text => by
    rw [writes, writtenLeaves]
    rfl
  | path, .str s => by
    rw [writes, writtenLeaves]
    rfl
theorem length_writesFields_written : ∀ (path : String) (av1 : List (String × Value)),
    (writesFields path av1).length = writtenLeavesFields av1
  | _, [] => by
    rw [writesFields, writtenLeavesFields]
    rfl
  | path, (k, v) :: rest => by
    rw [writesFields, writtenLeavesFields, List.length_append,
      length_writes_written (path ++ k) v, length_writesFields_written path rest]
theorem length_writesElems_written : ∀ (path : String) (i : Nat) (av1 : List Value),
    (writesElems path i av1).length = writtenLeavesElems av1
  | _, _, [] => by
    rw [writesElems, writtenLeavesElems]
    rfl
  | path, i, elem :: rest => by
    rw [writesElems, writtenLeavesElems, List.length_append,
      length_writes_written _ elem, length_writesElems_written path (i + 1) rest]
end

/-- C37: for every tree in whose maps no key contains `.` and each key occurs once,
`flatten` from the root writes its leaves at pairwise distinct keys: the number of
entries equals the number of non-null scalar leaves plus the number of sequences of
strings, the keys of the flat map are the keys written, in the order of writing, and
every leaf written is found at its key with its own value, none being overwritten. -/
theorem flatten_plainKeys (t : Value) (h : plainKeys t = true) :
    KeysNodup (writes "" t) ∧
    (flatten "" t []).length = writtenLeaves t ∧
    (flatten "" t []).map Prod.fst = (writes "" t).map Prod.fst ∧
    ∀ e, e ∈ writes "" t → mget (flatten "" t []) e.1 = some e.2 := by
  have hn := nodup_writes "" t h
  have hk := keys_foldl_mset (writes "" t) [] hn (by simp)
  simp only [List.map_nil, List.nil_append] at hk
  refine ⟨hn, ?_, ?_, ?_⟩
  · rw [flatten_eq_writes]
    have hlen := congrArg List.length hk
    simp only [List.length_map] at hlen
    rw [hlen, length_writes_written]
  · rw [flatten_eq_writes]
    exact hk
  · intro e he
    rw [flatten_eq_writes, mget_foldl_mset _ _ _ hn, mget_of_mem _ e.1 e.2 hn he]
    rfl

/-- Witness of C37: `serviceTree` has plain keys, three scalar leaves under maps and a
sequence, one of them in a map inside the sequence, and four entries. -/
theorem flatten_plainKeys_witness :
    plainKeys serviceTree = true ∧ writtenLeaves serviceTree = 4 ∧
    (flatten "" serviceTree []).length = 4 ∧
    (flatten "" serviceTree []).map Prod.fst = [".name", ".ports.[0]", ".ports.[1].tls",
      ".zones.a"] ∧
    plainKeys dottedTree = false :=
  ⟨by decide, by decide,
    (flatten_plainKeys serviceTree (by decide)).2.1.trans (by decide), by decide, by decide⟩

end TfPlan
